import Mathlib

/-! # BinTex: a shallow embedding of `bintex.c`

The development models the buffer-backed path of the BinTex parser
(`bintex_iter_sq`, `bintex_ss` and the static helpers they reach) together
with the internal byte queue.

Platform conventions of the embedding (those of the default build on a
common desktop target):

* `char` is a signed 8-bit type, `int` is a 32-bit two's complement type,
  `int16_t` and the unsigned types are the usual fixed-width types;
  conversions between them are written out with explicit `%`;
* the host is little-endian and `__BIG_ENDIAN__` is not defined;
* C integers are `Int`; counters that never go negative (`digits`, `i`,
  `shift`, `size`, addresses) are `Nat`;
* the input is the memory from the cursor onward, one cell per `unsigned char`;
  a cell holding 0 is the terminator of the C string, and memory past the
  modelled cells reads as 0;
* the queue memory is a function from addresses to bytes, so that the
  unchecked writes of the queue module are defined at every address.
-/

namespace BinTex

/-! ## Machine integers -/

/-- Conversion to `char` (signed, 8 bits). -/
def toChar (v : Int) : Int := (v + 128) % 256 - 128

/-- Conversion to `uint8_t`. -/
def toUInt8 (v : Int) : Int := v % 256

/-- Conversion to `int16_t`. -/
def toInt16 (v : Int) : Int := (v + 32768) % 65536 - 32768

/-- Conversion to `uint16_t`. -/
def toUInt16 (v : Int) : Int := v % 65536

/-- Conversion to `int` (signed, 32 bits). -/
def toInt32 (v : Int) : Int := (v + 2147483648) % 4294967296 - 2147483648

/-- Conversion to `uint32_t`. -/
def toUInt32 (v : Int) : Int := v % 4294967296

/-- The operator `&` on two `int` values, computed on their 32-bit patterns. -/
def c_and (a b : Int) : Int :=
  toInt32 (Int.ofNat ((toUInt32 a).toNat &&& (toUInt32 b).toNat))

/-- The operator `|` on two `int` values, computed on their 32-bit patterns. -/
def c_or (a b : Int) : Int :=
  toInt32 (Int.ofNat ((toUInt32 a).toNat ||| (toUInt32 b).toNat))

/-- The operator `<<` on an `int` value. -/
def c_shl (a : Int) (n : Nat) : Int := toInt32 (a * Int.ofNat (2 ^ n))

/-! ## Character classes (the macros at the head of the file) -/

/-- Macro `IS_WHITESPACE`. -/
def IS_WHITESPACE (v : Int) : Bool := v == 32 || v == 13 || v == 10 || v == 9

/-- Macro `IS_HEXVAL`. -/
def IS_HEXVAL (v : Int) : Bool :=
  (decide (48 ≤ v) && decide (v ≤ 57)) || (decide (97 ≤ v) && decide (v ≤ 102))
    || (decide (65 ≤ v) && decide (v ≤ 70))

/-- Macro `IS_DECVAL`. -/
def IS_DECVAL (v : Int) : Bool := decide (48 ≤ v) && decide (v ≤ 57)

/-- Macro `IS_BINVAL`. -/
def IS_BINVAL (v : Int) : Bool := decide (48 ≤ v) && decide (v ≤ 49)

/-- The enumeration `Data_type`. -/
inductive Data_type where
  | DATA_EOF
  | DATA_error
  | DATA_lineterm
  | DATA_comment
  | DATA_ascii
  | DATA_binnum
  | DATA_hexnum
  | DATA_hexblock
  | DATA_decnum
  | DATA_decblock
  deriving DecidableEq, Repr

/-! ## The output queue -/

/-- The queue object `bintex_q`: cursors are addresses into `mem`. -/
structure bintex_q where
  alloc : Nat
  options : Nat
  front : Nat
  back : Nat
  getcursor : Nat
  putcursor : Nat
  mem : Nat → Int

/-- Function `q_empty`. -/
def q_empty (q : bintex_q) : bintex_q :=
  { q with options := 0, back := q.front + q.alloc, putcursor := q.front, getcursor := q.front }

/-- Function `q_init`; `alloc` is converted to `uint16_t`. -/
def q_init (q : bintex_q) (buffer : Nat) (alloc : Int) : bintex_q :=
  q_empty { q with alloc := (toUInt16 alloc).toNat, front := buffer,
                   back := buffer + (toUInt16 alloc).toNat }

/-- Function `q_length`. -/
def q_length (q : bintex_q) : Int := toInt16 ((q.putcursor : Int) - (q.front : Int))

/-- Function `q_span`. -/
def q_span (q : bintex_q) : Int := toInt16 ((q.putcursor : Int) - (q.getcursor : Int))

/-- Function `q_space`. -/
def q_space (q : bintex_q) : Int := toInt16 ((q.back : Int) - (q.putcursor : Int))

/-- The statement `*q->putcursor++ = v` for a byte value `v`. -/
def q_put (q : bintex_q) (v : Int) : bintex_q :=
  { q with mem := fun a => if a = q.putcursor then v else q.mem a,
           putcursor := q.putcursor + 1 }

/-- Function `q_writebyte`; the argument is converted to `uint8_t`. -/
def q_writebyte (q : bintex_q) (byte_in : Int) : bintex_q :=
  q_put q (toUInt8 byte_in)

/-- Byte `k` of the object representation of an unsigned value on the
little-endian host (`data[k]` in the source). -/
def data_byte (v : Int) (k : Nat) : Int := (v / Int.ofNat (256 ^ k)) % 256

/-- Function `q_writeshort` (the branch without `__BIG_ENDIAN__`). -/
def q_writeshort (q : bintex_q) (short_in : Int) : bintex_q :=
  let v := toUInt16 short_in
  q_put (q_put q (data_byte v 1)) (data_byte v 0)

/-- Function `q_writeshort_be` (the branch without `__BIG_ENDIAN__`). -/
def q_writeshort_be (q : bintex_q) (short_in : Int) : bintex_q :=
  let v := toUInt16 short_in
  q_put (q_put q (data_byte v 0)) (data_byte v 1)

/-- Function `q_writelong` (the branch without `__BIG_ENDIAN__`). -/
def q_writelong (q : bintex_q) (long_in : Int) : bintex_q :=
  let v := toUInt32 long_in
  q_put (q_put (q_put (q_put q (data_byte v 3)) (data_byte v 2)) (data_byte v 1)) (data_byte v 0)

/-- The `n` bytes of queue memory starting at address `a`. -/
def q_bytes (q : bintex_q) (a n : Nat) : List Int :=
  (List.range n).map (fun i => q.mem (a + i))

/-! ## The buffer-backed character source -/

/-- The input: the memory cells from the cursor onward. -/
abbrev Stream := List Int

/-- Function `sub_buffergetc`: the character read and the advanced cursor. -/
def sub_buffergetc : Stream → Int × Stream
  | [] => (-1, [])
  | c :: rest => (if c % 256 ≠ 0 then c % 256 else -1, rest)

/-- The loop of `sub_buffer_validatehex` over the local pointer `front`. -/
def sub_buffer_validatehex_loop : Stream → Int → Int
  | [], bytes_read => toInt32 (bytes_read + 1)
  | c :: front, bytes_read =>
    let a := toChar (c % 256)
    let bytes_read := toInt32 (bytes_read + 1)
    if a = 0 then bytes_read
    else if a = 93 then 0
    else if !IS_HEXVAL a && !IS_WHITESPACE a then bytes_read
    else sub_buffer_validatehex_loop front bytes_read

/-- Function `sub_buffer_validatehex`. The local `bytes_read` is not
initialised in the source; `garbage` is the value it happens to hold. -/
def sub_buffer_validatehex (garbage : Int) (stream : Stream) : Int :=
  sub_buffer_validatehex_loop stream garbage

/-! ## Digit readers -/

/-- The result of a digit reader: the value stored through `status`, the
returned count `digits`, the characters stored in `buf` (in the order they
were read, so that `buf[k]` is the `k`-th of them) and the advanced cursor. -/
structure Digits where
  status : Int
  digits : Nat
  buf : List Int
  stream : Stream

/-- The loop `while (digits < limit)` of `sub_hexdigits`; the first argument
is `limit - digits`. -/
def sub_hexdigits_loop : Nat → Digits → Digits
  | 0, d => d
  | k + 1, d =>
    let r := sub_buffergetc d.stream
    let c := toChar r.1
    let d1 : Digits := { d with buf := d.buf ++ [c], stream := r.2 }
    if c = 93 then { d1 with status := 1 }
    else if !IS_HEXVAL c then
      (if !IS_WHITESPACE c then { d1 with status := 2 } else d1)
    else sub_hexdigits_loop k { d1 with digits := d.digits + 1 }

/-- Function `sub_hexdigits`. -/
def sub_hexdigits (stream : Stream) (limit : Nat) : Digits :=
  sub_hexdigits_loop limit { status := 0, digits := 0, buf := [], stream := stream }

/-- The loop `while (digits < limit)` of `sub_decdigits`; the first argument
is `limit - digits`. -/
def sub_decdigits_loop : Nat → Digits → Digits
  | 0, d => d
  | k + 1, d =>
    let r := sub_buffergetc d.stream
    let c := toChar r.1
    let d1 : Digits := { d with buf := d.buf ++ [c], stream := r.2 }
    if c = 41 then { d1 with status := 1 }
    else if !IS_DECVAL c then
      (if !IS_WHITESPACE c then { d1 with status := 2 } else d1)
    else sub_decdigits_loop k { d1 with digits := d.digits + 1 }

/-- Function `sub_decdigits`. -/
def sub_decdigits (stream : Stream) (limit : Nat) : Digits :=
  sub_decdigits_loop limit { status := 0, digits := 0, buf := [], stream := stream }

/-- The loop `while (digits < limit)` of `sub_bindigits`; the first argument
is `limit - digits`. -/
def sub_bindigits_loop : Nat → Digits → Digits
  | 0, d => d
  | k + 1, d =>
    let r := sub_buffergetc d.stream
    let c := toChar r.1
    let d1 : Digits := { d with buf := d.buf ++ [c], stream := r.2 }
    if !IS_BINVAL c then
      (if !IS_WHITESPACE c then { d1 with status := 2 } else d1)
    else sub_bindigits_loop k { d1 with digits := d.digits + 1 }

/-- Function `sub_bindigits`. -/
def sub_bindigits (stream : Stream) (limit : Nat) : Digits :=
  sub_bindigits_loop limit { status := 0, digits := 0, buf := [], stream := stream }

/-! ## Number decoders -/

/-- The outcome of a number decoder: the value left in `*status`, the value
returned, the advanced cursor and the queue. -/
structure Decoded where
  status : Int
  ret : Int
  stream : Stream
  msg : bintex_q

/-- Function `sub_char2hex`. -/
def sub_char2hex (input : Int) : Int :=
  if 48 ≤ input ∧ input ≤ 57 then toChar (input - 48)
  else if 97 ≤ input ∧ input ≤ 102 then toChar (input - (97 - 10))
  else if 65 ≤ input ∧ input ≤ 70 then toChar (input - (65 - 10))
  else 0

/-- The loop `while (i < digits)` of `sub_gethexnum`, returning the final `i`
and the queue; the first argument bounds the number of iterations (each one
advances `i` by two). -/
def sub_gethexnum_loop (buf : List Int) (digits : Nat) : Nat → Nat → bintex_q → Nat × bintex_q
  | 0, i, msg => (i, msg)
  | fuel + 1, i, msg =>
    if i < digits then
      let byte_data := toChar (c_and (c_shl (sub_char2hex (buf.getD i 0)) 4) 240)
      let byte_data := toChar (c_or byte_data (c_and (sub_char2hex (buf.getD (i + 1) 0)) 15))
      sub_gethexnum_loop buf digits fuel (i + 2) (q_writebyte msg byte_data)
    else (i, msg)

/-- Function `sub_gethexnum`. -/
def sub_gethexnum (stream : Stream) (msg : bintex_q) : Decoded :=
  let d := sub_hexdigits stream 64
  let odd : Bool := c_and (d.digits : Int) 1 != 0
  let i := if odd then 1 else 0
  let msg := if odd then q_writebyte msg (sub_char2hex (d.buf.getD 0 0)) else msg
  let r := sub_gethexnum_loop d.buf d.digits d.digits i msg
  { status := d.status, ret := ((r.1 : Int) + 1) / 2, stream := d.stream, msg := r.2 }

/-- The loop `while (shift > 0)` of `sub_getbinnum`, by recursion on the
counter `shift` (the pattern `shift + 1` is its value at the loop test, `shift`
its value after `shift--`), returning the final `i` and `byte`. -/
def sub_getbinnum_inner (buf : List Int) : Nat → Nat → Int → Nat × Int
  | 0, i, byte => (i, byte)
  | shift + 1, i, byte =>
    if shift + 1 > 0 then
      let next := buf.getD i 0
      let next := toChar (c_and next 1)
      let byte := toChar (c_or byte (c_shl next shift))
      sub_getbinnum_inner buf shift (i + 1) byte
    else (i, byte)

/-- The `do ... while (i < digits)` loop of `sub_getbinnum`, returning the
final `i` and the queue; the first argument bounds the number of further
iterations (each one after the first advances `i` by eight). -/
def sub_getbinnum_loop (buf : List Int) (digits : Nat) :
    Nat → Nat → Nat → Int → bintex_q → Nat × bintex_q
  | fuel, shift, i, byte, msg =>
    let r := sub_getbinnum_inner buf shift i byte
    let i := r.1
    let msg := if i ≠ 0 then q_writebyte msg r.2 else msg
    if i < digits then
      match fuel with
      | 0 => (i, msg)
      | fuel + 1 => sub_getbinnum_loop buf digits fuel 8 i 0 msg
    else (i, msg)

/-- Function `sub_getbinnum`. -/
def sub_getbinnum (stream : Stream) (msg : bintex_q) : Decoded :=
  let d := sub_bindigits stream 32
  let shift := (c_and (d.digits : Int) 7).toNat
  let r := sub_getbinnum_loop d.buf d.digits d.digits shift 0 0 msg
  { status := d.status, ret := ((r.1 : Int) + 7) / 8, stream := d.stream, msg := r.2 }

/-- The locals of `sub_getdecnum` after its digit-and-footer loop. -/
structure DecScan where
  i : Nat
  number : Int
  force_u : Nat
  size : Nat

/-- The loop `while (i < digits)` of `sub_getdecnum`; the first argument
bounds the number of iterations (each one that continues advances `i`). -/
def sub_getdecnum_scan (buf : List Int) (digits : Nat) : Nat → Nat → Int → DecScan
  | 0, i, number => { i := i, number := number, force_u := 0, size := 0 }
  | fuel + 1, i, number =>
    if i < digits then
      if 48 ≤ buf.getD i 0 ∧ buf.getD i 0 ≤ 57 then
        sub_getdecnum_scan buf digits fuel (i + 1)
          (toInt32 (toInt32 (number * 10) + (buf.getD i 0 - 48)))
      else
        let force_u := if buf.getD i 0 = 117 then 1 else 0
        let i := i + force_u
        let size := if buf.getD i 0 = 99 then 1
                    else if buf.getD i 0 = 115 then 2
                    else if buf.getD i 0 = 108 then 3
                    else 0
        { i := i, number := number, force_u := force_u, size := size }
    else { i := i, number := number, force_u := 0, size := 0 }

/-- The array `bound` of `sub_getdecnum`. -/
def bound : List Int := [128, 256, 32768, 65536, 0, 0]

/-- The loop `for (j=force_u, size=1; ; j+=2, size++)` of `sub_getdecnum`,
returning the final `size`; it stops at the latest on the zero entries of
`bound`, that is within three iterations. -/
def sub_getdecnum_autosize (max : Int) : Nat → Nat → Nat → Nat
  | 0, _, size => size
  | fuel + 1, j, size =>
    if bound.getD j 0 = 0 ∨ bound.getD j 0 ≥ max then size
    else sub_getdecnum_autosize max fuel (j + 2) (size + 1)

/-- Function `sub_getdecnum`. -/
def sub_getdecnum (stream : Stream) (msg : bintex_q) : Decoded :=
  let d := sub_decdigits stream 15
  let neg : Bool := d.buf.getD 0 0 == 45
  let i := if neg then 1 else 0
  let sign : Int := if neg then -1 else 1
  let sc := sub_getdecnum_scan d.buf d.digits d.digits i 0
  let size :=
    if sc.size = 0 then
      sub_getdecnum_autosize (sc.number - (if sign < 0 then 1 else 0)) 3 sc.force_u 1
    else sc.size
  let number := toInt32 (sc.number * sign)
  let sel := c_and (size : Int) 3
  if sel = 0 ∨ sel = 1 then
    { status := d.status, ret := size, stream := d.stream, msg := q_writebyte msg number }
  else if sel = 2 then
    { status := d.status, ret := size, stream := d.stream, msg := q_writeshort msg number }
  else
    { status := d.status, ret := 4, stream := d.stream, msg := q_writelong msg number }

/-! ## Token dispatch and the stream-driven decoders -/

/-- The `switch (next)` of `sub_parse_header`: `none` stands for the
`goto parse_header_getchar` of the bypassed characters. -/
def sub_parse_header_switch (next : Int) : Option Data_type :=
  if next = 10 ∨ next = 13 ∨ next = 9 ∨ next = 48 ∨ next = 32 then none
  else if next = 35 then some Data_type.DATA_comment
  else if next = 34 then some Data_type.DATA_ascii
  else if next = 98 then some Data_type.DATA_binnum
  else if next = 120 then some Data_type.DATA_hexnum
  else if next = 91 then some Data_type.DATA_hexblock
  else if next = 100 then some Data_type.DATA_decnum
  else if next = 40 then some Data_type.DATA_decblock
  else if next = 59 then some Data_type.DATA_lineterm
  else if next = -1 then some Data_type.DATA_EOF
  else some Data_type.DATA_error

/-- Function `sub_parse_header`: the token kind and the advanced cursor. Past
the modelled memory the read yields -1, which the switch maps to `DATA_EOF`. -/
def sub_parse_header : Stream → Data_type × Stream
  | [] => (Data_type.DATA_EOF, [])
  | c :: rest =>
    match sub_parse_header_switch (toChar (sub_buffergetc (c :: rest)).1) with
    | none => sub_parse_header rest
    | some t => (t, rest)

/-- The final loop `while (next >= 0)` of `sub_passcomment`: the value
returned and the advanced cursor. Past the modelled memory the read yields -1
and the loop is left. -/
def sub_passcomment_tail : Int → Stream → Int × Stream
  | next, [] => if next ≥ 0 then (if next = 10 then (0, []) else (-1, [])) else (-1, [])
  | next, c :: rest =>
    if next ≥ 0 then
      (if next = 10 then (0, c :: rest)
       else sub_passcomment_tail (sub_buffergetc (c :: rest)).1 rest)
    else (-1, c :: rest)

/-- The part of `sub_passcomment` from the label `sub_passcomment_passws` on. -/
def sub_passcomment_passws : Stream → Int × Stream
  | [] => (-1, [])
  | c :: rest =>
    let next := (sub_buffergetc (c :: rest)).1
    if next = -1 then (-1, rest)
    else if next = 10 then (0, rest)
    else if next = 13 ∨ next = 9 ∨ next = 32 then sub_passcomment_passws rest
    else sub_passcomment_tail next rest

/-- The loop `while (i<8)` of `sub_passcomment` followed by the rest of the
function; the first argument is `8 - i`. -/
def sub_passcomment_head : Nat → Stream → Int × Stream
  | 0, stream => sub_passcomment_passws stream
  | k + 1, stream =>
    let r := sub_buffergetc stream
    let next := r.1
    if next = -1 then (-1, r.2)
    else if next = 10 then (0, r.2)
    else if next = 13 ∨ next = 9 ∨ next = 32 then sub_passcomment_passws r.2
    else sub_passcomment_head k r.2

/-- Function `sub_passcomment`: the value returned and the advanced cursor. -/
def sub_passcomment (stream : Stream) : Int × Stream :=
  sub_passcomment_head 8 stream

/-- The outcome of a token decoder or of one iteration: the value returned,
the advanced cursor and the queue. -/
structure Iter where
  ret : Int
  stream : Stream
  msg : bintex_q

/-- The `switch (sub_getc(stream))` of `sub_getascii`: the new value of `next`
for the escape character `c`; without a matching case `next` keeps its value. -/
def sub_getascii_escape (c : Int) (next : Int) : Int :=
  if c = 97 then 7
  else if c = 92 then 92
  else if c = 98 then 8
  else if c = 114 then 13
  else if c = 34 then 34
  else if c = 102 then 12
  else if c = 116 then 9
  else if c = 110 then 10
  else if c = 48 then 0
  else if c = 39 then 39
  else if c = 118 then 11
  else if c = 63 then 63
  else next

/-- The loop `while (1)` of `sub_getascii`; `none` when the loop has not been
left after `fuel` iterations. -/
def sub_getascii_loop : Nat → Stream → bintex_q → Option (Stream × bintex_q)
  | 0, _, _ => none
  | fuel + 1, stream, msg =>
    let r := sub_buffergetc stream
    let next := toChar r.1
    if next = 34 then some (r.2, msg)
    else if next = 92 then
      let r2 := sub_buffergetc r.2
      let next := sub_getascii_escape r2.1 next
      sub_getascii_loop fuel r2.2 (q_writebyte msg next)
    else sub_getascii_loop fuel r.2 (q_writebyte msg next)

/-- Function `sub_getascii`. -/
def sub_getascii (fuel : Nat) (stream : Stream) (msg : bintex_q) : Option Iter :=
  let bytes_written := q_length msg
  match sub_getascii_loop fuel stream msg with
  | none => none
  | some r => some { ret := q_length r.2 - bytes_written, stream := r.1, msg := r.2 }

/-- The loop `while (status == 0)` of `sub_gethexblock`; `none` when the loop
has not been left after `fuel` iterations. -/
def sub_gethexblock_loop : Nat → Int → Stream → bintex_q → Option (Stream × bintex_q)
  | 0, status, stream, msg => if status = 0 then none else some (stream, msg)
  | fuel + 1, status, stream, msg =>
    if status = 0 then
      let d := sub_gethexnum stream msg
      sub_gethexblock_loop fuel d.status d.stream d.msg
    else some (stream, msg)

/-- Function `sub_gethexblock`, with `sub_validatehex` bound to
`sub_buffer_validatehex`. -/
def sub_gethexblock (garbage : Int) (fuel : Nat) (stream : Stream) (msg : bintex_q) :
    Option Iter :=
  let bytes_written := q_length msg
  let status := sub_buffer_validatehex garbage stream
  match sub_gethexblock_loop fuel status stream msg with
  | none => none
  | some r => some { ret := q_length r.2 - bytes_written, stream := r.1, msg := r.2 }

/-- The loop `while (status == 0)` of `sub_getdecblock`; `none` when the loop
has not been left after `fuel` iterations. -/
def sub_getdecblock_loop : Nat → Int → Stream → bintex_q → Option (Stream × bintex_q)
  | 0, status, stream, msg => if status = 0 then none else some (stream, msg)
  | fuel + 1, status, stream, msg =>
    if status = 0 then
      let d := sub_getdecnum stream msg
      sub_getdecblock_loop fuel d.status d.stream d.msg
    else some (stream, msg)

/-- Function `sub_getdecblock`. -/
def sub_getdecblock (fuel : Nat) (stream : Stream) (msg : bintex_q) : Option Iter :=
  let bytes_written := q_length msg
  match sub_getdecblock_loop fuel 0 stream msg with
  | none => none
  | some r => some { ret := q_length r.2 - bytes_written, stream := r.1, msg := r.2 }

/-- Function `sub_parsestream`, with the source bound to the buffer adapter;
`fuel` bounds the iterations of the loops of the string and block decoders. -/
def sub_parsestream (garbage : Int) (fuel : Nat) (stream : Stream) (msg : bintex_q) :
    Option Iter :=
  let h := sub_parse_header stream
  match h.1 with
  | Data_type.DATA_EOF => some { ret := -1, stream := h.2, msg := msg }
  | Data_type.DATA_error => some { ret := -2, stream := h.2, msg := msg }
  | Data_type.DATA_lineterm => some { ret := -3, stream := h.2, msg := msg }
  | Data_type.DATA_comment =>
    some { ret := (sub_passcomment h.2).1, stream := (sub_passcomment h.2).2, msg := msg }
  | Data_type.DATA_ascii => sub_getascii fuel h.2 msg
  | Data_type.DATA_binnum =>
    some { ret := (sub_getbinnum h.2 msg).ret, stream := (sub_getbinnum h.2 msg).stream,
           msg := (sub_getbinnum h.2 msg).msg }
  | Data_type.DATA_hexnum =>
    some { ret := (sub_gethexnum h.2 msg).ret, stream := (sub_gethexnum h.2 msg).stream,
           msg := (sub_gethexnum h.2 msg).msg }
  | Data_type.DATA_hexblock => sub_gethexblock garbage fuel h.2 msg
  | Data_type.DATA_decnum =>
    some { ret := (sub_getdecnum h.2 msg).ret, stream := (sub_getdecnum h.2 msg).stream,
           msg := (sub_getdecnum h.2 msg).msg }
  | Data_type.DATA_decblock => sub_getdecblock fuel h.2 msg

/-- Function `bintex_iter_sq`; the parameter `size` is not used by the source. -/
def bintex_iter_sq (garbage : Int) (fuel : Nat) (string : Stream) (msg : bintex_q)
    (_size : Int) : Option Iter :=
  sub_parsestream garbage fuel string msg

/-- The loop `while (1)` of `bintex_ss`: the queue `local` when the loop is
left, `none` when it has not been left after `fuel` iterations. -/
def bintex_ss_loop (garbage : Int) : Nat → Stream → bintex_q → Int → Option bintex_q
  | 0, _, _, _ => none
  | fuel + 1, string, q, size =>
    match bintex_iter_sq garbage (fuel + 1) string q size with
    | none => none
    | some it =>
      if it.ret < 0 then some it.msg
      else bintex_ss_loop garbage fuel it.stream it.msg (toInt32 (size - it.ret))

/-- Function `bintex_ss`: the value returned and the final queue; `mem` is the
memory holding the output buffer and `stream_out` its address. -/
def bintex_ss (garbage : Int) (fuel : Nat) (string : Stream) (mem : Nat → Int)
    (stream_out : Nat) (size : Int) : Option (Int × bintex_q) :=
  let q := q_init { alloc := 0, options := 0, front := 0, back := 0, getcursor := 0,
                    putcursor := 0, mem := mem } stream_out size
  match bintex_ss_loop garbage fuel string q size with
  | none => none
  | some q => some (toInt32 ((q.putcursor : Int) - (q.front : Int)), q)

/-! ## Specification-side notions used to state the properties -/

/-- The queue after the statements `*q->putcursor++ = v` for the values of
`bs`, in order. -/
def q_puts (q : bintex_q) (bs : List Int) : bintex_q := bs.foldl q_put q

/-- The queue `q2` is the queue `q` with exactly the bytes `bs` appended: the
put cursor has advanced by their number, they occupy the memory from the old
put cursor on, every other byte of memory and every other field is unchanged. -/
def q_appended (q q2 : bintex_q) (bs : List Int) : Prop :=
  q2.putcursor = q.putcursor + bs.length ∧ q2.front = q.front ∧ q2.back = q.back ∧
  q2.getcursor = q.getcursor ∧ q2.alloc = q.alloc ∧ q2.options = q.options ∧
  q_bytes q2 q.putcursor bs.length = bs ∧
  ∀ a, (a < q.putcursor ∨ q.putcursor + bs.length ≤ a) → q2.mem a = q.mem a

/-- Value of a hexadecimal digit character (`0-9`, `a-f`, `A-F`). -/
def hex_digit_value (c : Int) : Int :=
  if 48 ≤ c ∧ c ≤ 57 then c - 48 else if 97 ≤ c ∧ c ≤ 102 then c - 87 else c - 55

/-- Pairwise nibble packing of a digit string, high nibble first. -/
def pack_pairs : List Int → List Int
  | a :: b :: t => (16 * hex_digit_value a + hex_digit_value b) :: pack_pairs t
  | _ => []

/-- Nibble packing of a digit string: with an odd number of digits the first
digit is a byte of its own and the others are packed pairwise. -/
def pack_hex (h : List Int) : List Int :=
  if h.length % 2 = 1 then hex_digit_value (h.getD 0 0) :: pack_pairs (h.drop 1)
  else pack_pairs h

/-- Value of a string of binary digit characters, most-significant bit first. -/
def bits_value : List Int → Int
  | [] => 0
  | b :: l => (b - 48) * 2 ^ l.length + bits_value l

/-- The values of the first `k` groups of eight binary digits of a string. -/
def pack_chunks : Nat → List Int → List Int
  | 0, _ => []
  | k + 1, l => bits_value (l.take 8) :: pack_chunks k (l.drop 8)

/-- Bit packing of a binary digit string, most-significant bit first: when
the number of digits is not a multiple of eight, the first byte holds the
leading remainder in its low bits. -/
def pack_bits (d : List Int) : List Int :=
  if d.length % 8 = 0 then pack_chunks (d.length / 8) d
  else bits_value (d.take (d.length % 8)) :: pack_chunks (d.length / 8) (d.drop (d.length % 8))

/-- The eight bits of a byte, most-significant bit first. -/
def byte_bits (b : Int) : List Int :=
  [b / 128 % 2, b / 64 % 2, b / 32 % 2, b / 16 % 2, b / 8 % 2, b / 4 % 2, b / 2 % 2, b % 2]

/-- The bit sequence of a byte sequence, most-significant bit first. -/
def bytes_bits : List Int → List Int
  | [] => []
  | b :: bs => byte_bits b ++ bytes_bits bs

/-- A queue of 512 bytes at address 0 over zeroed memory, as `q_init` leaves it. -/
def q_zero : bintex_q :=
  q_init { alloc := 0, options := 0, front := 0, back := 0, getcursor := 0, putcursor := 0,
           mem := fun _ => 0 } 0 512

/-- An element of the body of an ASCII string: a plain character or a
backslash escape, given by the character that follows the backslash. -/
inductive AsciiItem where
  | plain (c : Int)
  | esc (c : Int)
  deriving DecidableEq, Repr

/-- The byte a recognised escape stands for:
`\a`=0x07, `\\`=0x5C, `\b`=0x08, `\r`=0x0D, `\"`=0x22, `\f`=0x0C, `\t`=0x09,
`\n`=0x0A, `\0`=0x00, `\'`=0x27, `\v`=0x0B, `\?`=0x3F. -/
def escape_value (c : Int) : Int :=
  if c = 97 then 7 else if c = 92 then 92 else if c = 98 then 8 else if c = 114 then 13
  else if c = 34 then 34 else if c = 102 then 12 else if c = 116 then 9 else if c = 110 then 10
  else if c = 48 then 0 else if c = 39 then 39 else if c = 118 then 11 else 63

/-- The characters `a \ b r " f t n 0 ' v ?` of the recognised escapes. -/
def recognised_escape (c : Int) : Bool :=
  c == 97 || c == 92 || c == 98 || c == 114 || c == 34 || c == 102 || c == 116 || c == 110
    || c == 48 || c == 39 || c == 118 || c == 63

/-- Well-formed items: a plain character is a non-zero byte other than `"`
and the backslash, an escape is a recognised one. -/
def AsciiItem.valid : AsciiItem → Bool
  | AsciiItem.plain c => decide (0 < c) && decide (c < 256) && c != 34 && c != 92
  | AsciiItem.esc c => recognised_escape c

/-- The input text of an item. -/
def AsciiItem.text : AsciiItem → List Int
  | AsciiItem.plain c => [c]
  | AsciiItem.esc c => [92, c]

/-- The byte an item decodes to. -/
def AsciiItem.value : AsciiItem → Int
  | AsciiItem.plain c => c
  | AsciiItem.esc c => escape_value c

/-- The input text of a string body. -/
def ascii_text : List AsciiItem → List Int
  | [] => []
  | it :: its => it.text ++ ascii_text its

/-- A queue of 40000 bytes at address 0 that already holds 32767 bytes. -/
def q_long : bintex_q :=
  { alloc := 40000, options := 0, front := 0, back := 40000, getcursor := 0,
    putcursor := 32767, mem := fun _ => 0 }

/-- The content of a hex block between `[` and `]`: groups of hex digits, each
followed by one whitespace character, then a last group (any group may be
empty, which stands for adjacent or leading or trailing whitespace). -/
def hexblock_text : List (List Int × Int) → List Int → List Int
  | [], last => last
  | (g, w) :: gs, last => g ++ w :: hexblock_text gs last

/-- The concatenation of the nibble packings of the groups of a hex block. -/
def hexblock_bytes : List (List Int × Int) → List Int → List Int
  | [], last => pack_hex last
  | (g, _) :: gs, last => pack_hex g ++ hexblock_bytes gs last

/-- The characters bypassed before a token: newline, carriage return, tab,
space and `0`. -/
def is_bypassed (c : Int) : Bool := c == 10 || c == 13 || c == 9 || c == 32 || c == 48

/-- The token table: the kind of token announced by the byte `c`, where the
byte 0 is the end of the input. -/
def token_of_byte (c : Int) : Data_type :=
  if c = 35 then Data_type.DATA_comment
  else if c = 34 then Data_type.DATA_ascii
  else if c = 98 then Data_type.DATA_binnum
  else if c = 120 then Data_type.DATA_hexnum
  else if c = 91 then Data_type.DATA_hexblock
  else if c = 100 then Data_type.DATA_decnum
  else if c = 40 then Data_type.DATA_decblock
  else if c = 59 then Data_type.DATA_lineterm
  else if c = 0 then Data_type.DATA_EOF
  else Data_type.DATA_error

/-- Value of a string of decimal digit characters. -/
def dec_value (ds : List Int) : Int := ds.foldl (fun acc c => 10 * acc + (c - 48)) 0

/-! ## The read side of the queue and the string writer -/

/-- The expression `*q->getcursor++`: the byte read and the advanced queue. -/
def q_get (q : bintex_q) : Int × bintex_q :=
  (toUInt8 (q.mem q.getcursor), { q with getcursor := q.getcursor + 1 })

/-- Function `q_readbyte`. -/
def q_readbyte (q : bintex_q) : Int × bintex_q := q_get q

/-- The value of a 16-bit union whose bytes are `ubyte0` and `ubyte1`, on the
little-endian host (`data.ushort` in the source). -/
def uni16_value (ubyte0 ubyte1 : Int) : Int := ubyte0 + 256 * ubyte1

/-- The value of a 32-bit union whose bytes are `ubyte0` .. `ubyte3`, on the
little-endian host (`data.ulong` in the source). -/
def uni32_value (ubyte0 ubyte1 ubyte2 ubyte3 : Int) : Int :=
  ubyte0 + 256 * ubyte1 + 65536 * ubyte2 + 16777216 * ubyte3

/-- Function `q_readshort` (the branch without `__BIG_ENDIAN__`). -/
def q_readshort (q : bintex_q) : Int × bintex_q :=
  let r1 := q_get q
  let r0 := q_get r1.2
  (uni16_value r0.1 r1.1, r0.2)

/-- Function `q_readshort_be` (the branch without `__BIG_ENDIAN__`). -/
def q_readshort_be (q : bintex_q) : Int × bintex_q :=
  let r0 := q_get q
  let r1 := q_get r0.2
  (uni16_value r0.1 r1.1, r1.2)

/-- Function `q_readlong` (the branch without `__BIG_ENDIAN__`). -/
def q_readlong (q : bintex_q) : Int × bintex_q :=
  let r3 := q_get q
  let r2 := q_get r3.2
  let r1 := q_get r2.2
  let r0 := q_get r1.2
  (uni32_value r0.1 r1.1 r2.1 r3.1, r0.2)

/-- Function `q_writestring`: `memcpy` of the first `length` bytes of `string`
to the put cursor (bytes of `string` past its modelled cells read as 0). -/
def q_writestring (q : bintex_q) (string : List Int) (length : Nat) : bintex_q :=
  { q with mem := fun a => if q.putcursor ≤ a ∧ a < q.putcursor + length
                           then toUInt8 (string.getD (a - q.putcursor) 0) else q.mem a,
           putcursor := q.putcursor + length }

/-- The queue invariant `front ≤ getcursor ≤ putcursor ≤ back` for a queue
whose `back` is `front + alloc` with `alloc` at most 32767. -/
def q_wf (q : bintex_q) : Prop :=
  q.front ≤ q.getcursor ∧ q.getcursor ≤ q.putcursor ∧ q.putcursor ≤ q.back ∧
  q.back = q.front + q.alloc ∧ q.alloc ≤ 32767

/-- The hex digit character of a nibble value, in upper or lower case. -/
def hex_digit_char (upper : Bool) (v : Int) : Int :=
  if v < 10 then 48 + v else if upper then 55 + v else 87 + v

/-- The rendering of a byte sequence as hex digits, two per byte, high nibble
first; each byte comes with the case of its two digits. -/
def hex_render : List (Int × Bool × Bool) → List Int
  | [] => []
  | (b, hi, lo) :: t => hex_digit_char hi (b / 16) :: hex_digit_char lo (b % 16) :: hex_render t

/-- The queue `local` of `bintex_ss` after its call of `q_init`. -/
def ss_local (mem : Nat → Int) (stream_out : Nat) (size : Int) : bintex_q :=
  q_init { alloc := 0, options := 0, front := 0, back := 0, getcursor := 0, putcursor := 0,
           mem := mem } stream_out size

/-- `Iterations garbage s q its last`: from the cursor `s` and the queue `q`,
successive iterations, each on the cursor and the queue left by the one
before, return the non-negative outcomes `its`, in order, and then the first
negative outcome `last`. -/
inductive Iterations (garbage : Int) : Stream → bintex_q → List Iter → Iter → Prop where
  | stop (fuel : Nat) (s : Stream) (q : bintex_q) (last : Iter) :
      sub_parsestream garbage fuel s q = some last → last.ret < 0 →
      Iterations garbage s q [] last
  | step (fuel : Nat) (s : Stream) (q : bintex_q) (it : Iter) (its : List Iter) (last : Iter) :
      sub_parsestream garbage fuel s q = some it → 0 ≤ it.ret →
      Iterations garbage it.stream it.msg its last →
      Iterations garbage s q (it :: its) last

/-- The decimal-number encoding of a footer-less non-negative literal, given
by its digit characters, whose value `v` fits a 32-bit `int`: the smallest of
1, 2 or 4 bytes whose signed range holds `v`, that is 1 byte when `v ≤ 127`,
2 bytes when `128 ≤ v ≤ 32767` and 4 bytes when `v ≥ 32768`, most-significant
byte first. -/
def dec_encoding (ds : List Int) : List Int :=
  if dec_value ds ≤ 127 then [dec_value ds % 256]
  else if dec_value ds ≤ 32767 then [dec_value ds / 256 % 256, dec_value ds % 256]
  else
    [dec_value ds / 16777216 % 256, dec_value ds / 65536 % 256,
      dec_value ds / 256 % 256, dec_value ds % 256]

/-- The content of a decimal block between `(` and `)`: values given by their
digits, each followed by one whitespace character, then a last value. -/
def decblock_text : List (List Int × Int) → List Int → List Int
  | [], last => last
  | (g, w) :: gs, last => g ++ w :: decblock_text gs last

/-- The concatenation of the encodings of the values of a decimal block. -/
def decblock_bytes : List (List Int × Int) → List Int → List Int
  | [], last => dec_encoding last
  | (g, _) :: gs, last => dec_encoding g ++ decblock_bytes gs last

/-- The `char` obtained when the memory cell `c` is read through
`sub_buffergetc` and stored in a `char`: the cell itself for the characters
1 to 127, a negative value for the bytes 128 to 255, and -1 for the NUL. -/
def cell_char (c : Int) : Int := toChar (sub_buffergetc [c]).1

/-- The items of a string body as the loop of `sub_getascii` reads them: a
plain item is any cell that reads as neither `"` nor the backslash, an escape
is the backslash followed by any cell. -/
def AsciiItem.scans : AsciiItem → Bool
  | AsciiItem.plain c => cell_char c != 34 && cell_char c != 92
  | AsciiItem.esc _ => true

/-! ## Shared lemmas -/

theorem nibble_pack_fin : ∀ x : Fin 16, ∀ y : Fin 16,
    toUInt8 (toChar (c_or (toChar (c_and (c_shl (Int.ofNat x.val) 4) 240)) (c_and (Int.ofNat y.val) 15)))
      = 16 * Int.ofNat x.val + Int.ofNat y.val := by
  decide

theorem nibble_pack (x y : Int) (hx0 : 0 ≤ x) (hx : x < 16) (hy0 : 0 ≤ y) (hy : y < 16) :
    toUInt8 (toChar (c_or (toChar (c_and (c_shl x 4) 240)) (c_and y 15))) = 16 * x + y := by
  have := nibble_pack_fin ⟨x.toNat, by omega⟩ ⟨y.toNat, by omega⟩
  simp only [Int.ofNat_eq_coe] at this
  rw [Int.toNat_of_nonneg hx0, Int.toNat_of_nonneg hy0] at this
  exact this

theorem IS_HEXVAL_iff (c : Int) : IS_HEXVAL c = true ↔
    (48 ≤ c ∧ c ≤ 57) ∨ (97 ≤ c ∧ c ≤ 102) ∨ (65 ≤ c ∧ c ≤ 70) := by
  simp [IS_HEXVAL, or_assoc]

theorem char2hex_of_hex (c : Int) (h : IS_HEXVAL c = true) :
    sub_char2hex c = hex_digit_value c ∧ 0 ≤ hex_digit_value c ∧ hex_digit_value c < 16 := by
  rw [IS_HEXVAL_iff] at h
  unfold sub_char2hex hex_digit_value toChar
  split_ifs <;> omega

theorem q_puts_nil (q : bintex_q) : q_puts q [] = q := rfl

theorem q_puts_cons (q : bintex_q) (b : Int) (bs : List Int) :
    q_puts q (b :: bs) = q_puts (q_put q b) bs := rfl

theorem q_puts_append (q : bintex_q) (as bs : List Int) :
    q_puts q (as ++ bs) = q_puts (q_puts q as) bs := by
  simp [q_puts, List.foldl_append]

theorem q_puts_fields (bs : List Int) : ∀ q : bintex_q,
    (q_puts q bs).putcursor = q.putcursor + bs.length ∧ (q_puts q bs).front = q.front ∧
    (q_puts q bs).back = q.back ∧ (q_puts q bs).getcursor = q.getcursor ∧
    (q_puts q bs).alloc = q.alloc ∧ (q_puts q bs).options = q.options := by
  induction bs with
  | nil => intro q; simp [q_puts_nil]
  | cons b bs ih =>
    intro q
    rw [q_puts_cons]
    obtain ⟨h1, h2, h3, h4, h5, h6⟩ := ih (q_put q b)
    refine ⟨?_, h2, h3, h4, h5, h6⟩
    rw [h1]; simp [q_put]; omega

theorem q_puts_mem_outside (bs : List Int) : ∀ (q : bintex_q) (a : Nat),
    (a < q.putcursor ∨ q.putcursor + bs.length ≤ a) → (q_puts q bs).mem a = q.mem a := by
  induction bs with
  | nil => intro q a _; rfl
  | cons b bs ih =>
    intro q a ha
    rw [q_puts_cons, ih (q_put q b) a (by simp [q_put] at *; omega)]
    simp only [q_put]
    rw [if_neg]
    simp at ha; omega

theorem q_puts_mem_inside (bs : List Int) : ∀ (q : bintex_q) (k : Nat),
    k < bs.length → (q_puts q bs).mem (q.putcursor + k) = bs.getD k 0 := by
  induction bs with
  | nil => intro q k hk; simp at hk
  | cons b bs ih =>
    intro q k hk
    rw [q_puts_cons]
    cases k with
    | zero =>
      rw [q_puts_mem_outside bs (q_put q b) _ (by simp [q_put])]
      simp [q_put]
    | succ k =>
      have := ih (q_put q b) k (by simpa using hk)
      simp only [q_put] at this ⊢
      rw [show q.putcursor + (k + 1) = q.putcursor + 1 + k by omega, this]
      simp

theorem q_bytes_eq_of_mem (q : bintex_q) (a : Nat) (bs : List Int)
    (h : ∀ k, k < bs.length → q.mem (a + k) = bs.getD k 0) : q_bytes q a bs.length = bs := by
  apply List.ext_getElem
  · simp [q_bytes]
  · intro k h1 h2
    simp only [q_bytes, List.getElem_map, List.getElem_range]
    rw [h k h2, List.getD_eq_getElem _ _ h2]

theorem q_puts_appended (q : bintex_q) (bs : List Int) : q_appended q (q_puts q bs) bs := by
  obtain ⟨h1, h2, h3, h4, h5, h6⟩ := q_puts_fields bs q
  exact ⟨h1, h2, h3, h4, h5, h6, q_bytes_eq_of_mem _ _ _ (q_puts_mem_inside bs q),
    q_puts_mem_outside bs q⟩

theorem IS_WHITESPACE_iff (c : Int) : IS_WHITESPACE c = true ↔
    c = 32 ∨ c = 13 ∨ c = 10 ∨ c = 9 := by
  simp [IS_WHITESPACE, or_assoc]

theorem toChar_ascii (c : Int) (h0 : 0 ≤ c) (h1 : c < 128) : toChar c = c := by
  unfold toChar; omega

theorem getc_ascii (c : Int) (s : Stream) (h0 : 0 < c) (h1 : c < 256) :
    sub_buffergetc (c :: s) = (c, s) := by
  have : c % 256 = c := by omega
  simp [sub_buffergetc, this]; omega

theorem hexdigits_loop_run (h : List Int) (hh : ∀ c ∈ h, IS_HEXVAL c = true) :
    ∀ (k : Nat) (st : Int) (dg : Nat) (buf : List Int) (t : Stream),
      sub_hexdigits_loop (h.length + k)
          { status := st, digits := dg, buf := buf, stream := h ++ t }
        = sub_hexdigits_loop k
          { status := st, digits := dg + h.length, buf := buf ++ h, stream := t } := by
  induction h with
  | nil => intro k st dg buf t; simp
  | cons c h ih =>
    intro k st dg buf t
    have hc : IS_HEXVAL c = true := hh c (by simp)
    have hc2 := (IS_HEXVAL_iff c).1 hc
    have e1 : (c :: h).length + k = (h.length + k) + 1 := by simp; omega
    rw [e1, sub_hexdigits_loop]
    have g : sub_buffergetc (c :: h ++ t) = (c, h ++ t) :=
      getc_ascii c _ (by omega) (by omega)
    have tc : toChar c = c := toChar_ascii c (by omega) (by omega)
    simp only [List.cons_append] at g ⊢
    rw [g]
    simp only [tc, hc]
    rw [if_neg (by omega)]
    simp only [Bool.not_true, Bool.false_eq_true, if_false]
    rw [ih (fun x hx => hh x (by simp [hx]))]
    simp [Nat.add_assoc, Nat.add_comm 1]

/-- A digit run of `sub_hexdigits` ended by a whitespace character, short of
the limit. -/
theorem hexdigits_ws (h : List Int) (hh : ∀ c ∈ h, IS_HEXVAL c = true) (ws : Int)
    (hws : IS_WHITESPACE ws = true) (rest : Stream) (k : Nat) :
    sub_hexdigits (h ++ ws :: rest) (h.length + (k + 1))
      = { status := 0, digits := h.length, buf := h ++ [ws], stream := rest } := by
  unfold sub_hexdigits
  rw [hexdigits_loop_run h hh, sub_hexdigits_loop]
  have w := (IS_WHITESPACE_iff ws).1 hws
  have g : sub_buffergetc (ws :: rest) = (ws, rest) := getc_ascii ws _ (by omega) (by omega)
  have tc : toChar ws = ws := toChar_ascii ws (by omega) (by omega)
  have nh : IS_HEXVAL ws = false := by
    rcases w with w | w | w | w <;> subst w <;> decide
  simp only [g, tc, nh, hws]
  rw [if_neg (by omega)]
  simp

/-- A digit run of `sub_hexdigits` ended by `]`, short of the limit. -/
theorem hexdigits_close (h : List Int) (hh : ∀ c ∈ h, IS_HEXVAL c = true)
    (rest : Stream) (k : Nat) :
    sub_hexdigits (h ++ 93 :: rest) (h.length + (k + 1))
      = { status := 1, digits := h.length, buf := h ++ [93], stream := rest } := by
  unfold sub_hexdigits
  rw [hexdigits_loop_run h hh, sub_hexdigits_loop]
  have g : sub_buffergetc ((93 : Int) :: rest) = (93, rest) := getc_ascii 93 _ (by omega) (by omega)
  have tc : toChar 93 = 93 := by decide
  simp only [g, tc]
  simp

/-- A digit run of `sub_hexdigits` that reaches the limit. -/
theorem hexdigits_full (h : List Int) (hh : ∀ c ∈ h, IS_HEXVAL c = true) (rest : Stream) :
    sub_hexdigits (h ++ rest) h.length
      = { status := 0, digits := h.length, buf := h, stream := rest } := by
  unfold sub_hexdigits
  have := hexdigits_loop_run h hh 0 0 0 [] rest
  simp only [Nat.add_zero] at this
  rw [this, sub_hexdigits_loop]
  simp

theorem c_and_one_fin : ∀ n : Fin 65, c_and (Int.ofNat n.val) 1 = Int.ofNat (n.val % 2) := by
  decide

theorem c_and_one (n : Nat) (hn : n ≤ 64) : c_and (n : Int) 1 = ((n % 2 : Nat) : Int) :=
  c_and_one_fin ⟨n, by omega⟩

theorem getD_append_left (h suf : List Int) (i : Nat) (hi : i < h.length) :
    (h ++ suf).getD i 0 = h.getD i 0 := by
  rw [List.getD_eq_getElem _ _ (by simp; omega), List.getD_eq_getElem _ _ hi,
    List.getElem_append_left hi]

theorem gethexnum_loop_pairs (h : List Int) (hh : ∀ c ∈ h, IS_HEXVAL c = true)
    (suf : List Int) :
    ∀ (fuel i : Nat) (msg : bintex_q), i ≤ h.length → (h.length - i) % 2 = 0 →
      (h.length - i) / 2 ≤ fuel →
      sub_gethexnum_loop (h ++ suf) h.length fuel i msg
        = (h.length, q_puts msg (pack_pairs (h.drop i))) := by
  intro fuel
  induction fuel with
  | zero =>
    intro i msg hi hpar hf
    have : i = h.length := by omega
    subst this
    simp [sub_gethexnum_loop, pack_pairs, q_puts_nil]
  | succ fuel ih =>
    intro i msg hi hpar hf
    rw [sub_gethexnum_loop]
    by_cases hlt : i < h.length
    · have hlt2 : i + 1 < h.length := by omega
      rw [if_pos hlt]
      have e : h.drop i = h.getD i 0 :: h.getD (i + 1) 0 :: h.drop (i + 2) := by
        rw [List.drop_eq_getElem_cons hlt, List.drop_eq_getElem_cons hlt2,
          List.getD_eq_getElem _ _ hlt, List.getD_eq_getElem _ _ hlt2]
      have ha : IS_HEXVAL (h.getD i 0) = true := by
        rw [List.getD_eq_getElem _ _ hlt]; exact hh _ (List.getElem_mem _)
      have hb : IS_HEXVAL (h.getD (i + 1) 0) = true := by
        rw [List.getD_eq_getElem _ _ hlt2]; exact hh _ (List.getElem_mem _)
      obtain ⟨a1, a2, a3⟩ := char2hex_of_hex _ ha
      obtain ⟨b1, b2, b3⟩ := char2hex_of_hex _ hb
      simp only [getD_append_left h suf i hlt, getD_append_left h suf (i + 1) hlt2, a1, b1]
      rw [ih (i + 2) _ (by omega) (by omega) (by omega), e, pack_pairs, q_puts_cons]
      simp only [q_writebyte, nibble_pack _ _ a2 a3 b2 b3]
    · have : i = h.length := by omega
      subst this
      simp [pack_pairs, q_puts_nil]

theorem gethexnum_of_digits (stream : Stream) (msg : bintex_q) (h suf : List Int)
    (st : Int) (rest : Stream) (hh : ∀ c ∈ h, IS_HEXVAL c = true) (hlen : h.length ≤ 64)
    (hd : sub_hexdigits stream 64
      = { status := st, digits := h.length, buf := h ++ suf, stream := rest }) :
    sub_gethexnum stream msg
      = { status := st, ret := ((h.length + 1) / 2 : Nat), stream := rest,
          msg := q_puts msg (pack_hex h) } := by
  unfold sub_gethexnum
  simp only [hd, c_and_one _ hlen]
  by_cases hodd : h.length % 2 = 1
  · have hpos : 0 < h.length := by omega
    obtain ⟨a1, a2, a3⟩ := char2hex_of_hex (h.getD 0 0) (by
      rw [List.getD_eq_getElem _ _ hpos]; exact hh _ (List.getElem_mem _))
    have hne : (((h.length % 2 : Nat) : Int) != 0) = true := by
      rw [hodd]; decide
    simp only [hne, if_true]
    rw [gethexnum_loop_pairs h hh suf _ 1 _ (by omega) (by omega) (by omega)]
    simp only [pack_hex, if_pos hodd, q_puts_cons, q_writebyte, getD_append_left h suf 0 hpos, a1]
    have : toUInt8 (hex_digit_value (h.getD 0 0)) = hex_digit_value (h.getD 0 0) := by
      unfold toUInt8; omega
    rw [this]
    congr 1
  · have hev : h.length % 2 = 0 := by omega
    have hne : (((h.length % 2 : Nat) : Int) != 0) = false := by
      rw [hev]; decide
    simp only [hne, Bool.false_eq_true, if_false]
    rw [gethexnum_loop_pairs h hh suf _ 0 _ (by omega) (by omega) (by omega)]
    simp only [pack_hex, if_neg hodd, List.drop_zero]
    congr 1

theorem pack_pairs_length : ∀ (n : Nat) (l : List Int), l.length = n →
    (pack_pairs l).length = n / 2 := by
  intro n
  induction n using Nat.strong_induction_on with
  | _ n ih =>
    intro l hl
    match l, hl with
    | [], hl => simp at hl; subst hl; simp [pack_pairs]
    | [_], hl => simp at hl; subst hl; simp [pack_pairs]
    | a :: b :: t, hl =>
      simp only [List.length_cons] at hl
      simp only [pack_pairs, List.length_cons]
      rw [ih (n - 2) (by omega) t (by omega)]
      omega

theorem pack_pairs_getD : ∀ (n : Nat) (l : List Int), l.length = n → ∀ k, k < n / 2 →
    (pack_pairs l).getD k 0
      = 16 * hex_digit_value (l.getD (2 * k) 0) + hex_digit_value (l.getD (2 * k + 1) 0) := by
  intro n
  induction n using Nat.strong_induction_on with
  | _ n ih =>
    intro l hl k hk
    match l, hl with
    | [], hl => simp at hl; subst hl; simp at hk
    | [_], hl => simp at hl; subst hl; simp at hk
    | a :: b :: t, hl =>
      simp only [List.length_cons] at hl
      cases k with
      | zero => simp [pack_pairs]
      | succ k =>
        simp only [pack_pairs, List.getD_cons_succ]
        rw [ih (n - 2) (by omega) t (by omega) k (by omega)]
        rw [show 2 * (k + 1) = (2 * k + 1) + 1 by omega]
        simp only [List.getD_cons_succ]

theorem pack_hex_length (h : List Int) : (pack_hex h).length = (h.length + 1) / 2 := by
  unfold pack_hex
  split_ifs with hodd
  · simp only [List.length_cons]
    rw [pack_pairs_length (h.length - 1) _ (by simp)]
    omega
  · rw [pack_pairs_length h.length _ rfl]
    omega

/-- Claim C1: for a string `h` of at most 64 hex digits followed by a
whitespace character, `sub_gethexnum` appends exactly the `ceil(n/2)` bytes of
the nibble packing of `h` and returns `ceil(n/2)`; for even `n` byte `k` is
`16*val(h[2k]) + val(h[2k+1])`, for odd `n` the first byte is `val(h[0])` and
the remaining digits are packed pairwise, high nibble first. -/
theorem C1_hexnum_nibble_packing (h : List Int) (ws : Int) (rest : Stream) (msg : bintex_q)
    (hhex : ∀ c ∈ h, IS_HEXVAL c = true) (hlen : h.length ≤ 64)
    (hws : IS_WHITESPACE ws = true) :
    q_appended msg (sub_gethexnum (h ++ ws :: rest) msg).msg (pack_hex h) ∧
    (pack_hex h).length = (h.length + 1) / 2 ∧
    (sub_gethexnum (h ++ ws :: rest) msg).ret = (((h.length + 1) / 2 : Nat) : Int) ∧
    (h.length % 2 = 0 → ∀ k, k < h.length / 2 →
      (pack_hex h).getD k 0
        = 16 * hex_digit_value (h.getD (2 * k) 0) + hex_digit_value (h.getD (2 * k + 1) 0)) ∧
    (h.length % 2 = 1 →
      (pack_hex h).getD 0 0 = hex_digit_value (h.getD 0 0) ∧
      ∀ k, 1 ≤ k → k < (h.length + 1) / 2 →
        (pack_hex h).getD k 0
          = 16 * hex_digit_value (h.getD (2 * k - 1) 0) + hex_digit_value (h.getD (2 * k) 0)) := by
  have hrun : sub_gethexnum (h ++ ws :: rest) msg
      = { status := 0, ret := ((h.length + 1) / 2 : Nat),
          stream := if h.length = 64 then ws :: rest else rest,
          msg := q_puts msg (pack_hex h) } := by
    by_cases hfull : h.length = 64
    · have hd := hexdigits_full h hhex (ws :: rest)
      rw [hfull] at hd
      have := gethexnum_of_digits (h ++ ws :: rest) msg h [] 0 (ws :: rest) hhex hlen
        (by rw [hd]; simp [hfull])
      rw [this, if_pos hfull]
    · have hd := hexdigits_ws h hhex ws hws rest (63 - h.length)
      rw [show h.length + (63 - h.length + 1) = 64 by omega] at hd
      have := gethexnum_of_digits (h ++ ws :: rest) msg h [ws] 0 rest hhex hlen hd
      rw [this, if_neg hfull]
  rw [hrun]
  refine ⟨q_puts_appended msg _, pack_hex_length h, rfl, ?_, ?_⟩
  · intro hev k hk
    have hne : ¬ h.length % 2 = 1 := by omega
    simp only [pack_hex, if_neg hne]
    exact pack_pairs_getD h.length h rfl k hk
  · intro hodd
    simp only [pack_hex, if_pos hodd]
    refine ⟨by simp, ?_⟩
    intro k hk1 hk2
    obtain ⟨j, rfl⟩ : ∃ j, k = j + 1 := ⟨k - 1, by omega⟩
    simp only [List.getD_cons_succ]
    rw [pack_pairs_getD (h.length - 1) (h.drop 1) (by simp) j (by omega)]
    have e1 : (h.drop 1).getD (2 * j) 0 = h.getD (2 * (j + 1) - 1) 0 := by
      simp only [List.getD_eq_getElem?_getD, List.getElem?_drop]
      congr 2; omega
    have e2 : (h.drop 1).getD (2 * j + 1) 0 = h.getD (2 * (j + 1)) 0 := by
      simp only [List.getD_eq_getElem?_getD, List.getElem?_drop]
      congr 2; omega
    rw [e1, e2]

/-- Instance at the digits `1A3` followed by a space. -/
theorem C1_hexnum_nibble_packing_witness :
    (sub_gethexnum ([49, 65, 51] ++ 32 :: []) q_zero).ret
      = ((((([49, 65, 51] : List Int).length + 1) / 2 : Nat)) : Int) :=
  (C1_hexnum_nibble_packing [49, 65, 51] 32 [] q_zero (by decide) (by decide) (by decide)).2.2.1

theorem IS_BINVAL_iff (c : Int) : IS_BINVAL c = true ↔ c = 48 ∨ c = 49 := by
  simp [IS_BINVAL]; omega

set_option maxRecDepth 100000 in
theorem bin_or_step_fin : ∀ s : Fin 8, ∀ x : Fin 2, ∀ b : Fin 256, b.val % 2 ^ (s.val + 1) = 0 →
    toChar (c_or (toChar (Int.ofNat b.val)) (c_shl (toChar (c_and (48 + Int.ofNat x.val) 1)) s.val))
      = toChar (Int.ofNat (b.val + x.val * 2 ^ s.val)) := by
  decide

theorem bin_or_step (B : Nat) (s : Nat) (c : Int) (hB : B < 256) (hs : s < 8)
    (hc : c = 48 ∨ c = 49) (hdiv : B % 2 ^ (s + 1) = 0) :
    toChar (c_or (toChar (B : Int)) (c_shl (toChar (c_and c 1)) s))
      = toChar ((B + (c - 48).toNat * 2 ^ s : Nat) : Int) := by
  have hx : (c - 48).toNat < 2 := by omega
  have := bin_or_step_fin ⟨s, hs⟩ ⟨(c - 48).toNat, hx⟩ ⟨B, hB⟩ hdiv
  simp only [Int.ofNat_eq_coe] at this
  rw [Int.toNat_of_nonneg (by omega), show (48 : Int) + (c - 48) = c by omega] at this
  exact this

theorem bindigits_loop_run (h : List Int) (hh : ∀ c ∈ h, IS_BINVAL c = true) :
    ∀ (k : Nat) (st : Int) (dg : Nat) (buf : List Int) (t : Stream),
      sub_bindigits_loop (h.length + k)
          { status := st, digits := dg, buf := buf, stream := h ++ t }
        = sub_bindigits_loop k
          { status := st, digits := dg + h.length, buf := buf ++ h, stream := t } := by
  induction h with
  | nil => intro k st dg buf t; simp
  | cons c h ih =>
    intro k st dg buf t
    have hc : IS_BINVAL c = true := hh c (by simp)
    have hc2 := (IS_BINVAL_iff c).1 hc
    have e1 : (c :: h).length + k = (h.length + k) + 1 := by simp; omega
    rw [e1, sub_bindigits_loop]
    have g : sub_buffergetc (c :: h ++ t) = (c, h ++ t) :=
      getc_ascii c _ (by omega) (by omega)
    have tc : toChar c = c := toChar_ascii c (by omega) (by omega)
    simp only [List.cons_append] at g ⊢
    rw [g]
    simp only [tc, hc]
    simp only [Bool.not_true, Bool.false_eq_true, if_false]
    rw [ih (fun x hx => hh x (by simp [hx]))]
    simp [Nat.add_assoc, Nat.add_comm 1]

/-- A digit run of `sub_bindigits` ended by a whitespace character, short of
the limit. -/
theorem bindigits_ws (h : List Int) (hh : ∀ c ∈ h, IS_BINVAL c = true) (ws : Int)
    (hws : IS_WHITESPACE ws = true) (rest : Stream) (k : Nat) :
    sub_bindigits (h ++ ws :: rest) (h.length + (k + 1))
      = { status := 0, digits := h.length, buf := h ++ [ws], stream := rest } := by
  unfold sub_bindigits
  rw [bindigits_loop_run h hh, sub_bindigits_loop]
  have w := (IS_WHITESPACE_iff ws).1 hws
  have g : sub_buffergetc (ws :: rest) = (ws, rest) := getc_ascii ws _ (by omega) (by omega)
  have tc : toChar ws = ws := toChar_ascii ws (by omega) (by omega)
  have nh : IS_BINVAL ws = false := by
    rcases w with w | w | w | w <;> subst w <;> decide
  simp only [g, tc, nh, hws]
  simp

/-- A digit run of `sub_bindigits` that reaches the limit. -/
theorem bindigits_full (h : List Int) (hh : ∀ c ∈ h, IS_BINVAL c = true) (rest : Stream) :
    sub_bindigits (h ++ rest) h.length
      = { status := 0, digits := h.length, buf := h, stream := rest } := by
  unfold sub_bindigits
  have := bindigits_loop_run h hh 0 0 0 [] rest
  simp only [Nat.add_zero] at this
  rw [this, sub_bindigits_loop]
  simp

theorem bits_value_bounds : ∀ (l : List Int), (∀ c ∈ l, IS_BINVAL c = true) →
    0 ≤ bits_value l ∧ bits_value l < 2 ^ l.length := by
  intro l
  induction l with
  | nil => intro _; simp [bits_value]
  | cons b l ih =>
    intro hl
    have hb := (IS_BINVAL_iff b).1 (hl b (by simp))
    obtain ⟨h0, h1⟩ := ih (fun x hx => hl x (by simp [hx]))
    simp only [bits_value, List.length_cons, pow_succ]
    have hp : (0 : Int) < 2 ^ l.length := by positivity
    rcases hb with hb | hb <;> subst hb <;> constructor <;> nlinarith


theorem bin_or_inv (B s x : Nat) (hB : B < 256) (hs : s < 8) (hx : x < 2)
    (hdiv : B % 2 ^ (s + 1) = 0) :
    B + x * 2 ^ s < 256 ∧ (B + x * 2 ^ s) % 2 ^ s = 0 := by
  have h1 : s = 0 ∨ s = 1 ∨ s = 2 ∨ s = 3 ∨ s = 4 ∨ s = 5 ∨ s = 6 ∨ s = 7 := by omega
  rcases h1 with h | h | h | h | h | h | h | h <;> subst h <;> norm_num at hdiv ⊢ <;> omega

theorem getbinnum_inner_run (d suf : List Int) (hd : ∀ c ∈ d, IS_BINVAL c = true) :
    ∀ (s i B : Nat), s ≤ 8 → i + s ≤ d.length → B < 256 → B % 2 ^ s = 0 →
      sub_getbinnum_inner (d ++ suf) s i (toChar (B : Int))
        = (i + s, toChar ((B : Int) + bits_value ((d.drop i).take s))) := by
  intro s
  induction s with
  | zero => intro i B _ _ _ _; simp [sub_getbinnum_inner, bits_value]
  | succ s ih =>
    intro i B hs hi hB
    have hlt : i < d.length := by omega
    have hs8 : s < 8 := by omega
    have hs8' : s ≤ 8 := by omega
    have hi' : i + 1 + s ≤ d.length := by omega
    have hc : d.getD i 0 = 48 ∨ d.getD i 0 = 49 := by
      rw [List.getD_eq_getElem _ _ hlt]
      exact (IS_BINVAL_iff _).1 (hd _ (List.getElem_mem _))
    have hx2 : (d.getD i 0 - 48).toNat < 2 := by omega
    have hx0 : 0 ≤ d.getD i 0 - 48 := by omega
    have e : (d.drop i).take (s + 1) = d.getD i 0 :: (d.drop (i + 1)).take s := by
      rw [List.drop_eq_getElem_cons hlt, List.take_succ_cons, List.getD_eq_getElem _ _ hlt]
    have hlen : ((d.drop (i + 1)).take s).length = s := by
      rw [List.length_take, List.length_drop]; omega
    have e2 : i + 1 + s = i + (s + 1) := by omega
    intro hdiv
    rw [sub_getbinnum_inner, if_pos (Nat.succ_pos s)]
    simp only [getD_append_left d suf i hlt]
    rw [bin_or_step B s _ hB hs8 hc hdiv]
    have hB1 := bin_or_inv B s (d.getD i 0 - 48).toNat hB hs8 hx2 hdiv
    rw [ih (i + 1) _ hs8' hi' hB1.1 hB1.2, e, bits_value, hlen, e2]
    have : ((B + (d.getD i 0 - 48).toNat * 2 ^ s : Nat) : Int)
        = (B : Int) + (d.getD i 0 - 48) * 2 ^ s := by
      push_cast
      rw [Int.toNat_of_nonneg hx0]
    rw [this, Int.add_assoc]

theorem toUInt8_toChar (v : Int) (h0 : 0 ≤ v) (h1 : v < 256) : toUInt8 (toChar v) = v := by
  unfold toUInt8 toChar; omega

theorem bits_value_byte (l : List Int) (hl : ∀ c ∈ l, IS_BINVAL c = true) (hlen : l.length ≤ 8) :
    0 ≤ bits_value l ∧ bits_value l < 256 := by
  obtain ⟨h0, h1⟩ := bits_value_bounds l hl
  refine ⟨h0, lt_of_lt_of_le h1 ?_⟩
  calc (2 : Int) ^ l.length ≤ 2 ^ 8 := pow_le_pow_right₀ (by norm_num) hlen
    _ = 256 := by norm_num

theorem getbinnum_inner_zero (d suf : List Int) (hd : ∀ c ∈ d, IS_BINVAL c = true)
    (s i : Nat) (hs : s ≤ 8) (hi : i + s ≤ d.length) :
    sub_getbinnum_inner (d ++ suf) s i 0 = (i + s, toChar (bits_value ((d.drop i).take s))) := by
  have := getbinnum_inner_run d suf hd s i 0 hs hi (by norm_num) (by simp)
  simpa [toChar] using this

theorem getbinnum_loop_chunks (d suf : List Int) (hd : ∀ c ∈ d, IS_BINVAL c = true) :
    ∀ (fuel i : Nat) (msg : bintex_q), i + 8 ≤ d.length → (d.length - i) % 8 = 0 →
      (d.length - i) / 8 ≤ fuel + 1 →
      sub_getbinnum_loop (d ++ suf) d.length fuel 8 i 0 msg
        = (d.length, q_puts msg (pack_chunks ((d.length - i) / 8) (d.drop i))) := by
  intro fuel
  induction fuel with
  | zero =>
    intro i msg hi hpar hf
    have hlast : i + 8 = d.length := by omega
    have hk : (d.length - i) / 8 = 1 := by omega
    have hne : i + 8 ≠ 0 := by omega
    have hnlt : ¬ i + 8 < d.length := by omega
    have hb := bits_value_byte ((d.drop i).take 8)
      (fun c hc => hd c (List.mem_of_mem_drop (List.mem_of_mem_take hc))) (by simp)
    rw [sub_getbinnum_loop, getbinnum_inner_zero d suf hd 8 i (by omega) hi]
    simp only [hk, pack_chunks, q_puts_cons, q_puts_nil, q_writebyte,
      toUInt8_toChar _ hb.1 hb.2, if_pos hne, if_neg hnlt]
    rw [hlast]
  | succ fuel ih =>
    intro i msg hi hpar hf
    have hne : i + 8 ≠ 0 := by omega
    have hb := bits_value_byte ((d.drop i).take 8)
      (fun c hc => hd c (List.mem_of_mem_drop (List.mem_of_mem_take hc))) (by simp)
    rw [sub_getbinnum_loop, getbinnum_inner_zero d suf hd 8 i (by omega) hi]
    simp only [q_writebyte, toUInt8_toChar _ hb.1 hb.2, if_pos hne]
    by_cases hlt : i + 8 < d.length
    · simp only [if_pos hlt]
      rw [ih (i + 8) _ (by omega) (by omega) (by omega)]
      have hk : (d.length - i) / 8 = (d.length - (i + 8)) / 8 + 1 := by omega
      rw [hk, pack_chunks, q_puts_cons, List.drop_drop]
    · have hlast : i + 8 = d.length := by omega
      have hk : (d.length - i) / 8 = 1 := by omega
      simp only [if_neg hlt, hk, pack_chunks, q_puts_cons, q_puts_nil]
      rw [hlast]

theorem c_and_seven_fin : ∀ n : Fin 33, c_and (Int.ofNat n.val) 7 = Int.ofNat (n.val % 8) := by
  decide

theorem c_and_seven (n : Nat) (hn : n ≤ 32) : (c_and (n : Int) 7).toNat = n % 8 := by
  have := c_and_seven_fin ⟨n, by omega⟩
  simp only [Int.ofNat_eq_coe] at this
  rw [this]; omega

theorem getbinnum_loop_first (d suf : List Int) (hd : ∀ c ∈ d, IS_BINVAL c = true)
    (fuel : Nat) (msg : bintex_q) (hf : d.length / 8 ≤ fuel) :
    sub_getbinnum_loop (d ++ suf) d.length fuel (d.length % 8) 0 0 msg
      = (d.length, q_puts msg (pack_bits d)) := by
  have hb := bits_value_byte ((d.drop 0).take (d.length % 8))
    (fun c hc => hd c (List.mem_of_mem_drop (List.mem_of_mem_take hc)))
    (by rw [List.length_take]; omega)
  rw [sub_getbinnum_loop.eq_def]
  dsimp only
  rw [getbinnum_inner_zero d suf hd (d.length % 8) 0 (by omega) (by omega)]
  simp only [Nat.zero_add, List.drop_zero, q_writebyte] at hb ⊢
  rw [toUInt8_toChar _ hb.1 hb.2]
  by_cases hr : d.length % 8 = 0
  · simp only [hr, ne_eq, not_true_eq_false, if_false, pack_bits, if_true]
    by_cases hn : 0 < d.length
    · rw [if_pos hn]
      cases fuel with
      | zero => omega
      | succ f =>
        simp only
        rw [getbinnum_loop_chunks d suf hd f 0 msg (by omega) (by omega) (by omega)]
        simp
    · have h0 : d.length = 0 := by omega
      rw [if_neg hn, h0]
      simp [pack_chunks, q_puts_nil]
  · simp only [pack_bits, if_neg hr, if_pos hr, ne_eq, not_false_eq_true, if_true, q_puts_cons]
    by_cases hlt : d.length % 8 < d.length
    · rw [if_pos hlt]
      cases fuel with
      | zero => omega
      | succ f =>
        simp only
        rw [getbinnum_loop_chunks d suf hd f (d.length % 8) _ (by omega) (by omega) (by omega)]
        have : (d.length - d.length % 8) / 8 = d.length / 8 := by omega
        rw [this]
    · have hsmall : d.length / 8 = 0 := by omega
      have : d.length % 8 = d.length := by omega
      rw [if_neg hlt, hsmall, this]
      simp [pack_chunks, q_puts_nil]

theorem getbinnum_of_digits (stream : Stream) (msg : bintex_q) (d suf : List Int)
    (st : Int) (rest : Stream) (hd : ∀ c ∈ d, IS_BINVAL c = true) (hlen : d.length ≤ 32)
    (hdig : sub_bindigits stream 32
      = { status := st, digits := d.length, buf := d ++ suf, stream := rest }) :
    sub_getbinnum stream msg
      = { status := st, ret := ((d.length + 7) / 8 : Nat), stream := rest,
          msg := q_puts msg (pack_bits d) } := by
  unfold sub_getbinnum
  simp only [hdig, c_and_seven _ hlen]
  rw [getbinnum_loop_first d suf hd d.length msg (by omega)]
  congr 1

theorem byte_bits_value (l : List Int) (hl : ∀ c ∈ l, 48 ≤ c ∧ c ≤ 49) (hlen : l.length ≤ 8) :
    byte_bits (bits_value l) = List.replicate (8 - l.length) 0 ++ l.map (fun c => c - 48) := by
  match l, hl, hlen with
  | [], _, _ => simp [bits_value, byte_bits, List.replicate]
  | [a], hl, _ =>
    have ha := hl a (by simp)
    simp only [bits_value, byte_bits, List.length_cons, List.length_nil, List.replicate,
      List.map, List.cons_append, List.nil_append, List.cons.injEq, and_true]
    norm_num
    omega
  | [a, b], hl, _ =>
    have ha := hl a (by simp)
    have hb := hl b (by simp)
    simp only [bits_value, byte_bits, List.length_cons, List.length_nil, List.replicate,
      List.map, List.cons_append, List.nil_append, List.cons.injEq, and_true]
    norm_num
    omega
  | [a, b, c], hl, _ =>
    have ha := hl a (by simp)
    have hb := hl b (by simp)
    have hc := hl c (by simp)
    simp only [bits_value, byte_bits, List.length_cons, List.length_nil, List.replicate,
      List.map, List.cons_append, List.nil_append, List.cons.injEq, and_true]
    norm_num
    omega
  | [a, b, c, e], hl, _ =>
    have ha := hl a (by simp)
    have hb := hl b (by simp)
    have hc := hl c (by simp)
    have he := hl e (by simp)
    simp only [bits_value, byte_bits, List.length_cons, List.length_nil, List.replicate,
      List.map, List.cons_append, List.nil_append, List.cons.injEq, and_true]
    norm_num
    omega
  | [a, b, c, e, f], hl, _ =>
    have ha := hl a (by simp)
    have hb := hl b (by simp)
    have hc := hl c (by simp)
    have he := hl e (by simp)
    have hf := hl f (by simp)
    simp only [bits_value, byte_bits, List.length_cons, List.length_nil, List.replicate,
      List.map, List.cons_append, List.nil_append, List.cons.injEq, and_true]
    norm_num
    omega
  | [a, b, c, e, f, g], hl, _ =>
    have ha := hl a (by simp)
    have hb := hl b (by simp)
    have hc := hl c (by simp)
    have he := hl e (by simp)
    have hf := hl f (by simp)
    have hg := hl g (by simp)
    simp only [bits_value, byte_bits, List.length_cons, List.length_nil, List.replicate,
      List.map, List.cons_append, List.nil_append, List.cons.injEq, and_true]
    norm_num
    omega
  | [a, b, c, e, f, g, h], hl, _ =>
    have ha := hl a (by simp)
    have hb := hl b (by simp)
    have hc := hl c (by simp)
    have he := hl e (by simp)
    have hf := hl f (by simp)
    have hg := hl g (by simp)
    have hh := hl h (by simp)
    simp only [bits_value, byte_bits, List.length_cons, List.length_nil, List.replicate,
      List.map, List.cons_append, List.nil_append, List.cons.injEq, and_true]
    norm_num
    omega
  | [a, b, c, e, f, g, h, k], hl, _ =>
    have ha := hl a (by simp)
    have hb := hl b (by simp)
    have hc := hl c (by simp)
    have he := hl e (by simp)
    have hf := hl f (by simp)
    have hg := hl g (by simp)
    have hh := hl h (by simp)
    have hk := hl k (by simp)
    simp only [bits_value, byte_bits, List.length_cons, List.length_nil, List.replicate,
      List.map, List.cons_append, List.nil_append, List.cons.injEq, and_true]
    norm_num
    omega
  | _ :: _ :: _ :: _ :: _ :: _ :: _ :: _ :: _ :: _, _, hlen => simp at hlen

theorem binval_bounds (d : List Int) (hd : ∀ c ∈ d, IS_BINVAL c = true) :
    ∀ c ∈ d, 48 ≤ c ∧ c ≤ 49 := by
  intro c hc
  have := (IS_BINVAL_iff c).1 (hd c hc)
  omega

theorem bytes_bits_chunks : ∀ (k : Nat) (l : List Int), (∀ c ∈ l, 48 ≤ c ∧ c ≤ 49) →
    8 * k ≤ l.length →
    bytes_bits (pack_chunks k l) = (l.take (8 * k)).map (fun c => c - 48) := by
  intro k
  induction k with
  | zero => intro l _ _; simp [pack_chunks, bytes_bits]
  | succ k ih =>
    intro l hl hlen
    have h8 : (l.take 8).length = 8 := by rw [List.length_take]; omega
    rw [pack_chunks, bytes_bits,
      byte_bits_value (l.take 8) (fun c hc => hl c (List.mem_of_mem_take hc)) (by omega),
      ih (l.drop 8) (fun c hc => hl c (List.mem_of_mem_drop hc))
        (by rw [List.length_drop]; omega), h8]
    simp only [Nat.sub_self, List.replicate, List.nil_append]
    rw [← List.map_append]
    congr 1
    rw [show 8 * (k + 1) = 8 + 8 * k by omega, List.take_add]

theorem pack_chunks_length : ∀ (k : Nat) (l : List Int), (pack_chunks k l).length = k := by
  intro k
  induction k with
  | zero => intro l; simp [pack_chunks]
  | succ k ih => intro l; simp [pack_chunks, ih]

theorem pack_bits_length (d : List Int) : (pack_bits d).length = (d.length + 7) / 8 := by
  unfold pack_bits
  split_ifs with h
  · rw [pack_chunks_length]; omega
  · rw [List.length_cons, pack_chunks_length]; omega

theorem bytes_bits_pack (d : List Int) (hd : ∀ c ∈ d, 48 ≤ c ∧ c ≤ 49) :
    bytes_bits (pack_bits d)
      = List.replicate (8 * ((d.length + 7) / 8) - d.length) 0 ++ d.map (fun c => c - 48) := by
  unfold pack_bits
  split_ifs with h
  · rw [bytes_bits_chunks _ d hd (by omega)]
    have e1 : 8 * ((d.length + 7) / 8) - d.length = 0 := by omega
    have e2 : 8 * (d.length / 8) = d.length := by omega
    rw [e1, e2, List.take_length]
    simp
  · have hr : (d.take (d.length % 8)).length = d.length % 8 := by
      rw [List.length_take]; omega
    rw [bytes_bits,
      byte_bits_value (d.take (d.length % 8)) (fun c hc => hd c (List.mem_of_mem_take hc))
        (by omega),
      bytes_bits_chunks _ (d.drop (d.length % 8)) (fun c hc => hd c (List.mem_of_mem_drop hc))
        (by rw [List.length_drop]; omega), hr]
    have e1 : 8 * ((d.length + 7) / 8) - d.length = 8 - d.length % 8 := by omega
    have e2 : (d.drop (d.length % 8)).take (8 * (d.length / 8)) = d.drop (d.length % 8) := by
      apply List.take_of_length_le
      rw [List.length_drop]; omega
    rw [e1, e2, List.append_assoc, ← List.map_append, List.take_append_drop]

/-- Claim C2: for a string `d` of at most 32 binary digits followed by a
whitespace character, `sub_getbinnum` appends exactly `ceil(n/8)` bytes and
returns `ceil(n/8)`; the bits of the appended bytes, most-significant bit
first, are `8*ceil(n/8) - n` zero bits followed by the digits of `d`. -/
theorem C2_binnum_bit_packing (d : List Int) (ws : Int) (rest : Stream) (msg : bintex_q)
    (hbin : ∀ c ∈ d, IS_BINVAL c = true) (hlen : d.length ≤ 32)
    (hws : IS_WHITESPACE ws = true) :
    q_appended msg (sub_getbinnum (d ++ ws :: rest) msg).msg (pack_bits d) ∧
    (pack_bits d).length = (d.length + 7) / 8 ∧
    (sub_getbinnum (d ++ ws :: rest) msg).ret = (((d.length + 7) / 8 : Nat) : Int) ∧
    (bytes_bits (q_bytes (sub_getbinnum (d ++ ws :: rest) msg).msg msg.putcursor
        ((d.length + 7) / 8))).drop (8 * ((d.length + 7) / 8) - d.length)
      = d.map (fun c => c - 48) ∧
    (bytes_bits (q_bytes (sub_getbinnum (d ++ ws :: rest) msg).msg msg.putcursor
        ((d.length + 7) / 8))).take (8 * ((d.length + 7) / 8) - d.length)
      = List.replicate (8 * ((d.length + 7) / 8) - d.length) 0 := by
  have hrun : sub_getbinnum (d ++ ws :: rest) msg
      = { status := 0, ret := ((d.length + 7) / 8 : Nat),
          stream := if d.length = 32 then ws :: rest else rest,
          msg := q_puts msg (pack_bits d) } := by
    by_cases hfull : d.length = 32
    · have hd := bindigits_full d hbin (ws :: rest)
      rw [hfull] at hd
      have := getbinnum_of_digits (d ++ ws :: rest) msg d [] 0 (ws :: rest) hbin hlen
        (by rw [hd]; simp [hfull])
      rw [this, if_pos hfull]
    · have hd := bindigits_ws d hbin ws hws rest (31 - d.length)
      rw [show d.length + (31 - d.length + 1) = 32 by omega] at hd
      have := getbinnum_of_digits (d ++ ws :: rest) msg d [ws] 0 rest hbin hlen hd
      rw [this, if_neg hfull]
  rw [hrun]
  have happ := q_puts_appended msg (pack_bits d)
  have hbytes : q_bytes (q_puts msg (pack_bits d)) msg.putcursor ((d.length + 7) / 8)
      = pack_bits d := by
    rw [← pack_bits_length d]; exact happ.2.2.2.2.2.2.1
  have hbits := bytes_bits_pack d (binval_bounds d hbin)
  refine ⟨happ, pack_bits_length d, rfl, ?_, ?_⟩
  · simp only [hbytes, hbits]
    rw [List.drop_left' (by simp)]
  · simp only [hbytes, hbits]
    rw [List.take_left' (by simp)]

/-- Instance at the digits `101` followed by a space. -/
theorem C2_binnum_bit_packing_witness :
    (sub_getbinnum ([49, 48, 49] ++ 32 :: []) q_zero).ret
      = ((((([49, 48, 49] : List Int).length + 7) / 8 : Nat)) : Int) :=
  (C2_binnum_bit_packing [49, 48, 49] 32 [] q_zero (by decide) (by decide) (by decide)).2.2.1

set_option maxRecDepth 100000 in
/-- Claim C3 (evaluation at the failing input): on the footer-less literal
`128` followed by a space, `sub_getdecnum` returns 1 and appends the single
byte 0x80, where the claim has 2 bytes; likewise `32768` is written in 2 bytes
(0x80 0x00), where the claim has 4, while `127` and `65536` are sized as the
claim says. -/
theorem C3_autosize_boundary_values :
    (sub_getdecnum [49, 50, 56, 32] q_zero).ret = 1 ∧
    (sub_getdecnum [49, 50, 56, 32] q_zero).msg.putcursor = 1 ∧
    q_bytes (sub_getdecnum [49, 50, 56, 32] q_zero).msg 0 1 = [128] ∧
    (sub_getdecnum [51, 50, 55, 54, 56, 32] q_zero).ret = 2 ∧
    q_bytes (sub_getdecnum [51, 50, 55, 54, 56, 32] q_zero).msg 0 2 = [128, 0] ∧
    (sub_getdecnum [49, 50, 55, 32] q_zero).ret = 1 ∧
    (sub_getdecnum [54, 53, 53, 51, 54, 32] q_zero).ret = 4 := by
  decide

set_option maxRecDepth 100000 in
/-- Claim C4 (evaluation at the failing input): on `-128` followed by a space,
`sub_decdigits` stops at the `-` with no digit read, so `sub_getdecnum`
consumes the `-` alone, appends the single byte 0x00 and returns 1 with status
2; the digits `128` stay in the input. -/
theorem C4_minus_sign_ends_the_digit_run :
    (sub_decdigits [45, 49, 50, 56, 32] 15).digits = 0 ∧
    (sub_getdecnum [45, 49, 50, 56, 32] q_zero).stream = [49, 50, 56, 32] ∧
    (sub_getdecnum [45, 49, 50, 56, 32] q_zero).status = 2 ∧
    (sub_getdecnum [45, 49, 50, 56, 32] q_zero).ret = 1 ∧
    (sub_getdecnum [45, 49, 50, 56, 32] q_zero).msg.putcursor = 1 ∧
    q_bytes (sub_getdecnum [45, 49, 50, 56, 32] q_zero).msg 0 1 = [0] := by
  decide

set_option maxRecDepth 100000 in
/-- Claim C5 (evaluation at the failing input): on `5s` and on `5l` followed
by a space, `sub_decdigits` stops at the footer letter, the footer is never
examined, and `sub_getdecnum` appends the single byte 0x05 and returns 1, where
the claim has 2 and 4 bytes. -/
theorem C5_footer_is_not_read :
    (sub_decdigits [53, 115, 32] 15).digits = 1 ∧
    (sub_getdecnum [53, 115, 32] q_zero).ret = 1 ∧
    (sub_getdecnum [53, 115, 32] q_zero).msg.putcursor = 1 ∧
    q_bytes (sub_getdecnum [53, 115, 32] q_zero).msg 0 1 = [5] ∧
    (sub_getdecnum [53, 115, 32] q_zero).stream = [32] ∧
    (sub_getdecnum [53, 108, 32] q_zero).ret = 1 ∧
    (sub_getdecnum [53, 108, 32] q_zero).msg.putcursor = 1 ∧
    q_bytes (sub_getdecnum [53, 108, 32] q_zero).msg 0 1 = [5] := by
  decide

theorem getascii_loop_run (rest : Stream) :
    ∀ (items : List AsciiItem) (fuel : Nat) (msg : bintex_q),
      (∀ it ∈ items, it.valid = true) → items.length < fuel →
      sub_getascii_loop fuel (ascii_text items ++ 34 :: rest) msg
        = some (rest, q_puts msg (items.map AsciiItem.value)) := by
  intro items
  induction items with
  | nil =>
    intro fuel msg _ hf
    obtain ⟨f, rfl⟩ : ∃ f, fuel = f + 1 := ⟨fuel - 1, by simp at hf; omega⟩
    have g : sub_buffergetc ((34 : Int) :: rest) = (34, rest) :=
      getc_ascii 34 _ (by omega) (by omega)
    have tc : toChar 34 = 34 := by decide
    simp [ascii_text, sub_getascii_loop, g, tc, q_puts_nil]
  | cons it items ih =>
    intro fuel msg hv hf
    obtain ⟨f, rfl⟩ : ∃ f, fuel = f + 1 := ⟨fuel - 1, by simp at hf; omega⟩
    have hf2 : items.length < f := by simpa using hf
    have hv2 : ∀ x ∈ items, x.valid = true := fun x hx => hv x (by simp [hx])
    have hit := hv it (by simp)
    cases it with
    | plain c =>
      simp only [AsciiItem.valid, Bool.and_eq_true, decide_eq_true_eq, bne_iff_ne, ne_eq] at hit
      obtain ⟨⟨⟨h0, h1⟩, h34⟩, h92⟩ := hit
      have g : sub_buffergetc (c :: (ascii_text items ++ 34 :: rest))
          = (c, ascii_text items ++ 34 :: rest) := getc_ascii c _ h0 h1
      have n34 : ¬ toChar c = 34 := by unfold toChar; omega
      have n92 : ¬ toChar c = 92 := by unfold toChar; omega
      simp only [ascii_text, AsciiItem.text, List.cons_append, List.nil_append,
        sub_getascii_loop, g, if_neg n34, if_neg n92, List.map_cons, AsciiItem.value,
        q_puts_cons, q_writebyte, toUInt8_toChar c (by omega) h1]
      exact ih f _ hv2 hf2
    | esc c =>
      have g1 : sub_buffergetc ((92 : Int) :: c :: (ascii_text items ++ 34 :: rest))
          = (92, c :: (ascii_text items ++ 34 :: rest)) := getc_ascii 92 _ (by omega) (by omega)
      have tc : toChar 92 = 92 := by decide
      have hrec : c = 97 ∨ c = 92 ∨ c = 98 ∨ c = 114 ∨ c = 34 ∨ c = 102 ∨ c = 116 ∨ c = 110
          ∨ c = 48 ∨ c = 39 ∨ c = 118 ∨ c = 63 := by
        simpa [AsciiItem.valid, recognised_escape, or_assoc] using hit
      have g2 : sub_buffergetc (c :: (ascii_text items ++ 34 :: rest))
          = (c, ascii_text items ++ 34 :: rest) := getc_ascii c _ (by omega) (by omega)
      have hesc : toUInt8 (sub_getascii_escape c 92) = escape_value c := by
        rcases hrec with h | h | h | h | h | h | h | h | h | h | h | h <;> subst h <;> decide
      simp only [ascii_text, AsciiItem.text, List.cons_append, List.nil_append,
        sub_getascii_loop, g1, g2, tc, List.map_cons, AsciiItem.value,
        q_puts_cons, q_writebyte, hesc]
      simp only [show ¬ (92 : Int) = 34 by decide, if_false, if_true]
      exact ih f _ hv2 hf2

theorem toInt16_small (v : Int) (h0 : 0 ≤ v) (h1 : v ≤ 32767) : toInt16 v = v := by
  unfold toInt16; omega

/-- The value of `q_length` grows by the number of appended bytes as long as
the length stays within the range of `int16_t`. -/
theorem q_length_after (q q2 : bintex_q) (bs : List Int) (happ : q_appended q q2 bs)
    (hfront : q.front ≤ q.putcursor)
    (hlen : (q.putcursor : Int) - q.front + bs.length ≤ 32767) :
    q_length q2 - q_length q = bs.length := by
  obtain ⟨h1, h2, -⟩ := happ
  unfold q_length
  rw [h1, h2, toInt16_small _ (by push_cast; omega) (by push_cast; omega),
    toInt16_small _ (by omega) (by omega)]
  push_cast; omega

/-- Claim C6 (amended): for a string body of plain characters and recognised
escapes closed by its first unescaped `"`, `sub_getascii` appends, in order,
one byte per plain character (the character itself) and one byte per escape
(the byte of the escape table), consumes the input through the closing quote
and, when the queue length after the call is at most 32767, returns the number
of bytes appended. -/
theorem C6_ascii_unescaping (items : List AsciiItem) (rest : Stream) (msg : bintex_q)
    (fuel : Nat) (hvalid : ∀ it ∈ items, it.valid = true) (hfuel : items.length < fuel)
    (hfront : msg.front ≤ msg.putcursor)
    (hlen : (msg.putcursor : Int) - msg.front + items.length ≤ 32767) :
    ∃ r, sub_getascii fuel (ascii_text items ++ 34 :: rest) msg = some r ∧
      q_appended msg r.msg (items.map AsciiItem.value) ∧
      r.stream = rest ∧ r.ret = (items.length : Int) := by
  refine ⟨{ ret := q_length (q_puts msg (items.map AsciiItem.value)) - q_length msg,
            stream := rest, msg := q_puts msg (items.map AsciiItem.value) }, ?_, ?_, rfl, ?_⟩
  · unfold sub_getascii
    rw [getascii_loop_run rest items fuel msg hvalid hfuel]
  · exact q_puts_appended msg _
  · have := q_length_after msg _ _ (q_puts_appended msg (items.map AsciiItem.value)) hfront
      (by simpa using hlen)
    simpa using this

/-- Instance at the string body `A\nB"` on an empty queue: the bytes
0x41 0x0A 0x42 are appended and 3 is returned. -/
theorem C6_ascii_unescaping_witness :
    ∃ r, sub_getascii 4
        (ascii_text [AsciiItem.plain 65, AsciiItem.esc 110, AsciiItem.plain 66] ++ 34 :: []) q_zero
          = some r ∧
      q_appended q_zero r.msg [65, 10, 66] ∧ r.stream = [] ∧ r.ret = 3 :=
  C6_ascii_unescaping [AsciiItem.plain 65, AsciiItem.esc 110, AsciiItem.plain 66] [] q_zero 4
    (by decide) (by decide) (by decide) (by decide)

/-- Claim C6 (counterexample): on a queue that holds 32767 bytes, the string
body `A"` makes `sub_getascii` append the one byte 0x41 and return -65535, not
the number of bytes appended. -/
theorem C6_counterexample_return_value :
    (sub_getascii 2 (ascii_text [AsciiItem.plain 65] ++ 34 :: []) q_long).map
        (fun r => (r.ret, r.stream, r.msg.putcursor, r.msg.mem 32767))
      = some (-65535, [], 32768, 65) := by
  decide

theorem gethexnum_ws (g : List Int) (w : Int) (tail : Stream) (msg : bintex_q)
    (hg : ∀ c ∈ g, IS_HEXVAL c = true) (hlen : g.length < 64) (hw : IS_WHITESPACE w = true) :
    sub_gethexnum (g ++ w :: tail) msg
      = { status := 0, ret := ((g.length + 1) / 2 : Nat), stream := tail,
          msg := q_puts msg (pack_hex g) } := by
  have hd := hexdigits_ws g hg w hw tail (63 - g.length)
  rw [show g.length + (63 - g.length + 1) = 64 by omega] at hd
  exact gethexnum_of_digits (g ++ w :: tail) msg g [w] 0 tail hg (by omega) hd

theorem gethexnum_close (g : List Int) (tail : Stream) (msg : bintex_q)
    (hg : ∀ c ∈ g, IS_HEXVAL c = true) (hlen : g.length < 64) :
    sub_gethexnum (g ++ 93 :: tail) msg
      = { status := 1, ret := ((g.length + 1) / 2 : Nat), stream := tail,
          msg := q_puts msg (pack_hex g) } := by
  have hd := hexdigits_close g hg tail (63 - g.length)
  rw [show g.length + (63 - g.length + 1) = 64 by omega] at hd
  exact gethexnum_of_digits (g ++ 93 :: tail) msg g [93] 1 tail hg (by omega) hd

theorem gethexnum_full (g : List Int) (tail : Stream) (msg : bintex_q)
    (hg : ∀ c ∈ g, IS_HEXVAL c = true) (hlen : g.length = 64) :
    sub_gethexnum (g ++ tail) msg
      = { status := 0, ret := ((g.length + 1) / 2 : Nat), stream := tail,
          msg := q_puts msg (pack_hex g) } := by
  have hd := hexdigits_full g hg tail
  rw [hlen] at hd
  exact gethexnum_of_digits (g ++ tail) msg g [] 0 tail hg (by omega)
    (by rw [hd]; simp [hlen])

theorem pack_hex_nil : pack_hex [] = [] := by
  simp [pack_hex, pack_pairs]

theorem gethexblock_loop_run (last : List Int) (rest : Stream)
    (hlast : ∀ c ∈ last, IS_HEXVAL c = true) (hlastlen : last.length ≤ 64) :
    ∀ (gs : List (List Int × Int)) (fuel : Nat) (msg : bintex_q),
      (∀ p ∈ gs, (∀ c ∈ p.1, IS_HEXVAL c = true) ∧ p.1.length ≤ 64 ∧ IS_WHITESPACE p.2 = true) →
      2 * gs.length + 2 ≤ fuel →
      sub_gethexblock_loop fuel 0 (hexblock_text gs last ++ 93 :: rest) msg
        = some (rest, q_puts msg (hexblock_bytes gs last)) := by
  intro gs
  induction gs with
  | nil =>
    intro fuel msg _ hf
    obtain ⟨f, rfl⟩ : ∃ f, fuel = f + 2 := ⟨fuel - 2, by simp at hf; omega⟩
    simp only [hexblock_text, hexblock_bytes]
    by_cases hfull : last.length = 64
    · rw [sub_gethexblock_loop, if_pos rfl]
      simp only [gethexnum_full last (93 :: rest) msg hlast hfull]
      rw [sub_gethexblock_loop, if_pos rfl]
      have := gethexnum_close [] rest (q_puts msg (pack_hex last)) (by simp) (by simp)
      simp only [List.nil_append] at this
      simp only [this, pack_hex_nil, q_puts_nil]
      cases f <;> simp [sub_gethexblock_loop]
    · rw [sub_gethexblock_loop, if_pos rfl]
      simp only [gethexnum_close last rest msg hlast (by omega)]
      simp [sub_gethexblock_loop]
  | cons p gs ih =>
    intro fuel msg hv hf
    obtain ⟨g, w⟩ := p
    obtain ⟨f, rfl⟩ : ∃ f, fuel = f + 2 := ⟨fuel - 2, by simp at hf; omega⟩
    have hf2 : 2 * gs.length + 2 ≤ f := by simp at hf; omega
    obtain ⟨hg, hglen, hw⟩ := hv (g, w) (by simp)
    have hglen2 : g.length ≤ 64 := hglen
    have hv2 : ∀ p ∈ gs, (∀ c ∈ p.1, IS_HEXVAL c = true) ∧ p.1.length ≤ 64 ∧
        IS_WHITESPACE p.2 = true := fun p hp => hv p (by simp [hp])
    simp only [hexblock_text, hexblock_bytes, List.append_assoc, List.cons_append] at hg hw ⊢
    by_cases hfull : g.length = 64
    · rw [sub_gethexblock_loop, if_pos rfl]
      simp only [gethexnum_full g _ msg hg hfull]
      rw [sub_gethexblock_loop, if_pos rfl]
      have := gethexnum_ws [] w (hexblock_text gs last ++ 93 :: rest)
        (q_puts msg (pack_hex g)) (by simp) (by simp) hw
      simp only [List.nil_append] at this
      simp only [this, pack_hex_nil, q_puts_nil]
      rw [ih f _ hv2 hf2, q_puts_append]
    · rw [sub_gethexblock_loop, if_pos rfl]
      simp only [gethexnum_ws g w _ msg hg (by omega) hw]
      rw [ih (f + 1) _ hv2 (by omega), q_puts_append]

theorem validatehex_loop_close (rest : Stream) :
    ∀ (content : List Int), (∀ c ∈ content, IS_HEXVAL c = true ∨ IS_WHITESPACE c = true) →
      ∀ bytes_read : Int,
        sub_buffer_validatehex_loop (content ++ 93 :: rest) bytes_read = 0 := by
  intro content
  induction content with
  | nil =>
    intro _ br
    simp only [List.nil_append, sub_buffer_validatehex_loop]
    have tc : toChar 93 = 93 := by decide
    simp [tc]
  | cons c content ih =>
    intro hc br
    have h := hc c (by simp)
    have hrange : 0 < c ∧ c < 128 ∧ c ≠ 93 := by
      rcases h with h | h
      · have := (IS_HEXVAL_iff c).1 h; omega
      · have := (IS_WHITESPACE_iff c).1 h; omega
    have tc : toChar (c % 256) = c := by unfold toChar; omega
    simp only [List.cons_append, sub_buffer_validatehex_loop, tc]
    rw [if_neg (by omega), if_neg hrange.2.2, if_neg]
    · exact ih (fun x hx => hc x (by simp [hx])) _
    · rcases h with h | h <;> simp [h]

theorem hexblock_text_chars : ∀ (gs : List (List Int × Int)) (last : List Int),
    (∀ p ∈ gs, (∀ c ∈ p.1, IS_HEXVAL c = true) ∧ p.1.length ≤ 64 ∧ IS_WHITESPACE p.2 = true) →
    (∀ c ∈ last, IS_HEXVAL c = true) →
    ∀ c ∈ hexblock_text gs last, IS_HEXVAL c = true ∨ IS_WHITESPACE c = true := by
  intro gs
  induction gs with
  | nil => intro last _ hl c hc; exact Or.inl (hl c hc)
  | cons p gs ih =>
    intro last hv hl c hc
    obtain ⟨g, w⟩ := p
    obtain ⟨hg, -, hw⟩ := hv (g, w) (by simp)
    simp only [hexblock_text, List.mem_append, List.mem_cons] at hc
    rcases hc with hc | hc | hc
    · exact Or.inl (hg c hc)
    · subst hc; exact Or.inr hw
    · exact ih last (fun p hp => hv p (by simp [hp])) hl c hc

/-- Claim C7 (amended): for a hex block whose content up to the first `]`
consists of groups of at most 64 hex digits separated by whitespace,
`sub_gethexblock` appends the concatenation of the nibble packings of the
groups, in input order, consumes the input through the `]` and, when the queue
length after the call is at most 32767, returns the total number of bytes
appended. -/
theorem C7_hexblock_decoding (garbage : Int) (gs : List (List Int × Int)) (last : List Int)
    (rest : Stream) (msg : bintex_q) (fuel : Nat)
    (hgroups : ∀ p ∈ gs,
      (∀ c ∈ p.1, IS_HEXVAL c = true) ∧ p.1.length ≤ 64 ∧ IS_WHITESPACE p.2 = true)
    (hlast : ∀ c ∈ last, IS_HEXVAL c = true) (hlastlen : last.length ≤ 64)
    (hfuel : 2 * gs.length + 2 ≤ fuel) (hfront : msg.front ≤ msg.putcursor)
    (hlen : (msg.putcursor : Int) - msg.front + (hexblock_bytes gs last).length ≤ 32767) :
    ∃ r, sub_gethexblock garbage fuel (hexblock_text gs last ++ 93 :: rest) msg = some r ∧
      q_appended msg r.msg (hexblock_bytes gs last) ∧
      r.stream = rest ∧ r.ret = ((hexblock_bytes gs last).length : Int) := by
  refine ⟨{ ret := q_length (q_puts msg (hexblock_bytes gs last)) - q_length msg,
            stream := rest, msg := q_puts msg (hexblock_bytes gs last) }, ?_, ?_, rfl, ?_⟩
  · unfold sub_gethexblock sub_buffer_validatehex
    simp only [validatehex_loop_close rest _ (hexblock_text_chars gs last hgroups hlast) garbage,
      gethexblock_loop_run last rest hlast hlastlen gs fuel msg hgroups hfuel]
  · exact q_puts_appended msg _
  · exact q_length_after msg _ _ (q_puts_appended msg _) hfront hlen

set_option maxRecDepth 100000 in
/-- Instance at the block content `11223344 55667788]` on an empty
queue: the 8 bytes 11 22 33 44 55 66 77 88 are appended. -/
theorem C7_hexblock_decoding_witness :
    (∃ r, sub_gethexblock 7 4
        (hexblock_text [([49, 49, 50, 50, 51, 51, 52, 52], 32)]
          [53, 53, 54, 54, 55, 55, 56, 56] ++ 93 :: []) q_zero = some r ∧
      q_appended q_zero r.msg
        (hexblock_bytes [([49, 49, 50, 50, 51, 51, 52, 52], 32)]
          [53, 53, 54, 54, 55, 55, 56, 56]) ∧
      r.stream = [] ∧
      r.ret = ((hexblock_bytes [([49, 49, 50, 50, 51, 51, 52, 52], 32)]
          [53, 53, 54, 54, 55, 55, 56, 56]).length : Int)) ∧
    hexblock_bytes [([49, 49, 50, 50, 51, 51, 52, 52], 32)] [53, 53, 54, 54, 55, 55, 56, 56]
      = [0x11, 0x22, 0x33, 0x44, 0x55, 0x66, 0x77, 0x88] :=
  ⟨C7_hexblock_decoding 7 [([49, 49, 50, 50, 51, 51, 52, 52], 32)]
      [53, 53, 54, 54, 55, 55, 56, 56] [] q_zero 4
      (by decide) (by decide) (by decide) (by decide) (by decide) (by decide),
    by decide⟩

set_option maxRecDepth 100000 in
/-- Claim C7 (counterexample): on a queue that holds 32767 bytes, the block
content `41]` makes `sub_gethexblock` append the one byte 0x41 and return
-65535, not the number of bytes appended. -/
theorem C7_counterexample_return_value :
    (sub_gethexblock 0 2 (hexblock_text [] [52, 49] ++ 93 :: []) q_long).map
        (fun r => (r.ret, r.stream, r.msg.putcursor, r.msg.mem 32767))
      = some (-65535, [], 32768, 65) := by
  decide

theorem passcomment_tail_newline (s : Stream) : sub_passcomment_tail 10 s = (0, s) := by
  cases s <;> simp [sub_passcomment_tail]

theorem passcomment_tail_eof (s : Stream) : sub_passcomment_tail (-1) s = (-1, s) := by
  cases s <;> simp [sub_passcomment_tail]

theorem getc_plain (c : Int) (s : Stream) (h : c % 256 ≠ 0) :
    sub_buffergetc (c :: s) = (c % 256, s) := by
  simp [sub_buffergetc, h]

theorem passcomment_tail_run (rest : Stream) :
    ∀ (pre : List Int), (∀ c ∈ pre, c % 256 ≠ 10 ∧ c % 256 ≠ 0) →
      ∀ next : Int, 0 ≤ next → next ≠ 10 →
        sub_passcomment_tail next (pre ++ 10 :: rest) = (0, rest) ∧
        sub_passcomment_tail next (pre ++ 0 :: rest) = (-1, rest) ∧
        sub_passcomment_tail next pre = (-1, []) := by
  intro pre
  induction pre with
  | nil =>
    intro _ next h0 h10
    refine ⟨?_, ?_, ?_⟩
    · simp only [List.nil_append, sub_passcomment_tail, ge_iff_le, if_pos h0, if_neg h10]
      have : (sub_buffergetc ((10 : Int) :: rest)).1 = 10 := by simp [sub_buffergetc]
      rw [this, passcomment_tail_newline]
    · simp only [List.nil_append, sub_passcomment_tail, ge_iff_le, if_pos h0, if_neg h10]
      have : (sub_buffergetc ((0 : Int) :: rest)).1 = -1 := by simp [sub_buffergetc]
      rw [this, passcomment_tail_eof]
    · simp [sub_passcomment_tail, h0, h10]
  | cons c pre ih =>
    intro hpre next h0 h10
    obtain ⟨hc10, hc0⟩ := hpre c (by simp)
    have hrec := ih (fun x hx => hpre x (by simp [hx])) (c % 256) (by omega) hc10
    simp only [List.cons_append, sub_passcomment_tail, ge_iff_le, if_pos h0, if_neg h10,
      getc_plain c _ hc0]
    exact hrec

theorem passcomment_passws_run (rest : Stream) :
    ∀ (pre : List Int), (∀ c ∈ pre, c % 256 ≠ 10 ∧ c % 256 ≠ 0) →
      sub_passcomment_passws (pre ++ 10 :: rest) = (0, rest) ∧
      sub_passcomment_passws (pre ++ 0 :: rest) = (-1, rest) ∧
      sub_passcomment_passws pre = (-1, []) := by
  intro pre
  induction pre with
  | nil =>
    intro _
    refine ⟨?_, ?_, ?_⟩
    · have : (sub_buffergetc ((10 : Int) :: rest)).1 = 10 := by simp [sub_buffergetc]
      simp [sub_passcomment_passws, this]
    · have : (sub_buffergetc ((0 : Int) :: rest)).1 = -1 := by simp [sub_buffergetc]
      simp [sub_passcomment_passws, this]
    · simp [sub_passcomment_passws]
  | cons c pre ih =>
    intro hpre
    obtain ⟨hc10, hc0⟩ := hpre c (by simp)
    have hpre2 : ∀ x ∈ pre, x % 256 ≠ 10 ∧ x % 256 ≠ 0 := fun x hx => hpre x (by simp [hx])
    have hrec := ih hpre2
    have htail := passcomment_tail_run rest pre hpre2 (c % 256) (by omega) hc10
    have hne : ¬ c % 256 = -1 := by omega
    simp only [List.cons_append, sub_passcomment_passws, getc_plain c _ hc0, if_neg hne,
      if_neg hc10]
    by_cases hws : c % 256 = 13 ∨ c % 256 = 9 ∨ c % 256 = 32
    · simp only [if_pos hws]; exact hrec
    · simp only [if_neg hws]; exact htail

theorem passcomment_head_run (rest : Stream) :
    ∀ (k : Nat) (pre : List Int), (∀ c ∈ pre, c % 256 ≠ 10 ∧ c % 256 ≠ 0) →
      sub_passcomment_head k (pre ++ 10 :: rest) = (0, rest) ∧
      sub_passcomment_head k (pre ++ 0 :: rest) = (-1, rest) ∧
      sub_passcomment_head k pre = (-1, []) := by
  intro k
  induction k with
  | zero =>
    intro pre hpre
    simp only [sub_passcomment_head]
    exact passcomment_passws_run rest pre hpre
  | succ k ih =>
    intro pre hpre
    cases pre with
    | nil =>
      refine ⟨?_, ?_, ?_⟩
      · have : sub_buffergetc ((10 : Int) :: rest) = (10, rest) := by simp [sub_buffergetc]
        simp [sub_passcomment_head, this]
      · have : sub_buffergetc ((0 : Int) :: rest) = (-1, rest) := by simp [sub_buffergetc]
        simp [sub_passcomment_head, this]
      · simp [sub_passcomment_head, sub_buffergetc]
    | cons c pre =>
      obtain ⟨hc10, hc0⟩ := hpre c (by simp)
      have hpre2 : ∀ x ∈ pre, x % 256 ≠ 10 ∧ x % 256 ≠ 0 := fun x hx => hpre x (by simp [hx])
      have hne : ¬ c % 256 = -1 := by omega
      simp only [List.cons_append, sub_passcomment_head, getc_plain c _ hc0, if_neg hne,
        if_neg hc10]
      by_cases hws : c % 256 = 13 ∨ c % 256 = 9 ∨ c % 256 = 32
      · simp only [if_pos hws]; exact passcomment_passws_run rest pre hpre2
      · simp only [if_neg hws]; exact ih pre hpre2

theorem parse_header_comment (s : Stream) :
    sub_parse_header (35 :: s) = (Data_type.DATA_comment, s) := by
  have : sub_parse_header_switch (toChar (sub_buffergetc ((35 : Int) :: s)).1)
      = some Data_type.DATA_comment := by
    have g : (sub_buffergetc ((35 : Int) :: s)).1 = 35 := by simp [sub_buffergetc]
    rw [g]; decide
  simp only [sub_parse_header, this]

set_option maxRecDepth 100000 in
/-- Claim C8: `sub_passcomment` has no access to the output queue; when the
input holds a newline before its end it consumes the characters up to and
including the first newline and returns 0, and when the end of input (the NUL
cell, or the end of the modelled memory) comes first it returns -1; through
`sub_parsestream` the queue comes back unchanged, and the comment line
`# ignore this` followed by `x41` decodes to the single byte 0x41. -/
theorem C8_comment_skipping (pre : List Int) (rest : Stream) (msg : bintex_q)
    (garbage : Int) (fuel : Nat) (hpre : ∀ c ∈ pre, c % 256 ≠ 10 ∧ c % 256 ≠ 0) :
    sub_passcomment (pre ++ 10 :: rest) = (0, rest) ∧
    sub_passcomment (pre ++ 0 :: rest) = (-1, rest) ∧
    sub_passcomment pre = (-1, []) ∧
    sub_parsestream garbage fuel (35 :: (pre ++ 10 :: rest)) msg
      = some { ret := 0, stream := rest, msg := msg } ∧
    sub_parsestream garbage fuel (35 :: (pre ++ 0 :: rest)) msg
      = some { ret := -1, stream := rest, msg := msg } ∧
    (bintex_ss 0 3
        [35, 32, 105, 103, 110, 111, 114, 101, 32, 116, 104, 105, 115, 10, 120, 52, 49]
        (fun _ => 0) 0 512).map (fun p => (p.1, p.2.putcursor, p.2.mem 0))
      = some (1, 1, 65) := by
  obtain ⟨h1, h2, h3⟩ := passcomment_head_run rest 8 pre hpre
  refine ⟨h1, h2, h3, ?_, ?_, by decide⟩
  · simp only [sub_parsestream, parse_header_comment]
    rw [show sub_passcomment (pre ++ 10 :: rest) = (0, rest) from h1]
  · simp only [sub_parsestream, parse_header_comment]
    rw [show sub_passcomment (pre ++ 0 :: rest) = (-1, rest) from h2]

/-- Instance at the comment text ` ignore` closed by a newline and
followed by `x41`. -/
theorem C8_comment_skipping_witness :
    sub_passcomment ([32, 105, 103, 110, 111, 114, 101] ++ 10 :: [120, 52, 49])
      = (0, [120, 52, 49]) :=
  (C8_comment_skipping [32, 105, 103, 110, 111, 114, 101] [120, 52, 49] q_zero 0 0
    (by decide)).1

set_option maxRecDepth 100000 in
theorem parse_header_switch_fin : ∀ b : Fin 255, ¬ is_bypassed (Int.ofNat b.val) = true →
    sub_parse_header_switch
        (toChar (if Int.ofNat b.val ≠ 0 then Int.ofNat b.val else -1))
      = some (token_of_byte (Int.ofNat b.val)) := by
  decide

/-- What `sub_parse_header` does on every input: it consumes the leading run
of bypassed characters and one more byte `c`, and classifies `c` by the token
table, provided `c` is not the byte 0xFF; at the end of the modelled memory it
returns `DATA_EOF`. -/
theorem parse_header_classification :
    ∀ (skip : List Int) (c : Int) (rest : Stream),
      (∀ x ∈ skip, is_bypassed (x % 256) = true) → ¬ is_bypassed (c % 256) = true →
      c % 256 ≠ 255 →
      sub_parse_header (skip ++ c :: rest) = (token_of_byte (c % 256), rest) ∧
      sub_parse_header skip = (Data_type.DATA_EOF, []) := by
  intro skip
  induction skip with
  | nil =>
    intro c rest _ hc h255
    refine ⟨?_, by simp [sub_parse_header]⟩
    have hfin := parse_header_switch_fin ⟨(c % 256).toNat, by omega⟩
    simp only [Int.ofNat_eq_coe] at hfin
    rw [Int.toNat_of_nonneg (by omega)] at hfin
    simp only [List.nil_append, sub_parse_header, sub_buffergetc, hfin hc]
  | cons x skip ih =>
    intro c rest hskip hc h255
    have hx := hskip x (by simp)
    have hrec := ih c rest (fun y hy => hskip y (by simp [hy])) hc h255
    have hx2 : x % 256 = 10 ∨ x % 256 = 13 ∨ x % 256 = 9 ∨ x % 256 = 32 ∨ x % 256 = 48 := by
      simpa [is_bypassed, or_assoc] using hx
    have hsw : sub_parse_header_switch (toChar (sub_buffergetc (x :: (skip ++ c :: rest))).1)
        = none := by
      simp only [sub_buffergetc]
      rcases hx2 with h | h | h | h | h <;> rw [h] <;> decide
    have hsw2 : sub_parse_header_switch (toChar (sub_buffergetc (x :: skip)).1) = none := by
      simp only [sub_buffergetc]
      rcases hx2 with h | h | h | h | h <;> rw [h] <;> decide
    constructor
    · show sub_parse_header (x :: (skip ++ c :: rest)) = _
      rw [sub_parse_header, hsw]
      exact hrec.1
    · rw [sub_parse_header, hsw2]
      exact hrec.2

/-- Claim C9 (evaluation at the failing input): the byte 0xFF, which is
neither a bypassed character nor the end of the input, is classified as
`DATA_EOF` and not as `DATA_error`, because the value read is narrowed to a
signed `char` before the switch; the input after it is not exhausted. -/
theorem C9_byte_255_classified_as_end_of_input :
    sub_parse_header [255, 120, 52, 49] = (Data_type.DATA_EOF, [120, 52, 49]) ∧
    token_of_byte 255 = Data_type.DATA_error ∧
    sub_parse_header [200, 120, 52, 49] = (Data_type.DATA_error, [120, 52, 49]) ∧
    sub_parse_header [0, 120, 52, 49] = (Data_type.DATA_EOF, [120, 52, 49]) := by
  decide

/-- What `sub_parsestream` does on the three header outcomes that decode
nothing: it returns -1, -2 or -3 and gives the queue back unchanged. -/
theorem parsestream_non_decoding (garbage : Int) (fuel : Nat) (stream : Stream)
    (msg : bintex_q) :
    ((sub_parse_header stream).1 = Data_type.DATA_EOF →
      sub_parsestream garbage fuel stream msg
        = some { ret := -1, stream := (sub_parse_header stream).2, msg := msg }) ∧
    ((sub_parse_header stream).1 = Data_type.DATA_error →
      sub_parsestream garbage fuel stream msg
        = some { ret := -2, stream := (sub_parse_header stream).2, msg := msg }) ∧
    ((sub_parse_header stream).1 = Data_type.DATA_lineterm →
      sub_parsestream garbage fuel stream msg
        = some { ret := -3, stream := (sub_parse_header stream).2, msg := msg }) := by
  refine ⟨?_, ?_, ?_⟩ <;> intro h <;> simp only [sub_parsestream, h]

set_option maxRecDepth 100000 in
/-- Claim C10 (evaluation at the failing input): when the first non-bypassed
character is the byte 0xFF, a character outside the token table with input
still following, one iteration returns -1 (end of input) and not -2. -/
theorem C10_byte_255_returns_end_of_input :
    (bintex_iter_sq 0 1 [32, 255, 120, 52, 49] q_zero 512).map
        (fun r => (r.ret, r.stream, r.msg.putcursor))
      = some (-1, [120, 52, 49], 0) ∧
    (bintex_iter_sq 0 1 [32, 200, 120, 52, 49] q_zero 512).map
        (fun r => (r.ret, r.stream, r.msg.putcursor))
      = some (-2, [120, 52, 49], 0) := by
  decide

theorem IS_DECVAL_iff (c : Int) : IS_DECVAL c = true ↔ 48 ≤ c ∧ c ≤ 57 := by
  simp [IS_DECVAL]

theorem decdigits_loop_run (h : List Int) (hh : ∀ c ∈ h, IS_DECVAL c = true) :
    ∀ (k : Nat) (st : Int) (dg : Nat) (buf : List Int) (t : Stream),
      sub_decdigits_loop (h.length + k)
          { status := st, digits := dg, buf := buf, stream := h ++ t }
        = sub_decdigits_loop k
          { status := st, digits := dg + h.length, buf := buf ++ h, stream := t } := by
  induction h with
  | nil => intro k st dg buf t; simp
  | cons c h ih =>
    intro k st dg buf t
    have hc : IS_DECVAL c = true := hh c (by simp)
    have hc2 := (IS_DECVAL_iff c).1 hc
    have e1 : (c :: h).length + k = (h.length + k) + 1 := by simp; omega
    rw [e1, sub_decdigits_loop]
    have g : sub_buffergetc (c :: h ++ t) = (c, h ++ t) :=
      getc_ascii c _ (by omega) (by omega)
    have tc : toChar c = c := toChar_ascii c (by omega) (by omega)
    simp only [List.cons_append] at g ⊢
    rw [g]
    simp only [tc, hc]
    rw [if_neg (by omega)]
    simp only [Bool.not_true, Bool.false_eq_true, if_false]
    rw [ih (fun x hx => hh x (by simp [hx]))]
    simp [Nat.add_assoc, Nat.add_comm 1]

/-- A digit run of `sub_decdigits` ended by a whitespace character, short of
the limit. -/
theorem decdigits_ws (h : List Int) (hh : ∀ c ∈ h, IS_DECVAL c = true) (ws : Int)
    (hws : IS_WHITESPACE ws = true) (rest : Stream) (k : Nat) :
    sub_decdigits (h ++ ws :: rest) (h.length + (k + 1))
      = { status := 0, digits := h.length, buf := h ++ [ws], stream := rest } := by
  unfold sub_decdigits
  rw [decdigits_loop_run h hh, sub_decdigits_loop]
  have w := (IS_WHITESPACE_iff ws).1 hws
  have g : sub_buffergetc (ws :: rest) = (ws, rest) := getc_ascii ws _ (by omega) (by omega)
  have tc : toChar ws = ws := toChar_ascii ws (by omega) (by omega)
  have nh : IS_DECVAL ws = false := by
    rcases w with w | w | w | w <;> subst w <;> decide
  simp only [g, tc, nh, hws]
  rw [if_neg (by omega)]
  simp

/-- A digit run of `sub_decdigits` ended by `)`, short of the limit. -/
theorem decdigits_close (h : List Int) (hh : ∀ c ∈ h, IS_DECVAL c = true)
    (rest : Stream) (k : Nat) :
    sub_decdigits (h ++ 41 :: rest) (h.length + (k + 1))
      = { status := 1, digits := h.length, buf := h ++ [41], stream := rest } := by
  unfold sub_decdigits
  rw [decdigits_loop_run h hh, sub_decdigits_loop]
  have g : sub_buffergetc ((41 : Int) :: rest) = (41, rest) := getc_ascii 41 _ (by omega) (by omega)
  have tc : toChar 41 = 41 := by decide
  simp only [g, tc]
  simp

/-- A digit run of `sub_decdigits` that reaches the limit. -/
theorem decdigits_full (h : List Int) (hh : ∀ c ∈ h, IS_DECVAL c = true) (rest : Stream) :
    sub_decdigits (h ++ rest) h.length
      = { status := 0, digits := h.length, buf := h, stream := rest } := by
  unfold sub_decdigits
  have := decdigits_loop_run h hh 0 0 0 [] rest
  simp only [Nat.add_zero] at this
  rw [this, sub_decdigits_loop]
  simp

theorem dec_value_snoc (l : List Int) (c : Int) :
    dec_value (l ++ [c]) = 10 * dec_value l + (c - 48) := by
  simp [dec_value, List.foldl_append]

theorem dec_foldl_ge : ∀ (m : List Int), (∀ c ∈ m, IS_DECVAL c = true) → ∀ acc : Int, 0 ≤ acc →
    acc ≤ m.foldl (fun acc c => 10 * acc + (c - 48)) acc := by
  intro m
  induction m with
  | nil => intro _ acc _; simp
  | cons c m ih =>
    intro hm acc h0
    have hc := (IS_DECVAL_iff c).1 (hm c (by simp))
    have := ih (fun x hx => hm x (by simp [hx])) (10 * acc + (c - 48)) (by omega)
    simp only [List.foldl_cons]
    omega

theorem dec_value_take_le (ds : List Int) (hds : ∀ c ∈ ds, IS_DECVAL c = true) (i : Nat) :
    0 ≤ dec_value (ds.take i) ∧ dec_value (ds.take i) ≤ dec_value ds := by
  have h0 : 0 ≤ dec_value (ds.take i) :=
    dec_foldl_ge (ds.take i) (fun c hc => hds c (List.mem_of_mem_take hc)) 0 (le_refl 0)
  refine ⟨h0, ?_⟩
  have := dec_foldl_ge (ds.drop i) (fun c hc => hds c (List.mem_of_mem_drop hc))
    (dec_value (ds.take i)) h0
  have e : dec_value ds = (ds.drop i).foldl (fun acc c => 10 * acc + (c - 48))
      (dec_value (ds.take i)) := by
    unfold dec_value
    rw [← List.foldl_append, List.take_append_drop]
  rw [e]; exact this

theorem toInt32_small (v : Int) (h0 : 0 ≤ v) (h1 : v < 2147483648) : toInt32 v = v := by
  unfold toInt32; omega

theorem getdecnum_scan_run (ds suf : List Int) (hds : ∀ c ∈ ds, IS_DECVAL c = true)
    (hv : dec_value ds < 2147483648) :
    ∀ (fuel i : Nat), i ≤ ds.length → ds.length - i ≤ fuel →
      sub_getdecnum_scan (ds ++ suf) ds.length fuel i (dec_value (ds.take i))
        = { i := ds.length, number := dec_value ds, force_u := 0, size := 0 } := by
  intro fuel
  induction fuel with
  | zero =>
    intro i hi hf
    have : i = ds.length := by omega
    subst this
    simp [sub_getdecnum_scan]
  | succ fuel ih =>
    intro i hi hf
    rw [sub_getdecnum_scan]
    by_cases hlt : i < ds.length
    · have hc : 48 ≤ ds.getD i 0 ∧ ds.getD i 0 ≤ 57 := by
        rw [List.getD_eq_getElem _ _ hlt]
        exact (IS_DECVAL_iff _).1 (hds _ (List.getElem_mem _))
      have e : ds.take (i + 1) = ds.take i ++ [ds.getD i 0] := by
        rw [List.getD_eq_getElem _ _ hlt, List.take_succ, List.getElem?_eq_getElem hlt]
        simp
      have hb := dec_value_take_le ds hds (i + 1)
      have ha := dec_value_take_le ds hds i
      rw [e, dec_value_snoc] at hb
      have hstep : toInt32 (toInt32 (dec_value (ds.take i) * 10) + (ds.getD i 0 - 48))
          = dec_value (ds.take (i + 1)) := by
        rw [e, dec_value_snoc, toInt32_small (dec_value (ds.take i) * 10) (by omega) (by omega),
          toInt32_small _ (by omega) (by omega)]
        omega
      simp only [if_pos hlt, getD_append_left ds suf i hlt, if_pos hc, hstep]
      exact ih (i + 1) (by omega) (by omega)
    · have : i = ds.length := by omega
      subst this
      simp

/-- The bytes `sub_getdecnum` writes for a footer-less non-negative value `v`:
one byte up to 128, two bytes up to 32768, four bytes above, most-significant
byte first. -/
theorem getdecnum_of_digits (stream : Stream) (msg : bintex_q) (ds suf : List Int)
    (st : Int) (rest : Stream) (hds : ∀ c ∈ ds, IS_DECVAL c = true)
    (hv : dec_value ds < 2147483648) (hfirst : (ds ++ suf).getD 0 0 ≠ 45)
    (hd : sub_decdigits stream 15
      = { status := st, digits := ds.length, buf := ds ++ suf, stream := rest }) :
    sub_getdecnum stream msg =
      if dec_value ds ≤ 128 then
        { status := st, ret := 1, stream := rest, msg := q_puts msg [dec_value ds % 256] }
      else if dec_value ds ≤ 32768 then
        { status := st, ret := 2, stream := rest,
          msg := q_puts msg [dec_value ds / 256 % 256, dec_value ds % 256] }
      else
        { status := st, ret := 4, stream := rest,
          msg := q_puts msg [dec_value ds / 16777216 % 256, dec_value ds / 65536 % 256,
            dec_value ds / 256 % 256, dec_value ds % 256] } := by
  have hscan := getdecnum_scan_run ds suf hds hv ds.length 0 (by omega) (by omega)
  have h0 : dec_value (ds.take 0) = 0 := by simp [dec_value]
  rw [h0] at hscan
  have hnn := (dec_value_take_le ds hds ds.length).1
  rw [List.take_length] at hnn
  have hneg : ((ds ++ suf).getD 0 0 == 45) = false := by simpa using hfirst
  unfold sub_getdecnum
  simp only [hd, hneg, Bool.false_eq_true, if_false, hscan, if_true]
  have hnum : toInt32 (dec_value ds * 1) = dec_value ds := by
    rw [Int.mul_one]; exact toInt32_small _ hnn hv
  rw [hnum]
  have hmax : dec_value ds - (if (1 : Int) < 0 then 1 else 0) = dec_value ds := by simp
  rw [hmax]
  by_cases h1 : dec_value ds ≤ 128
  · have hs : sub_getdecnum_autosize (dec_value ds) 3 0 1 = 1 := by
      simp [sub_getdecnum_autosize, bound, h1]
    have hsel : c_and 1 3 = 1 := by decide
    simp only [hs, Nat.cast_one, hsel, if_pos h1, or_true, if_true, q_writebyte, toUInt8,
      q_puts_cons, q_puts_nil]
  · have h1' : ¬ (128 : Int) ≥ dec_value ds := by omega
    by_cases h2 : dec_value ds ≤ 32768
    · have hs : sub_getdecnum_autosize (dec_value ds) 3 0 1 = 2 := by
        simp [sub_getdecnum_autosize, bound, h1', h2]
      have hsel : c_and 2 3 = 2 := by decide
      have hb1 : data_byte (toUInt16 (dec_value ds)) 1 = dec_value ds / 256 % 256 := by
        simp only [data_byte, toUInt16]; norm_num; omega
      have hb0 : data_byte (toUInt16 (dec_value ds)) 0 = dec_value ds % 256 := by
        simp only [data_byte, toUInt16]; norm_num
      simp only [hs, Nat.cast_ofNat, hsel, if_neg h1, if_pos h2, q_writeshort, hb1, hb0, q_puts_cons, q_puts_nil]
      simp
    · have h2' : ¬ (32768 : Int) ≥ dec_value ds := by omega
      have hs : sub_getdecnum_autosize (dec_value ds) 3 0 1 = 3 := by
        simp [sub_getdecnum_autosize, bound, h1', h2']
      have hsel : c_and 3 3 = 3 := by decide
      have hb3 : data_byte (toUInt32 (dec_value ds)) 3 = dec_value ds / 16777216 % 256 := by
        simp only [data_byte, toUInt32]; norm_num; omega
      have hb2 : data_byte (toUInt32 (dec_value ds)) 2 = dec_value ds / 65536 % 256 := by
        simp only [data_byte, toUInt32]; norm_num; omega
      have hb1 : data_byte (toUInt32 (dec_value ds)) 1 = dec_value ds / 256 % 256 := by
        simp only [data_byte, toUInt32]; norm_num; omega
      have hb0 : data_byte (toUInt32 (dec_value ds)) 0 = dec_value ds % 256 := by
        simp only [data_byte, toUInt32]; norm_num
      simp only [hs, Nat.cast_ofNat, hsel, if_neg h1, if_neg h2, q_writelong, hb3, hb2, hb1, hb0, q_puts_cons,
        q_puts_nil]
      simp

/-- What `sub_getdecnum` does on every footer-less non-negative literal of at
most 15 digits and value below 2^31 followed by a whitespace character: it
writes and returns 1 byte up to the value 128, 2 bytes up to 32768 and 4 bytes
above, most-significant byte first. The sizes differ from the signed ranges
exactly at 128 and 32768. -/
theorem getdecnum_footerless (ds : List Int) (ws : Int) (rest : Stream) (msg : bintex_q)
    (hds : ∀ c ∈ ds, IS_DECVAL c = true) (hlen : ds.length ≤ 15)
    (hv : dec_value ds < 2147483648) (hws : IS_WHITESPACE ws = true) :
    sub_getdecnum (ds ++ ws :: rest) msg =
      if dec_value ds ≤ 128 then
        { status := 0, ret := 1, stream := if ds.length = 15 then ws :: rest else rest,
          msg := q_puts msg [dec_value ds % 256] }
      else if dec_value ds ≤ 32768 then
        { status := 0, ret := 2, stream := if ds.length = 15 then ws :: rest else rest,
          msg := q_puts msg [dec_value ds / 256 % 256, dec_value ds % 256] }
      else
        { status := 0, ret := 4, stream := if ds.length = 15 then ws :: rest else rest,
          msg := q_puts msg [dec_value ds / 16777216 % 256, dec_value ds / 65536 % 256,
            dec_value ds / 256 % 256, dec_value ds % 256] } := by
  have w := (IS_WHITESPACE_iff ws).1 hws
  by_cases hfull : ds.length = 15
  · have hd := decdigits_full ds hds (ws :: rest)
    rw [hfull] at hd
    have hfirst : (ds ++ ([] : List Int)).getD 0 0 ≠ 45 := by
      cases ds with
      | nil => simp at hfull
      | cons c t =>
        have := (IS_DECVAL_iff c).1 (hds c (by simp))
        simp; omega
    have := getdecnum_of_digits (ds ++ ws :: rest) msg ds [] 0 (ws :: rest) hds hv hfirst
      (by rw [hd]; simp [hfull])
    rw [this]; simp only [if_pos hfull]
  · have hd := decdigits_ws ds hds ws hws rest (14 - ds.length)
    rw [show ds.length + (14 - ds.length + 1) = 15 by omega] at hd
    have hfirst : (ds ++ [ws]).getD 0 0 ≠ 45 := by
      cases ds with
      | nil => simp; omega
      | cons c t =>
        have := (IS_DECVAL_iff c).1 (hds c (by simp))
        simp; omega
    have := getdecnum_of_digits (ds ++ ws :: rest) msg ds [ws] 0 rest hds hv hfirst hd
    rw [this]; simp only [if_neg hfull]

theorem getdecnum_footerless_example :
    (sub_getdecnum ([51, 48, 48] ++ 32 :: []) q_zero).ret = 2 := by
  rw [getdecnum_footerless [51, 48, 48] 32 [] q_zero (by decide) (by decide) (by decide)
    (by decide)]
  decide

set_option maxRecDepth 100000 in
/-- The test input of `parsestring_main`, `[11223344 55667788 2233445566]`:
`bintex_ss` returns 13 and the output holds the 13 bytes of the three groups. -/
theorem parsestring_main_example :
    (bintex_ss 7 4
        [91, 49, 49, 50, 50, 51, 51, 52, 52, 32, 53, 53, 54, 54, 55, 55, 56, 56, 32,
          50, 50, 51, 51, 52, 52, 53, 53, 54, 54, 93]
        (fun _ => 0) 0 512).map (fun p => (p.1, q_bytes p.2 0 13))
      = some (13, [0x11, 0x22, 0x33, 0x44, 0x55, 0x66, 0x77, 0x88, 0x22, 0x33, 0x44, 0x55, 0x66]) := by
  decide

theorem q_writeshort_bytes (q : bintex_q) (v : Int) :
    q_writeshort q v = q_puts q [toUInt16 v / 256 % 256, toUInt16 v % 256] := by
  have h1 : data_byte (toUInt16 v) 1 = toUInt16 v / 256 % 256 := by
    simp only [data_byte]; norm_num
  have h0 : data_byte (toUInt16 v) 0 = toUInt16 v % 256 := by
    simp only [data_byte]; norm_num
  simp only [q_writeshort, h1, h0, q_puts_cons, q_puts_nil]

theorem q_writeshort_be_bytes (q : bintex_q) (v : Int) :
    q_writeshort_be q v = q_puts q [toUInt16 v % 256, toUInt16 v / 256 % 256] := by
  have h1 : data_byte (toUInt16 v) 1 = toUInt16 v / 256 % 256 := by
    simp only [data_byte]; norm_num
  have h0 : data_byte (toUInt16 v) 0 = toUInt16 v % 256 := by
    simp only [data_byte]; norm_num
  simp only [q_writeshort_be, h1, h0, q_puts_cons, q_puts_nil]

theorem q_writelong_bytes (q : bintex_q) (v : Int) :
    q_writelong q v = q_puts q [toUInt32 v / 16777216 % 256, toUInt32 v / 65536 % 256,
      toUInt32 v / 256 % 256, toUInt32 v % 256] := by
  have h3 : data_byte (toUInt32 v) 3 = toUInt32 v / 16777216 % 256 := by
    simp only [data_byte]; norm_num
  have h2 : data_byte (toUInt32 v) 2 = toUInt32 v / 65536 % 256 := by
    simp only [data_byte]; norm_num
  have h1 : data_byte (toUInt32 v) 1 = toUInt32 v / 256 % 256 := by
    simp only [data_byte]; norm_num
  have h0 : data_byte (toUInt32 v) 0 = toUInt32 v % 256 := by
    simp only [data_byte]; norm_num
  simp only [q_writelong, h3, h2, h1, h0, q_puts_cons, q_puts_nil]

set_option maxRecDepth 100000 in
/-- Claim C14 (amended): in the build without `__BIG_ENDIAN__` on a
little-endian host, `q_writeshort(v)` appends the most-significant byte of `v`
first and then the least-significant byte, and `q_writelong(v)` appends the
four bytes of `v` most-significant first; consequently the 2-byte decimal token
`d300` is emitted as 0x01 0x2C. -/
theorem C14_multibyte_writes_most_significant_first (q : bintex_q) (v : Int) :
    q_appended q (q_writeshort q v) [toUInt16 v / 256 % 256, toUInt16 v % 256] ∧
    q_appended q (q_writelong q v) [toUInt32 v / 16777216 % 256, toUInt32 v / 65536 % 256,
      toUInt32 v / 256 % 256, toUInt32 v % 256] ∧
    (sub_parsestream 0 1 [100, 51, 48, 48, 32] q_zero).map
        (fun r => (r.ret, r.stream, q_bytes r.msg 0 2)) = some (2, [], [1, 44]) := by
  rw [q_writeshort_bytes, q_writelong_bytes]
  exact ⟨q_puts_appended q _, q_puts_appended q _, by decide⟩

set_option maxRecDepth 100000 in
/-- Claim C14 (counterexample): `q_writeshort(300)` on an empty queue stores
0x01 and then 0x2C, `q_writelong(0x01020304)` stores 01 02 03 04, and the
token `d300` is emitted as 0x01 0x2C, not as 0x2C 0x01. -/
theorem C14_counterexample_d300 :
    q_bytes (q_writeshort q_zero 300) 0 2 = [1, 44] ∧
    q_bytes (q_writelong q_zero 16909060) 0 4 = [1, 2, 3, 4] ∧
    (bintex_iter_sq 0 1 [100, 51, 48, 48, 32] q_zero 512).map
        (fun r => (r.ret, q_bytes r.msg 0 2)) = some (2, [1, 44]) := by
  decide
/-- Claim C15: on a freshly initialised queue, `q_writebyte(b)` then
`q_readbyte` returns `b`, `q_writeshort(s)` then `q_readshort` returns `s`,
`q_writeshort_be(s)` then `q_readshort_be` returns `s` and `q_writelong(l)`
then `q_readlong` returns `l`, for 8-, 16- and 32-bit values; each read advances
`getcursor` by the 1, 2, 2 and 4 bytes the write advanced `putcursor`, so that
`q_span` is 0 again. -/
theorem C15_queue_write_read_round_trip (q0 : bintex_q) (buffer : Nat) (alloc : Int)
    (b s l : Int) (hb : 0 ≤ b ∧ b < 256) (hs : 0 ≤ s ∧ s < 65536)
    (hl : 0 ≤ l ∧ l < 4294967296) :
    ((q_readbyte (q_writebyte (q_init q0 buffer alloc) b)).1 = b ∧
      (q_readbyte (q_writebyte (q_init q0 buffer alloc) b)).2.getcursor = buffer + 1 ∧
      (q_writebyte (q_init q0 buffer alloc) b).putcursor = buffer + 1 ∧
      q_span (q_readbyte (q_writebyte (q_init q0 buffer alloc) b)).2 = 0) ∧
    ((q_readshort (q_writeshort (q_init q0 buffer alloc) s)).1 = s ∧
      (q_readshort (q_writeshort (q_init q0 buffer alloc) s)).2.getcursor = buffer + 2 ∧
      (q_writeshort (q_init q0 buffer alloc) s).putcursor = buffer + 2 ∧
      q_span (q_readshort (q_writeshort (q_init q0 buffer alloc) s)).2 = 0) ∧
    ((q_readshort_be (q_writeshort_be (q_init q0 buffer alloc) s)).1 = s ∧
      (q_readshort_be (q_writeshort_be (q_init q0 buffer alloc) s)).2.getcursor = buffer + 2 ∧
      (q_writeshort_be (q_init q0 buffer alloc) s).putcursor = buffer + 2 ∧
      q_span (q_readshort_be (q_writeshort_be (q_init q0 buffer alloc) s)).2 = 0) ∧
    ((q_readlong (q_writelong (q_init q0 buffer alloc) l)).1 = l ∧
      (q_readlong (q_writelong (q_init q0 buffer alloc) l)).2.getcursor = buffer + 4 ∧
      (q_writelong (q_init q0 buffer alloc) l).putcursor = buffer + 4 ∧
      q_span (q_readlong (q_writelong (q_init q0 buffer alloc) l)).2 = 0) := by
  obtain ⟨hb0, hb1⟩ := hb
  obtain ⟨hs0, hs1⟩ := hs
  obtain ⟨hl0, hl1⟩ := hl
  refine ⟨?_, ?_, ?_, ?_⟩
  · simp only [q_readbyte, q_get, q_writebyte, q_put, q_init, q_empty, q_span, toUInt8, toInt16]
    simp
    omega
  · simp only [q_readshort, q_get, q_writeshort, q_put, q_init, q_empty, q_span, toUInt8,
      toUInt16, toInt16, data_byte, uni16_value]
    norm_num
    omega
  · simp only [q_readshort_be, q_get, q_writeshort_be, q_put, q_init, q_empty, q_span, toUInt8,
      toUInt16, toInt16, data_byte, uni16_value]
    norm_num
    omega
  · simp only [q_readlong, q_get, q_writelong, q_put, q_init, q_empty, q_span, toUInt8,
      toUInt32, toInt16, data_byte, uni32_value]
    norm_num
    omega

/-- Instance at the values 0xAB, 0x1234 and 0x01020304 on a queue of 512 bytes. -/
theorem C15_queue_write_read_round_trip_witness :
    (q_readshort (q_writeshort (q_init q_zero 0 512) 4660)).1 = 4660 ∧
    (q_readlong (q_writelong (q_init q_zero 0 512) 16909060)).1 = 16909060 :=
  ⟨(C15_queue_write_read_round_trip q_zero 0 512 171 4660 16909060 (by decide) (by decide)
      (by decide)).2.1.1,
   (C15_queue_write_read_round_trip q_zero 0 512 171 4660 16909060 (by decide) (by decide)
      (by decide)).2.2.2.1⟩
/-- The accounting of a write of `k` bytes: a queue `q2` that differs from the
well-formed queue `q` by a put cursor advanced by `k`, written when
`q_space q` is at least `k`. -/
theorem write_accounting (q q2 : bintex_q) (k : Nat)
    (hput : q2.putcursor = q.putcursor + k) (hfront : q2.front = q.front)
    (hback : q2.back = q.back) (hget : q2.getcursor = q.getcursor)
    (halloc : q2.alloc = q.alloc) (hwf : q_wf q) (hspace : (k : Int) ≤ q_space q) :
    q_length q2 = q_length q + k ∧ q_span q2 = q_span q + k ∧ q_space q2 = q_space q - k ∧
    q2.front = q.front ∧ q2.back = q.back ∧ q2.getcursor = q.getcursor ∧ q_wf q2 := by
  obtain ⟨h1, h2, h3, h4, h5⟩ := hwf
  unfold q_space toInt16 at hspace
  unfold q_length q_span q_space q_wf toInt16
  rw [hput, hfront, hback, hget, halloc]
  refine ⟨?_, ?_, ?_, rfl, rfl, rfl, ?_⟩ <;> push_cast <;> omega

/-- Claim C16: after `q_init(buffer, alloc)` with `alloc` at most 32767 the
length and the span are 0, the space is `alloc` and
`front ≤ getcursor ≤ putcursor ≤ back`; on such a queue every write of `k`
bytes (`q_writebyte`, `q_writeshort`, `q_writeshort_be`, `q_writelong`,
`q_writestring`) made when the space is at least `k` increases the length and
the span by `k`, decreases the space by `k`, leaves `front`, `back` and
`getcursor` unchanged and preserves the invariant. -/
theorem C16_queue_cursor_accounting (q0 q : bintex_q) (buffer : Nat) (alloc v : Int)
    (string : List Int) (length : Nat)
    (halloc : 0 ≤ alloc ∧ alloc ≤ 32767) (hwf : q_wf q) :
    (q_length (q_init q0 buffer alloc) = 0 ∧ q_span (q_init q0 buffer alloc) = 0 ∧
      q_space (q_init q0 buffer alloc) = alloc ∧ q_wf (q_init q0 buffer alloc)) ∧
    (1 ≤ q_space q →
      q_length (q_writebyte q v) = q_length q + 1 ∧ q_span (q_writebyte q v) = q_span q + 1 ∧
      q_space (q_writebyte q v) = q_space q - 1 ∧ (q_writebyte q v).front = q.front ∧
      (q_writebyte q v).back = q.back ∧ (q_writebyte q v).getcursor = q.getcursor ∧
      q_wf (q_writebyte q v)) ∧
    (2 ≤ q_space q →
      q_length (q_writeshort q v) = q_length q + 2 ∧ q_span (q_writeshort q v) = q_span q + 2 ∧
      q_space (q_writeshort q v) = q_space q - 2 ∧ (q_writeshort q v).front = q.front ∧
      (q_writeshort q v).back = q.back ∧ (q_writeshort q v).getcursor = q.getcursor ∧
      q_wf (q_writeshort q v)) ∧
    (2 ≤ q_space q →
      q_length (q_writeshort_be q v) = q_length q + 2 ∧
      q_span (q_writeshort_be q v) = q_span q + 2 ∧
      q_space (q_writeshort_be q v) = q_space q - 2 ∧ (q_writeshort_be q v).front = q.front ∧
      (q_writeshort_be q v).back = q.back ∧ (q_writeshort_be q v).getcursor = q.getcursor ∧
      q_wf (q_writeshort_be q v)) ∧
    (4 ≤ q_space q →
      q_length (q_writelong q v) = q_length q + 4 ∧ q_span (q_writelong q v) = q_span q + 4 ∧
      q_space (q_writelong q v) = q_space q - 4 ∧ (q_writelong q v).front = q.front ∧
      (q_writelong q v).back = q.back ∧ (q_writelong q v).getcursor = q.getcursor ∧
      q_wf (q_writelong q v)) ∧
    ((length : Int) ≤ q_space q →
      q_length (q_writestring q string length) = q_length q + length ∧
      q_span (q_writestring q string length) = q_span q + length ∧
      q_space (q_writestring q string length) = q_space q - length ∧
      (q_writestring q string length).front = q.front ∧
      (q_writestring q string length).back = q.back ∧
      (q_writestring q string length).getcursor = q.getcursor ∧
      q_wf (q_writestring q string length)) := by
  refine ⟨?_, ?_, ?_, ?_, ?_, ?_⟩
  · obtain ⟨ha0, ha1⟩ := halloc
    have hu : toUInt16 alloc = alloc := by unfold toUInt16; omega
    have hn : ((alloc.toNat : Nat) : Int) = alloc := Int.toNat_of_nonneg ha0
    refine ⟨?_, ?_, ?_, ?_⟩
    · simp [q_init, q_empty, q_length, toInt16]
    · simp [q_init, q_empty, q_span, toInt16]
    · simp only [q_init, q_empty, q_space, toInt16, hu]
      push_cast
      rw [hn]; omega
    · simp [q_init, q_empty, q_wf, hu]
      omega
  · intro h
    have := write_accounting q (q_writebyte q v) 1 rfl rfl rfl rfl rfl hwf (by simpa using h)
    simpa using this
  · intro h
    obtain ⟨f1, f2, f3, f4, f5, -⟩ := q_puts_fields [toUInt16 v / 256 % 256, toUInt16 v % 256] q
    rw [← q_writeshort_bytes] at f1 f2 f3 f4 f5
    have := write_accounting q (q_writeshort q v) 2 f1 f2 f3 f4 f5 hwf (by simpa using h)
    simpa using this
  · intro h
    obtain ⟨f1, f2, f3, f4, f5, -⟩ := q_puts_fields [toUInt16 v % 256, toUInt16 v / 256 % 256] q
    rw [← q_writeshort_be_bytes] at f1 f2 f3 f4 f5
    have := write_accounting q (q_writeshort_be q v) 2 f1 f2 f3 f4 f5 hwf (by simpa using h)
    simpa using this
  · intro h
    obtain ⟨f1, f2, f3, f4, f5, -⟩ := q_puts_fields [toUInt32 v / 16777216 % 256,
      toUInt32 v / 65536 % 256, toUInt32 v / 256 % 256, toUInt32 v % 256] q
    rw [← q_writelong_bytes] at f1 f2 f3 f4 f5
    have := write_accounting q (q_writelong q v) 4 f1 f2 f3 f4 f5 hwf (by simpa using h)
    simpa using this
  · intro h
    exact write_accounting q (q_writestring q string length) length rfl rfl rfl rfl rfl hwf h

/-- Instance at a queue of 512 bytes and the 16-bit value 300. -/
theorem C16_queue_cursor_accounting_witness :
    q_space (q_init q_zero 0 512) = 512 ∧
    (2 ≤ q_space q_zero → q_space (q_writeshort q_zero 300) = q_space q_zero - 2) :=
  ⟨(C16_queue_cursor_accounting q_zero q_zero 0 512 300 [65, 66] 2 (by decide)
      (by unfold q_wf; decide)).1.2.2.1,
   fun h => ((C16_queue_cursor_accounting q_zero q_zero 0 512 300 [65, 66] 2 (by decide)
      (by unfold q_wf; decide)).2.2.1 h).2.2.1⟩

set_option maxRecDepth 100000 in
/-- Claim C20: the four writers store and advance whatever `back` is; on a
queue with `q_space` 0 (whose `alloc` is a `uint16_t` and whose put cursor is
not before `front`), `q_writebyte` still stores the byte and advances
`putcursor`, leaving `putcursor > back` and `q_space` -1; with capacity 1 and
the input `"AB"`, `bintex_ss` returns 2. -/
theorem C20_writes_are_not_bounds_checked (q : bintex_q) (v : Int)
    (hspace : q_space q = 0) (hfront : q.front ≤ q.putcursor)
    (hback : q.back = q.front + q.alloc) (halloc : q.alloc ≤ 65535) :
    ((q_writebyte q v).mem q.putcursor = toUInt8 v ∧
      (q_writebyte q v).putcursor = q.putcursor + 1 ∧
      (q_writebyte q v).back = q.back ∧
      (q_writebyte q v).putcursor > (q_writebyte q v).back ∧
      q_space (q_writebyte q v) = -1) ∧
    ((q_writeshort q v).putcursor = q.putcursor + 2 ∧
      (q_writeshort_be q v).putcursor = q.putcursor + 2 ∧
      (q_writelong q v).putcursor = q.putcursor + 4 ∧
      (q_writeshort q v).putcursor > (q_writeshort q v).back ∧
      (q_writeshort_be q v).putcursor > (q_writeshort_be q v).back ∧
      (q_writelong q v).putcursor > (q_writelong q v).back) ∧
    (bintex_ss 0 4 [34, 65, 66, 34] (fun _ => 0) 0 1).map
        (fun p => (p.1, p.2.back, q_space p.2, q_bytes p.2 0 2)) = some (2, 1, -1, [65, 66]) := by
  unfold q_space toInt16 at hspace
  refine ⟨?_, ?_, by decide⟩
  · simp only [q_writebyte, q_put, q_space, toInt16, if_true, gt_iff_lt]
    refine ⟨trivial, trivial, trivial, ?_, ?_⟩ <;> push_cast <;> omega
  · simp only [q_writeshort, q_writeshort_be, q_writelong, q_put, gt_iff_lt]
    refine ⟨trivial, trivial, trivial, ?_, ?_, ?_⟩ <;> omega

/-- Instance at a queue of capacity 0 and the byte 0x41. -/
theorem C20_writes_are_not_bounds_checked_witness :
    (q_writebyte (q_init q_zero 0 0) 65).mem (q_init q_zero 0 0).putcursor = toUInt8 65 ∧
    q_space (q_writebyte (q_init q_zero 0 0) 65) = -1 :=
  ⟨(C20_writes_are_not_bounds_checked (q_init q_zero 0 0) 65 (by decide) (by decide)
      (by decide) (by decide)).1.1,
   (C20_writes_are_not_bounds_checked (q_init q_zero 0 0) 65 (by decide) (by decide)
      (by decide) (by decide)).1.2.2.2.2⟩

theorem hex_digit_char_spec (u : Bool) (v : Int) (h0 : 0 ≤ v) (h1 : v < 16) :
    IS_HEXVAL (hex_digit_char u v) = true ∧ hex_digit_value (hex_digit_char u v) = v := by
  rw [IS_HEXVAL_iff]
  unfold hex_digit_char hex_digit_value
  cases u <;> simp only [Bool.false_eq_true, if_false, if_true] <;> split_ifs <;> omega

theorem hex_render_spec : ∀ (bytes : List (Int × Bool × Bool)),
    (∀ p ∈ bytes, 0 ≤ p.1 ∧ p.1 < 256) →
    (∀ c ∈ hex_render bytes, IS_HEXVAL c = true) ∧
    (hex_render bytes).length = 2 * bytes.length ∧
    pack_pairs (hex_render bytes) = bytes.map (fun p => p.1) := by
  intro bytes
  induction bytes with
  | nil => intro _; simp [hex_render, pack_pairs]
  | cons p t ih =>
    intro hb
    obtain ⟨b, hi, lo⟩ := p
    obtain ⟨hb0, hb1⟩ := hb (b, hi, lo) (by simp)
    obtain ⟨i1, i2, i3⟩ := ih (fun x hx => hb x (by simp [hx]))
    obtain ⟨a1, a2⟩ := hex_digit_char_spec hi (b / 16) (by omega) (by omega)
    obtain ⟨c1, c2⟩ := hex_digit_char_spec lo (b % 16) (by omega) (by omega)
    simp only [hex_render, pack_pairs, List.length_cons, List.map_cons, a2, c2, i3]
    refine ⟨?_, by omega, ?_⟩
    · intro c hc
      simp only [List.mem_cons] at hc
      rcases hc with hc | hc | hc
      · rw [hc]; exact a1
      · rw [hc]; exact c1
      · exact i1 c hc
    · congr 1; omega

theorem parse_header_hexnum (s : Stream) :
    sub_parse_header (120 :: s) = (Data_type.DATA_hexnum, s) := by
  have : sub_parse_header_switch (toChar (sub_buffergetc ((120 : Int) :: s)).1)
      = some Data_type.DATA_hexnum := by
    have g : (sub_buffergetc ((120 : Int) :: s)).1 = 120 := by simp [sub_buffergetc]
    rw [g]; decide
  simp only [sub_parse_header, this]

/-- Claim C13: for every byte sequence of length at most 32, rendered as two
hex digits per byte (in either case), prefixed by `x` and followed by a
whitespace character, one iteration appends exactly the bytes of the sequence
and returns its length. -/
theorem C13_hex_round_trip (bytes : List (Int × Bool × Bool)) (ws : Int) (rest : Stream)
    (msg : bintex_q) (garbage : Int) (fuel : Nat) (size : Int)
    (hbytes : ∀ p ∈ bytes, 0 ≤ p.1 ∧ p.1 < 256) (hlen : bytes.length ≤ 32)
    (hws : IS_WHITESPACE ws = true) :
    ∃ r, bintex_iter_sq garbage fuel (120 :: (hex_render bytes ++ ws :: rest)) msg size = some r ∧
      q_appended msg r.msg (bytes.map (fun p => p.1)) ∧ r.ret = (bytes.length : Int) := by
  obtain ⟨h1, h2, h3⟩ := hex_render_spec bytes hbytes
  have hpack : pack_hex (hex_render bytes) = bytes.map (fun p => p.1) := by
    unfold pack_hex
    rw [if_neg (by omega), h3]
  have hret : (((hex_render bytes).length + 1) / 2 : Nat) = bytes.length := by omega
  have hrun : ∃ st s2, sub_gethexnum (hex_render bytes ++ ws :: rest) msg
      = { status := st, ret := (bytes.length : Int), stream := s2,
          msg := q_puts msg (bytes.map (fun p => p.1)) } := by
    by_cases hfull : (hex_render bytes).length = 64
    · refine ⟨0, ws :: rest, ?_⟩
      rw [gethexnum_full (hex_render bytes) (ws :: rest) msg h1 hfull, hpack, hret]
    · refine ⟨0, rest, ?_⟩
      rw [gethexnum_ws (hex_render bytes) ws rest msg h1 (by omega) hws, hpack, hret]
  obtain ⟨st, s2, hrun⟩ := hrun
  refine ⟨{ ret := (bytes.length : Int), stream := s2,
            msg := q_puts msg (bytes.map (fun p => p.1)) }, ?_, q_puts_appended msg _, rfl⟩
  simp only [bintex_iter_sq, sub_parsestream, parse_header_hexnum, hrun]

/-- Instance at the bytes DE AD rendered as `dEAd`, followed by a space, on an
empty queue. -/
theorem C13_hex_round_trip_witness :
    ∃ r, bintex_iter_sq 0 0
        (120 :: (hex_render [(222, false, true), (173, true, false)] ++ 32 :: [])) q_zero 512
          = some r ∧
      q_appended q_zero r.msg [222, 173] ∧ r.ret = 2 :=
  C13_hex_round_trip [(222, false, true), (173, true, false)] 32 [] q_zero 0 0 512
    (by decide) (by decide) (by decide)

/-- Claim C19 (amended): for every character `c` that is not one of the
recognised escape characters, the sequence backslash-`c` inside an ASCII
string makes `sub_getascii` append exactly one byte, the backslash 0x5C; the
character `c` is consumed and dropped, and decoding goes on after it. -/
theorem C19_unrecognised_escape_appends_backslash (c : Int) (items : List AsciiItem)
    (rest : Stream) (msg : bintex_q) (fuel : Nat)
    (hc : 0 < c ∧ c < 256) (hunrec : recognised_escape c = false)
    (hvalid : ∀ it ∈ items, it.valid = true) (hfuel : items.length + 1 < fuel) :
    ∃ r, sub_getascii fuel (92 :: c :: (ascii_text items ++ 34 :: rest)) msg = some r ∧
      q_appended msg r.msg (92 :: items.map AsciiItem.value) ∧ r.stream = rest := by
  obtain ⟨f, rfl⟩ : ∃ f, fuel = f + 1 := ⟨fuel - 1, by omega⟩
  have g1 : sub_buffergetc ((92 : Int) :: c :: (ascii_text items ++ 34 :: rest))
      = (92, c :: (ascii_text items ++ 34 :: rest)) := getc_ascii 92 _ (by omega) (by omega)
  have g2 : sub_buffergetc (c :: (ascii_text items ++ 34 :: rest))
      = (c, ascii_text items ++ 34 :: rest) := getc_ascii c _ hc.1 hc.2
  have tc : toChar 92 = 92 := by decide
  have hne : c ≠ 97 ∧ c ≠ 92 ∧ c ≠ 98 ∧ c ≠ 114 ∧ c ≠ 34 ∧ c ≠ 102 ∧ c ≠ 116 ∧ c ≠ 110
      ∧ c ≠ 48 ∧ c ≠ 39 ∧ c ≠ 118 ∧ c ≠ 63 := by
    simpa [recognised_escape, and_assoc] using hunrec
  obtain ⟨n1, n2, n3, n4, n5, n6, n7, n8, n9, n10, n11, n12⟩ := hne
  have hesc : sub_getascii_escape c 92 = 92 := by
    simp only [sub_getascii_escape, if_neg n1, if_neg n2, if_neg n3, if_neg n4, if_neg n5,
      if_neg n6, if_neg n7, if_neg n8, if_neg n9, if_neg n10, if_neg n11, if_neg n12]
  have hloop : sub_getascii_loop (f + 1) (92 :: c :: (ascii_text items ++ 34 :: rest)) msg
      = some (rest, q_puts msg (92 :: items.map AsciiItem.value)) := by
    rw [sub_getascii_loop]
    simp only [g1, g2, tc, hesc, show ¬ (92 : Int) = 34 by decide, if_false, if_true]
    rw [getascii_loop_run rest items f _ hvalid (by omega), q_puts_cons]
    simp [q_writebyte, toUInt8]
  refine ⟨{ ret := q_length (q_puts msg (92 :: items.map AsciiItem.value)) - q_length msg,
            stream := rest, msg := q_puts msg (92 :: items.map AsciiItem.value) }, ?_, ?_, rfl⟩
  · unfold sub_getascii
    rw [hloop]
  · exact q_puts_appended msg _

/-- Instance at the string body `\z"` on an empty queue. -/
theorem C19_unrecognised_escape_appends_backslash_witness :
    ∃ r, sub_getascii 2 (92 :: 122 :: (ascii_text [] ++ 34 :: [])) q_zero = some r ∧
      q_appended q_zero r.msg (92 :: ([] : List AsciiItem).map AsciiItem.value) ∧
      r.stream = [] :=
  C19_unrecognised_escape_appends_backslash 122 [] [] q_zero 2 (by decide) (by decide)
    (by decide) (by decide)

set_option maxRecDepth 100000 in
/-- Claim C19 (counterexample): the string `"\z"` appends the single byte 0x5C
(the backslash), not 0x7A. -/
theorem C19_counterexample_backslash_z :
    (sub_parsestream 0 2 [34, 92, 122, 34] q_zero).map
        (fun r => (r.ret, r.stream, r.msg.putcursor, q_bytes r.msg 0 1))
      = some (1, [], 1, [92]) := by
  decide

/-- On every input the digit run read by `sub_hexdigits` consists of hex
digits, at most `limit` of them, stored at the front of `buf`. -/
theorem hexdigits_loop_any : ∀ (k : Nat) (D : Digits),
    ∃ (d suf : List Int) (st : Int) (rest : Stream),
      (∀ c ∈ d, IS_HEXVAL c = true) ∧ d.length ≤ k ∧
      sub_hexdigits_loop k D
        = { status := st, digits := D.digits + d.length, buf := D.buf ++ (d ++ suf),
            stream := rest } := by
  intro k
  induction k with
  | zero =>
    intro D
    exact ⟨[], [], D.status, D.stream, by simp, by simp, by simp [sub_hexdigits_loop]⟩
  | succ k ih =>
    intro D
    rw [sub_hexdigits_loop]
    by_cases h93 : toChar (sub_buffergetc D.stream).1 = 93
    · exact ⟨[], [toChar (sub_buffergetc D.stream).1], 1, (sub_buffergetc D.stream).2,
        by simp, by simp, by simp [h93]⟩
    · by_cases hhex : IS_HEXVAL (toChar (sub_buffergetc D.stream).1) = true
      · obtain ⟨d, suf, st, rest, h1, h2, h3⟩ := ih
          { status := D.status, digits := D.digits + 1,
            buf := D.buf ++ [toChar (sub_buffergetc D.stream).1],
            stream := (sub_buffergetc D.stream).2 }
        refine ⟨toChar (sub_buffergetc D.stream).1 :: d, suf, st, rest, ?_, ?_, ?_⟩
        · intro c hc
          simp only [List.mem_cons] at hc
          rcases hc with hc | hc
          · rw [hc]; exact hhex
          · exact h1 c hc
        · simp; omega
        · simp only [if_neg h93, hhex, Bool.not_true, Bool.false_eq_true, if_false, h3]
          simp [Nat.add_assoc, Nat.add_comm 1]
      · have hf : IS_HEXVAL (toChar (sub_buffergetc D.stream).1) = false := by
          simpa using hhex
        by_cases hws : IS_WHITESPACE (toChar (sub_buffergetc D.stream).1) = true
        · exact ⟨[], [toChar (sub_buffergetc D.stream).1], D.status, (sub_buffergetc D.stream).2,
            by simp, by simp, by simp [h93, hf, hws]⟩
        · have hw : IS_WHITESPACE (toChar (sub_buffergetc D.stream).1) = false := by
            simpa using hws
          exact ⟨[], [toChar (sub_buffergetc D.stream).1], 2, (sub_buffergetc D.stream).2,
            by simp, by simp, by simp [h93, hf, hw]⟩

/-- On every input the digit run read by `sub_bindigits` consists of binary
digits, at most `limit` of them, stored at the front of `buf`. -/
theorem bindigits_loop_any : ∀ (k : Nat) (D : Digits),
    ∃ (d suf : List Int) (st : Int) (rest : Stream),
      (∀ c ∈ d, IS_BINVAL c = true) ∧ d.length ≤ k ∧
      sub_bindigits_loop k D
        = { status := st, digits := D.digits + d.length, buf := D.buf ++ (d ++ suf),
            stream := rest } := by
  intro k
  induction k with
  | zero =>
    intro D
    exact ⟨[], [], D.status, D.stream, by simp, by simp, by simp [sub_bindigits_loop]⟩
  | succ k ih =>
    intro D
    rw [sub_bindigits_loop]
    by_cases hbin : IS_BINVAL (toChar (sub_buffergetc D.stream).1) = true
    · obtain ⟨d, suf, st, rest, h1, h2, h3⟩ := ih
        { status := D.status, digits := D.digits + 1,
          buf := D.buf ++ [toChar (sub_buffergetc D.stream).1],
          stream := (sub_buffergetc D.stream).2 }
      refine ⟨toChar (sub_buffergetc D.stream).1 :: d, suf, st, rest, ?_, ?_, ?_⟩
      · intro c hc
        simp only [List.mem_cons] at hc
        rcases hc with hc | hc
        · rw [hc]; exact hbin
        · exact h1 c hc
      · simp; omega
      · simp only [hbin, Bool.not_true, Bool.false_eq_true, if_false, h3]
        simp [Nat.add_assoc, Nat.add_comm 1]
    · have hf : IS_BINVAL (toChar (sub_buffergetc D.stream).1) = false := by
        simpa using hbin
      by_cases hws : IS_WHITESPACE (toChar (sub_buffergetc D.stream).1) = true
      · exact ⟨[], [toChar (sub_buffergetc D.stream).1], D.status, (sub_buffergetc D.stream).2,
          by simp, by simp, by simp [hf, hws]⟩
      · have hw : IS_WHITESPACE (toChar (sub_buffergetc D.stream).1) = false := by
          simpa using hws
        exact ⟨[], [toChar (sub_buffergetc D.stream).1], 2, (sub_buffergetc D.stream).2,
          by simp, by simp, by simp [hf, hw]⟩

/-- On every input `sub_gethexnum` appends some bytes and returns their
number. -/
theorem gethexnum_any (stream : Stream) (msg : bintex_q) :
    ∃ bs : List Int, (sub_gethexnum stream msg).msg = q_puts msg bs ∧
      (sub_gethexnum stream msg).ret = (bs.length : Int) := by
  obtain ⟨d, suf, st, rest, h1, h2, h3⟩ := hexdigits_loop_any 64
    { status := 0, digits := 0, buf := [], stream := stream }
  have hd : sub_hexdigits stream 64
      = { status := st, digits := d.length, buf := d ++ suf, stream := rest } := by
    unfold sub_hexdigits; rw [h3]; simp
  rw [gethexnum_of_digits stream msg d suf st rest h1 h2 hd]
  exact ⟨pack_hex d, rfl, by simp [pack_hex_length]⟩

/-- On every input `sub_getbinnum` appends some bytes and returns their
number. -/
theorem getbinnum_any (stream : Stream) (msg : bintex_q) :
    ∃ bs : List Int, (sub_getbinnum stream msg).msg = q_puts msg bs ∧
      (sub_getbinnum stream msg).ret = (bs.length : Int) := by
  obtain ⟨d, suf, st, rest, h1, h2, h3⟩ := bindigits_loop_any 32
    { status := 0, digits := 0, buf := [], stream := stream }
  have hd : sub_bindigits stream 32
      = { status := st, digits := d.length, buf := d ++ suf, stream := rest } := by
    unfold sub_bindigits; rw [h3]; simp
  rw [getbinnum_of_digits stream msg d suf st rest h1 h2 hd]
  exact ⟨pack_bits d, rfl, by simp [pack_bits_length]⟩

theorem getdecnum_scan_size_le (buf : List Int) (digits : Nat) :
    ∀ (fuel i : Nat) (number : Int), (sub_getdecnum_scan buf digits fuel i number).size ≤ 3 := by
  intro fuel
  induction fuel with
  | zero => intro i number; simp [sub_getdecnum_scan]
  | succ fuel ih =>
    intro i number
    rw [sub_getdecnum_scan]
    split_ifs <;> first | exact ih _ _ | (dsimp only; split_ifs <;> omega) | simp

theorem getdecnum_autosize_range (max : Int) (j : Nat) :
    sub_getdecnum_autosize max 3 j 1 = 1 ∨ sub_getdecnum_autosize max 3 j 1 = 2 ∨
      sub_getdecnum_autosize max 3 j 1 = 3 := by
  have hb : bound.getD (j + 2 + 2) 0 = 0 := by
    rcases j with _ | _ | j <;> simp [bound]
  simp only [sub_getdecnum_autosize, hb, true_or, if_true]
  split_ifs <;> simp

/-- The three ways `sub_getdecnum` ends, by the final value of `size`. -/
theorem getdecnum_write (st : Int) (size : Nat) (number : Int) (rest : Stream) (msg : bintex_q)
    (hsize : size = 1 ∨ size = 2 ∨ size = 3) :
    ∃ bs : List Int,
      (if c_and (size : Int) 3 = 0 ∨ c_and (size : Int) 3 = 1 then
          ({ status := st, ret := size, stream := rest, msg := q_writebyte msg number } : Decoded)
        else if c_and (size : Int) 3 = 2 then
          { status := st, ret := size, stream := rest, msg := q_writeshort msg number }
        else
          { status := st, ret := 4, stream := rest, msg := q_writelong msg number })
        = { status := st, ret := (bs.length : Int), stream := rest, msg := q_puts msg bs } := by
  rcases hsize with h | h | h <;> subst h
  · refine ⟨[toUInt8 number], ?_⟩
    have : c_and 1 3 = 1 := by decide
    simp [this, q_writebyte, q_puts_cons, q_puts_nil]
  · refine ⟨[toUInt16 number / 256 % 256, toUInt16 number % 256], ?_⟩
    have : c_and 2 3 = 2 := by decide
    simp [this, q_writeshort_bytes]
  · refine ⟨[toUInt32 number / 16777216 % 256, toUInt32 number / 65536 % 256,
      toUInt32 number / 256 % 256, toUInt32 number % 256], ?_⟩
    have : c_and 3 3 = 3 := by decide
    simp [this, q_writelong_bytes]


/-- On every input `sub_getdecnum` appends 1, 2 or 4 bytes and returns their
number; the status and the cursor are those left by `sub_decdigits`. -/
theorem getdecnum_any (stream : Stream) (msg : bintex_q) :
    ∃ bs : List Int, sub_getdecnum stream msg
      = { status := (sub_decdigits stream 15).status, ret := (bs.length : Int),
          stream := (sub_decdigits stream 15).stream, msg := q_puts msg bs } := by
  unfold sub_getdecnum
  simp only []
  generalize hsc : sub_getdecnum_scan (sub_decdigits stream 15).buf (sub_decdigits stream 15).digits
    (sub_decdigits stream 15).digits
    (if ((sub_decdigits stream 15).buf.getD 0 0 == 45) = true then 1 else 0) 0 = sc
  have hle : sc.size ≤ 3 := by rw [← hsc]; exact getdecnum_scan_size_le _ _ _ _ _
  generalize hS : (if sc.size = 0 then
      sub_getdecnum_autosize
        (sc.number - if (if ((sub_decdigits stream 15).buf.getD 0 0 == 45) = true then (-1 : Int)
          else 1) < 0 then 1 else 0) 3 sc.force_u 1
    else sc.size) = S
  have hSr : S = 1 ∨ S = 2 ∨ S = 3 := by
    rw [← hS]
    by_cases h0 : sc.size = 0
    · rw [if_pos h0]; exact getdecnum_autosize_range _ _
    · rw [if_neg h0]; omega
  exact getdecnum_write (sub_decdigits stream 15).status S _ (sub_decdigits stream 15).stream
    msg hSr

/-- On every input the loop of `sub_getascii`, when it is left, has appended
some bytes. -/
theorem getascii_loop_any : ∀ (fuel : Nat) (stream : Stream) (msg : bintex_q)
    (r : Stream × bintex_q), sub_getascii_loop fuel stream msg = some r →
    ∃ bs : List Int, r.2 = q_puts msg bs := by
  intro fuel
  induction fuel with
  | zero => intro stream msg r h; simp [sub_getascii_loop] at h
  | succ fuel ih =>
    intro stream msg r h
    rw [sub_getascii_loop] at h
    simp only [] at h
    split_ifs at h with h1 h2
    · simp only [Option.some.injEq] at h
      exact ⟨[], by rw [← h]; rfl⟩
    · obtain ⟨bs, hbs⟩ := ih _ _ r h
      exact ⟨_ :: bs, by rw [hbs, q_puts_cons]; rfl⟩
    · obtain ⟨bs, hbs⟩ := ih _ _ r h
      exact ⟨_ :: bs, by rw [hbs, q_puts_cons]; rfl⟩

/-- On every input the loop of `sub_gethexblock`, when it is left, has
appended some bytes. -/
theorem gethexblock_loop_any : ∀ (fuel : Nat) (status : Int) (stream : Stream)
    (msg : bintex_q) (r : Stream × bintex_q),
    sub_gethexblock_loop fuel status stream msg = some r →
    ∃ bs : List Int, r.2 = q_puts msg bs := by
  intro fuel
  induction fuel with
  | zero =>
    intro status stream msg r h
    rw [sub_gethexblock_loop] at h
    split_ifs at h
    simp only [Option.some.injEq] at h
    exact ⟨[], by rw [← h]; rfl⟩
  | succ fuel ih =>
    intro status stream msg r h
    rw [sub_gethexblock_loop] at h
    split_ifs at h
    · obtain ⟨bs1, h1, -⟩ := gethexnum_any stream msg
      obtain ⟨bs, hbs⟩ := ih _ _ _ r h
      exact ⟨bs1 ++ bs, by rw [hbs, h1, q_puts_append]⟩
    · simp only [Option.some.injEq] at h
      exact ⟨[], by rw [← h]; rfl⟩

/-- On every input the loop of `sub_getdecblock`, when it is left, has
appended some bytes. -/
theorem getdecblock_loop_any : ∀ (fuel : Nat) (status : Int) (stream : Stream)
    (msg : bintex_q) (r : Stream × bintex_q),
    sub_getdecblock_loop fuel status stream msg = some r →
    ∃ bs : List Int, r.2 = q_puts msg bs := by
  intro fuel
  induction fuel with
  | zero =>
    intro status stream msg r h
    rw [sub_getdecblock_loop] at h
    split_ifs at h
    simp only [Option.some.injEq] at h
    exact ⟨[], by rw [← h]; rfl⟩
  | succ fuel ih =>
    intro status stream msg r h
    rw [sub_getdecblock_loop] at h
    split_ifs at h
    · obtain ⟨bs1, h1⟩ := getdecnum_any stream msg
      rw [h1] at h
      obtain ⟨bs, hbs⟩ := ih _ _ _ r h
      exact ⟨bs1 ++ bs, by rw [hbs, q_puts_append]⟩
    · simp only [Option.some.injEq] at h
      exact ⟨[], by rw [← h]; rfl⟩

theorem passcomment_tail_ret : ∀ (s : Stream) (next : Int),
    (sub_passcomment_tail next s).1 = 0 ∨ (sub_passcomment_tail next s).1 = -1 := by
  intro s
  induction s with
  | nil => intro next; simp only [sub_passcomment_tail]; split_ifs <;> simp
  | cons c rest ih =>
    intro next
    simp only [sub_passcomment_tail]
    split_ifs
    · simp
    · exact ih _
    · simp

theorem passcomment_passws_ret : ∀ (s : Stream),
    (sub_passcomment_passws s).1 = 0 ∨ (sub_passcomment_passws s).1 = -1 := by
  intro s
  induction s with
  | nil => simp [sub_passcomment_passws]
  | cons c rest ih =>
    simp only [sub_passcomment_passws]
    split_ifs
    · simp
    · simp
    · exact ih
    · exact passcomment_tail_ret _ _

theorem passcomment_ret (s : Stream) :
    (sub_passcomment s).1 = 0 ∨ (sub_passcomment s).1 = -1 := by
  have key : ∀ (k : Nat) (s : Stream),
      (sub_passcomment_head k s).1 = 0 ∨ (sub_passcomment_head k s).1 = -1 := by
    intro k
    induction k with
    | zero => intro s; simp only [sub_passcomment_head]; exact passcomment_passws_ret s
    | succ k ih =>
      intro s
      simp only [sub_passcomment_head]
      split_ifs
      · simp
      · simp
      · exact passcomment_passws_ret _
      · exact ih _
  exact key 8 s

/-- What one iteration does to the queue, on every input: it appends some
bytes `bs`, and its return value is either their number (number tokens, and a
comment that meets its newline), or negative with nothing appended (end of
input, `;`, malformed token, comment cut by the end of input), or the
difference of the two values of `q_length` (string and block tokens). -/
theorem parsestream_appends (garbage : Int) (fuel : Nat) (stream : Stream) (msg : bintex_q)
    (r : Iter) (h : sub_parsestream garbage fuel stream msg = some r) :
    ∃ bs : List Int, r.msg = q_puts msg bs ∧
      (r.ret = (bs.length : Int) ∨ (r.ret < 0 ∧ bs = []) ∨
        r.ret = q_length (q_puts msg bs) - q_length msg) := by
  unfold sub_parsestream at h
  simp only [] at h
  split at h
  · simp only [Option.some.injEq] at h
    exact ⟨[], by rw [← h]; rfl, Or.inr (Or.inl ⟨by rw [← h]; simp, rfl⟩)⟩
  · simp only [Option.some.injEq] at h
    exact ⟨[], by rw [← h]; rfl, Or.inr (Or.inl ⟨by rw [← h]; simp, rfl⟩)⟩
  · simp only [Option.some.injEq] at h
    exact ⟨[], by rw [← h]; rfl, Or.inr (Or.inl ⟨by rw [← h]; simp, rfl⟩)⟩
  · simp only [Option.some.injEq] at h
    refine ⟨[], by rw [← h]; rfl, ?_⟩
    rw [← h]
    rcases passcomment_ret (sub_parse_header stream).2 with h0 | h1
    · exact Or.inl (by simpa using h0)
    · exact Or.inr (Or.inl ⟨by simp [h1], rfl⟩)
  · unfold sub_getascii at h
    simp only [] at h
    cases hl : sub_getascii_loop fuel (sub_parse_header stream).2 msg with
    | none => rw [hl] at h; simp at h
    | some p =>
      rw [hl] at h
      simp only [Option.some.injEq] at h
      obtain ⟨bs, hbs⟩ := getascii_loop_any _ _ _ p hl
      exact ⟨bs, by rw [← h]; exact hbs, Or.inr (Or.inr (by rw [← h, ← hbs]))⟩
  · simp only [Option.some.injEq] at h
    obtain ⟨bs, h1, h2⟩ := getbinnum_any (sub_parse_header stream).2 msg
    exact ⟨bs, by rw [← h]; exact h1, Or.inl (by rw [← h]; exact h2)⟩
  · simp only [Option.some.injEq] at h
    obtain ⟨bs, h1, h2⟩ := gethexnum_any (sub_parse_header stream).2 msg
    exact ⟨bs, by rw [← h]; exact h1, Or.inl (by rw [← h]; exact h2)⟩
  · unfold sub_gethexblock at h
    simp only [] at h
    cases hl : sub_gethexblock_loop fuel
        (sub_buffer_validatehex garbage (sub_parse_header stream).2)
        (sub_parse_header stream).2 msg with
    | none => rw [hl] at h; simp at h
    | some p =>
      rw [hl] at h
      simp only [Option.some.injEq] at h
      obtain ⟨bs, hbs⟩ := gethexblock_loop_any _ _ _ _ p hl
      exact ⟨bs, by rw [← h]; exact hbs, Or.inr (Or.inr (by rw [← h, ← hbs]))⟩
  · simp only [Option.some.injEq] at h
    obtain ⟨bs, h1⟩ := getdecnum_any (sub_parse_header stream).2 msg
    rw [h1] at h
    exact ⟨bs, by rw [← h], Or.inl (by rw [← h])⟩
  · unfold sub_getdecblock at h
    simp only [] at h
    cases hl : sub_getdecblock_loop fuel 0 (sub_parse_header stream).2 msg with
    | none => rw [hl] at h; simp at h
    | some p =>
      rw [hl] at h
      simp only [Option.some.injEq] at h
      obtain ⟨bs, hbs⟩ := getdecblock_loop_any _ _ _ _ p hl
      exact ⟨bs, by rw [← h]; exact hbs, Or.inr (Or.inr (by rw [← h, ← hbs]))⟩

/-- Claim C11: on a queue with enough space whose length is below 32768,
whenever one iteration returns `n >= 0`, exactly `n` bytes were appended:
`putcursor` advanced by `n`, the memory outside the appended bytes is
unchanged, and `front`, `back` and `getcursor` are unchanged; this holds on
every input, whatever the token kind. -/
theorem C11_return_value_is_the_byte_count (garbage : Int) (fuel : Nat) (stream : Stream)
    (msg : bintex_q) (r : Iter)
    (hrun : sub_parsestream garbage fuel stream msg = some r)
    (hfront : msg.front ≤ msg.putcursor)
    (hlen : (msg.putcursor : Int) - msg.front < 32768)
    (hspace : r.msg.putcursor ≤ msg.back) (hcap : msg.back ≤ msg.front + 65535)
    (hret : 0 ≤ r.ret) :
    ∃ bs : List Int, q_appended msg r.msg bs ∧ (bs.length : Int) = r.ret := by
  obtain ⟨bs, hmsg, hcases⟩ := parsestream_appends garbage fuel stream msg r hrun
  have happ := q_puts_appended msg bs
  refine ⟨bs, by rw [hmsg]; exact happ, ?_⟩
  rcases hcases with h | ⟨h, -⟩ | h
  · exact h.symm
  · omega
  · have hput : (q_puts msg bs).putcursor = msg.putcursor + bs.length := happ.1
    have hfr : (q_puts msg bs).front = msg.front := happ.2.1
    rw [hmsg, hput] at hspace
    rw [h] at hret ⊢
    unfold q_length toInt16 at hret ⊢
    rw [hput, hfr] at hret ⊢
    push_cast at hret ⊢
    omega

/-- Instance at the token `x41` followed by a space on an empty queue of 512
bytes: the iteration returns 1 and one byte was appended. -/
theorem C11_return_value_is_the_byte_count_witness :
    ∃ bs : List Int, q_appended q_zero (q_puts q_zero [65]) bs ∧ (bs.length : Int) = 1 :=
  C11_return_value_is_the_byte_count 0 0 [120, 52, 49, 32] q_zero
    { ret := 1, stream := [], msg := q_puts q_zero [65] }
    (by
      have h := gethexnum_ws [52, 49] 32 [] q_zero (by decide) (by decide) (by decide)
      have hp : pack_hex [52, 49] = [65] := by decide
      simp only [List.cons_append, List.nil_append, hp] at h
      simp only [sub_parsestream, parse_header_hexnum, h]
      rfl)
    (by decide) (by decide) (by decide) (by decide) (by decide)

/-- A digit run of `sub_hexdigits` ended, short of the limit, by a character
that is neither a hex digit, nor whitespace, nor `]`: the status is 2. -/
theorem hexdigits_bad (h : List Int) (hh : ∀ c ∈ h, IS_HEXVAL c = true) (c : Int)
    (hc : 0 < c ∧ c < 128) (hnh : IS_HEXVAL c = false) (hnw : IS_WHITESPACE c = false)
    (hnc : c ≠ 93) (rest : Stream) (k : Nat) :
    sub_hexdigits (h ++ c :: rest) (h.length + (k + 1))
      = { status := 2, digits := h.length, buf := h ++ [c], stream := rest } := by
  unfold sub_hexdigits
  rw [hexdigits_loop_run h hh, sub_hexdigits_loop]
  have g : sub_buffergetc (c :: rest) = (c, rest) := getc_ascii c _ hc.1 (by omega)
  have tc : toChar c = c := toChar_ascii c (by omega) hc.2
  simp only [g, tc, hnh, hnw, if_neg hnc]
  simp

/-- A digit run of `sub_bindigits` ended, short of the limit, by a character
that is neither a binary digit nor whitespace: the status is 2. -/
theorem bindigits_bad (h : List Int) (hh : ∀ c ∈ h, IS_BINVAL c = true) (c : Int)
    (hc : 0 < c ∧ c < 128) (hnb : IS_BINVAL c = false) (hnw : IS_WHITESPACE c = false)
    (rest : Stream) (k : Nat) :
    sub_bindigits (h ++ c :: rest) (h.length + (k + 1))
      = { status := 2, digits := h.length, buf := h ++ [c], stream := rest } := by
  unfold sub_bindigits
  rw [bindigits_loop_run h hh, sub_bindigits_loop]
  have g : sub_buffergetc (c :: rest) = (c, rest) := getc_ascii c _ hc.1 (by omega)
  have tc : toChar c = c := toChar_ascii c (by omega) hc.2
  simp only [g, tc, hnb, hnw]
  simp

/-- A digit run of `sub_decdigits` ended, short of the limit, by a character
that is neither a decimal digit, nor whitespace, nor `)`: the status is 2. -/
theorem decdigits_bad (h : List Int) (hh : ∀ c ∈ h, IS_DECVAL c = true) (c : Int)
    (hc : 0 < c ∧ c < 128) (hnd : IS_DECVAL c = false) (hnw : IS_WHITESPACE c = false)
    (hnc : c ≠ 41) (rest : Stream) (k : Nat) :
    sub_decdigits (h ++ c :: rest) (h.length + (k + 1))
      = { status := 2, digits := h.length, buf := h ++ [c], stream := rest } := by
  unfold sub_decdigits
  rw [decdigits_loop_run h hh, sub_decdigits_loop]
  have g : sub_buffergetc (c :: rest) = (c, rest) := getc_ascii c _ hc.1 (by omega)
  have tc : toChar c = c := toChar_ascii c (by omega) hc.2
  simp only [g, tc, hnd, hnw, if_neg hnc]
  simp

theorem parse_header_binnum (s : Stream) :
    sub_parse_header (98 :: s) = (Data_type.DATA_binnum, s) := by
  have : sub_parse_header_switch (toChar (sub_buffergetc ((98 : Int) :: s)).1)
      = some Data_type.DATA_binnum := by
    have g : (sub_buffergetc ((98 : Int) :: s)).1 = 98 := by simp [sub_buffergetc]
    rw [g]; decide
  simp only [sub_parse_header, this]

theorem parse_header_decnum (s : Stream) :
    sub_parse_header (100 :: s) = (Data_type.DATA_decnum, s) := by
  have : sub_parse_header_switch (toChar (sub_buffergetc ((100 : Int) :: s)).1)
      = some Data_type.DATA_decnum := by
    have g : (sub_buffergetc ((100 : Int) :: s)).1 = 100 := by simp [sub_buffergetc]
    rw [g]; decide
  simp only [sub_parse_header, this]

/-- On every input that starts a binary, hex or decimal number token, one
iteration returns a non-negative value, whatever ends the digit run. -/
theorem number_tokens_return_nonneg (garbage : Int) (fuel : Nat) (stream : Stream)
    (msg : bintex_q)
    (hkind : (sub_parse_header stream).1 = Data_type.DATA_binnum ∨
      (sub_parse_header stream).1 = Data_type.DATA_hexnum ∨
      (sub_parse_header stream).1 = Data_type.DATA_decnum) :
    ∃ r, sub_parsestream garbage fuel stream msg = some r ∧ 0 ≤ r.ret := by
  rcases hkind with h | h | h
  · obtain ⟨bs, -, h2⟩ := getbinnum_any (sub_parse_header stream).2 msg
    refine ⟨{ ret := (sub_getbinnum (sub_parse_header stream).2 msg).ret,
              stream := (sub_getbinnum (sub_parse_header stream).2 msg).stream,
              msg := (sub_getbinnum (sub_parse_header stream).2 msg).msg }, ?_, ?_⟩
    · simp only [sub_parsestream, h]
    · show 0 ≤ (sub_getbinnum (sub_parse_header stream).2 msg).ret
      rw [h2]; omega
  · obtain ⟨bs, -, h2⟩ := gethexnum_any (sub_parse_header stream).2 msg
    refine ⟨{ ret := (sub_gethexnum (sub_parse_header stream).2 msg).ret,
              stream := (sub_gethexnum (sub_parse_header stream).2 msg).stream,
              msg := (sub_gethexnum (sub_parse_header stream).2 msg).msg }, ?_, ?_⟩
    · simp only [sub_parsestream, h]
    · show 0 ≤ (sub_gethexnum (sub_parse_header stream).2 msg).ret
      rw [h2]; omega
  · obtain ⟨bs, h1⟩ := getdecnum_any (sub_parse_header stream).2 msg
    refine ⟨{ ret := (bs.length : Int),
              stream := (sub_decdigits (sub_parse_header stream).2 15).stream,
              msg := q_puts msg bs }, ?_, ?_⟩
    · simp only [sub_parsestream, h, h1]
    · show (0 : Int) ≤ (bs.length : Int)
      omega

theorem getascii_loop_mono : ∀ (fuel : Nat) (stream : Stream) (msg : bintex_q)
    (r : Stream × bintex_q), sub_getascii_loop fuel stream msg = some r →
    ∀ fuel2, fuel ≤ fuel2 → sub_getascii_loop fuel2 stream msg = some r := by
  intro fuel
  induction fuel with
  | zero => intro stream msg r h; simp [sub_getascii_loop] at h
  | succ fuel ih =>
    intro stream msg r h fuel2 hle
    obtain ⟨f2, rfl⟩ : ∃ f2, fuel2 = f2 + 1 := ⟨fuel2 - 1, by omega⟩
    rw [sub_getascii_loop] at h ⊢
    simp only [] at h ⊢
    split_ifs at h ⊢ with h1 h2
    · exact h
    · exact ih _ _ r h f2 (by omega)
    · exact ih _ _ r h f2 (by omega)

theorem gethexblock_loop_mono : ∀ (fuel : Nat) (status : Int) (stream : Stream)
    (msg : bintex_q) (r : Stream × bintex_q),
    sub_gethexblock_loop fuel status stream msg = some r →
    ∀ fuel2, fuel ≤ fuel2 → sub_gethexblock_loop fuel2 status stream msg = some r := by
  intro fuel
  induction fuel with
  | zero =>
    intro status stream msg r h fuel2 _
    rw [sub_gethexblock_loop] at h
    split_ifs at h with h0
    cases fuel2 with
    | zero => rw [sub_gethexblock_loop, if_neg h0]; exact h
    | succ f2 => rw [sub_gethexblock_loop, if_neg h0]; exact h
  | succ fuel ih =>
    intro status stream msg r h fuel2 hle
    obtain ⟨f2, rfl⟩ : ∃ f2, fuel2 = f2 + 1 := ⟨fuel2 - 1, by omega⟩
    rw [sub_gethexblock_loop] at h ⊢
    split_ifs at h ⊢ with h0
    · exact ih _ _ _ r h f2 (by omega)
    · exact h

theorem getdecblock_loop_mono : ∀ (fuel : Nat) (status : Int) (stream : Stream)
    (msg : bintex_q) (r : Stream × bintex_q),
    sub_getdecblock_loop fuel status stream msg = some r →
    ∀ fuel2, fuel ≤ fuel2 → sub_getdecblock_loop fuel2 status stream msg = some r := by
  intro fuel
  induction fuel with
  | zero =>
    intro status stream msg r h fuel2 _
    rw [sub_getdecblock_loop] at h
    split_ifs at h with h0
    cases fuel2 with
    | zero => rw [sub_getdecblock_loop, if_neg h0]; exact h
    | succ f2 => rw [sub_getdecblock_loop, if_neg h0]; exact h
  | succ fuel ih =>
    intro status stream msg r h fuel2 hle
    obtain ⟨f2, rfl⟩ : ∃ f2, fuel2 = f2 + 1 := ⟨fuel2 - 1, by omega⟩
    rw [sub_getdecblock_loop] at h ⊢
    split_ifs at h ⊢ with h0
    · exact ih _ _ _ r h f2 (by omega)
    · exact h

/-- More fuel does not change the outcome of an iteration that returns. -/
theorem parsestream_mono (garbage : Int) (fuel : Nat) (stream : Stream) (msg : bintex_q)
    (r : Iter) (h : sub_parsestream garbage fuel stream msg = some r) (fuel2 : Nat)
    (hle : fuel ≤ fuel2) : sub_parsestream garbage fuel2 stream msg = some r := by
  cases hk : (sub_parse_header stream).1 <;> simp only [sub_parsestream, hk] at h ⊢
  · exact h
  · exact h
  · exact h
  · exact h
  · unfold sub_getascii at h ⊢
    simp only [] at h ⊢
    cases hl : sub_getascii_loop fuel (sub_parse_header stream).2 msg with
    | none => rw [hl] at h; simp at h
    | some p => rw [hl] at h; rw [getascii_loop_mono _ _ _ p hl fuel2 hle]; exact h
  · exact h
  · exact h
  · unfold sub_gethexblock at h ⊢
    simp only [] at h ⊢
    cases hl : sub_gethexblock_loop fuel
        (sub_buffer_validatehex garbage (sub_parse_header stream).2)
        (sub_parse_header stream).2 msg with
    | none => rw [hl] at h; simp at h
    | some p => rw [hl] at h; rw [gethexblock_loop_mono _ _ _ _ p hl fuel2 hle]; exact h
  · exact h
  · unfold sub_getdecblock at h ⊢
    simp only [] at h ⊢
    cases hl : sub_getdecblock_loop fuel 0 (sub_parse_header stream).2 msg with
    | none => rw [hl] at h; simp at h
    | some p => rw [hl] at h; rw [getdecblock_loop_mono _ _ _ _ p hl fuel2 hle]; exact h

/-- With enough fuel the loop of `bintex_ss` follows the iterations and is
left with the queue of the first negative one. -/
theorem bintex_ss_loop_of_iterations (garbage : Int) (s : Stream) (q : bintex_q)
    (its : List Iter) (last : Iter) (hrun : Iterations garbage s q its last) :
    ∃ fuel0, ∀ (fuel : Nat) (size : Int), fuel0 ≤ fuel →
      bintex_ss_loop garbage fuel s q size = some last.msg := by
  induction hrun with
  | stop f s q last h hneg =>
    refine ⟨f + 1, ?_⟩
    intro fuel size hle
    obtain ⟨k, rfl⟩ : ∃ k, fuel = k + 1 := ⟨fuel - 1, by omega⟩
    rw [bintex_ss_loop]
    simp only [bintex_iter_sq, parsestream_mono garbage f s q last h (k + 1) (by omega),
      if_pos hneg]
  | step f s q it its last h hpos _ ih =>
    obtain ⟨f0, hf0⟩ := ih
    refine ⟨max f f0 + 1, ?_⟩
    intro fuel size hle
    obtain ⟨k, rfl⟩ : ∃ k, fuel = k + 1 := ⟨fuel - 1, by omega⟩
    rw [bintex_ss_loop]
    simp only [bintex_iter_sq, parsestream_mono garbage f s q it h (k + 1) (by omega),
      if_neg (not_lt.mpr hpos)]
    exact hf0 k _ (by omega)

/-- The bytes appended along the iterations, when the output stays below
32768 bytes: every non-negative iteration appends as many bytes as it
returns, and the negative one appends nothing. -/
theorem iterations_account (garbage : Int) (s : Stream) (q : bintex_q)
    (its : List Iter) (last : Iter) (hrun : Iterations garbage s q its last) :
    q.front ≤ q.putcursor → last.msg.putcursor ≤ q.front + 32767 →
    ∃ bs : List Int, last.msg = q_puts q bs ∧
      (bs.length : Int) = (its.map (fun it => it.ret)).sum ∧
      last.msg = its.foldl (fun _ it => it.msg) q := by
  induction hrun with
  | stop f s q last h hneg =>
    intro hfront hlen
    obtain ⟨bs, hmsg, hcases⟩ := parsestream_appends garbage f s q last h
    have hf := q_puts_fields bs q
    rw [hmsg, hf.1] at hlen
    have hnil : bs = [] := by
      rcases hcases with h1 | ⟨-, h2⟩ | h3
      · omega
      · exact h2
      · exfalso
        rw [h3] at hneg
        unfold q_length toInt16 at hneg
        rw [hf.1, hf.2.1] at hneg
        push_cast at hneg
        omega
    subst hnil
    exact ⟨[], hmsg, by simp, by simpa using hmsg⟩
  | step f s q it its last h hpos _ ih =>
    intro hfront hlen
    obtain ⟨bs1, hmsg, hcases⟩ := parsestream_appends garbage f s q it h
    have hf := q_puts_fields bs1 q
    have hfr : it.msg.front = q.front := by rw [hmsg]; exact hf.2.1
    have hpu : it.msg.putcursor = q.putcursor + bs1.length := by rw [hmsg]; exact hf.1
    obtain ⟨bs2, hlast, hsum, hfold⟩ := ih (by rw [hfr, hpu]; omega) (by rw [hfr]; exact hlen)
    have hf2 := q_puts_fields bs2 it.msg
    rw [hlast, hf2.1, hpu] at hlen
    have hcount : (bs1.length : Int) = it.ret := by
      rcases hcases with h1 | ⟨h2, -⟩ | h3
      · exact h1.symm
      · omega
      · rw [h3]
        unfold q_length toInt16
        rw [hf.1, hf.2.1]
        push_cast
        omega
    refine ⟨bs1 ++ bs2, by rw [q_puts_append, ← hmsg, hlast], ?_, ?_⟩
    · simp only [List.length_append, List.map_cons, List.sum_cons]
      push_cast
      omega
    · simpa using hfold

/-- Whenever the loop of `bintex_ss` is left, it has followed a sequence of
iterations up to the first negative one. -/
theorem iterations_of_bintex_ss_loop (garbage : Int) :
    ∀ (fuel : Nat) (s : Stream) (q : bintex_q) (size : Int) (q2 : bintex_q),
      bintex_ss_loop garbage fuel s q size = some q2 →
      ∃ its last, Iterations garbage s q its last ∧ q2 = last.msg := by
  intro fuel
  induction fuel with
  | zero => intro s q size q2 h; simp [bintex_ss_loop] at h
  | succ fuel ih =>
    intro s q size q2 h
    rw [bintex_ss_loop] at h
    cases hit : bintex_iter_sq garbage (fuel + 1) s q size with
    | none => rw [hit] at h; simp at h
    | some it =>
      rw [hit] at h
      simp only [] at h
      by_cases hneg : it.ret < 0
      · rw [if_pos hneg] at h
        simp only [Option.some.injEq] at h
        exact ⟨[], it, Iterations.stop (fuel + 1) s q it hit hneg, h.symm⟩
      · rw [if_neg hneg] at h
        obtain ⟨its, last, hrun, hq⟩ := ih _ _ _ _ h
        exact ⟨it :: its, last,
          Iterations.step (fuel + 1) s q it its last hit (not_lt.mp hneg) hrun, hq⟩

/-- Claim C12 (amended): `bintex_ss` runs the iterations in order up to the
first one that returns a negative status and stops there; when the output
stays below 32768 bytes, that iteration has appended nothing, the bytes
appended by the iterations before it are all that was added to the output
buffer, and the value returned is their total number. -/
theorem C12_partial_output_on_stop (garbage : Int) (string : Stream) (mem : Nat → Int)
    (stream_out : Nat) (size : Int) (its : List Iter) (last : Iter)
    (hrun : Iterations garbage string (ss_local mem stream_out size) its last)
    (hlen : last.msg.putcursor ≤ stream_out + 32767) :
    (∃ fuel0, ∀ fuel, fuel0 ≤ fuel →
      bintex_ss garbage fuel string mem stream_out size
        = some ((its.map (fun it => it.ret)).sum, last.msg)) ∧
    (∃ bs : List Int, q_appended (ss_local mem stream_out size) last.msg bs ∧
      (bs.length : Int) = (its.map (fun it => it.ret)).sum) ∧
    last.msg = its.foldl (fun _ it => it.msg) (ss_local mem stream_out size) := by
  have hfront : (ss_local mem stream_out size).front = stream_out := rfl
  have hput : (ss_local mem stream_out size).putcursor = stream_out := rfl
  obtain ⟨bs, hmsg, hsum, hfold⟩ := iterations_account garbage string _ its last hrun
    (by rw [hfront, hput]) (by rw [hfront]; exact hlen)
  obtain ⟨fuel0, hloop⟩ := bintex_ss_loop_of_iterations garbage string _ its last hrun
  have hf := q_puts_fields bs (ss_local mem stream_out size)
  refine ⟨⟨fuel0, ?_⟩, ⟨bs, by rw [hmsg]; exact q_puts_appended _ bs, hsum⟩, hfold⟩
  intro fuel hle
  have hl := hloop fuel size hle
  have hret : toInt32 ((last.msg.putcursor : Int) - (last.msg.front : Int))
      = (its.map (fun it => it.ret)).sum := by
    rw [hmsg, hf.1, hput] at hlen
    rw [hmsg, hf.1, hf.2.1, hput, hfront]
    rw [← hsum]
    unfold toInt32
    push_cast
    omega
  show (match bintex_ss_loop garbage fuel string (ss_local mem stream_out size) size with
    | none => none
    | some q => some (toInt32 ((q.putcursor : Int) - (q.front : Int)), q)) = _
  rw [hl]
  simp only [hret]

/-- Instance at the input `"AB" ? "CD"` with an output buffer of 512 bytes:
one iteration returns 2, the next one returns -2 at the `?`; `bintex_ss`
returns 2 and the output starts with 0x41 0x42. -/
theorem C12_partial_output_on_stop_witness :
    (∃ fuel0, ∀ fuel, fuel0 ≤ fuel →
      bintex_ss 0 fuel [34, 65, 66, 34, 32, 63, 32, 34, 67, 68, 34] (fun _ => 0) 0 512
        = some (2, q_puts (ss_local (fun _ => 0) 0 512) [65, 66])) ∧
    q_bytes (q_puts (ss_local (fun _ => 0) 0 512) [65, 66]) 0 2 = [65, 66] :=
  ⟨(C12_partial_output_on_stop 0 [34, 65, 66, 34, 32, 63, 32, 34, 67, 68, 34] (fun _ => 0) 0 512
      [Iter.mk 2 [32, 63, 32, 34, 67, 68, 34] (q_puts (ss_local (fun _ => 0) 0 512) [65, 66])]
      (Iter.mk (-2) [32, 34, 67, 68, 34] (q_puts (ss_local (fun _ => 0) 0 512) [65, 66]))
      (Iterations.step 3 _ _ _ _ _ rfl (by decide)
        (Iterations.stop 0 _ _ _ rfl (by decide)))
      (by decide)).1,
   by decide⟩

theorem parse_header_ascii (s : Stream) :
    sub_parse_header (34 :: s) = (Data_type.DATA_ascii, s) := by
  have : sub_parse_header_switch (toChar (sub_buffergetc ((34 : Int) :: s)).1)
      = some Data_type.DATA_ascii := by
    have g : (sub_buffergetc ((34 : Int) :: s)).1 = 34 := by simp [sub_buffergetc]
    rw [g]; decide
  simp only [sub_parse_header, this]

/-- A string of `n` = 32768 characters `A` on the fresh queue of `bintex_ss`:
the iteration appends the `n` bytes and returns -32768, and `bintex_ss` stops
there and returns 32768. -/
theorem long_string_iteration (n : Nat) (hn : n = 32768) :
    (sub_parsestream 0 (n + 1)
        (34 :: (ascii_text (List.replicate n (AsciiItem.plain 65)) ++ 34 :: []))
        (ss_local (fun _ => 0) 0 40000)).map (fun r => (r.ret, r.msg.putcursor))
      = some (-32768, 32768) ∧
    (bintex_ss 0 (n + 1)
        (34 :: (ascii_text (List.replicate n (AsciiItem.plain 65)) ++ 34 :: []))
        (fun _ => 0) 0 40000).map (fun p => p.1) = some 32768 := by
  have hv : ∀ it ∈ List.replicate n (AsciiItem.plain 65), it.valid = true := by
    intro it hit
    rw [List.eq_of_mem_replicate hit]
    decide
  have hloop := getascii_loop_run [] (List.replicate n (AsciiItem.plain 65)) (n + 1)
    (ss_local (fun _ => 0) 0 40000) hv (by rw [List.length_replicate]; omega)
  have hf := q_puts_fields ((List.replicate n (AsciiItem.plain 65)).map AsciiItem.value)
    (ss_local (fun _ => 0) 0 40000)
  rw [List.length_map, List.length_replicate] at hf
  have hp0 : (ss_local (fun _ => 0) 0 40000).putcursor = 0 := rfl
  have hf0 : (ss_local (fun _ => 0) 0 40000).front = 0 := rfl
  have hput : (q_puts (ss_local (fun _ => 0) 0 40000)
      ((List.replicate n (AsciiItem.plain 65)).map AsciiItem.value)).putcursor = 32768 := by
    rw [hf.1, hp0]; omega
  have hfr : (q_puts (ss_local (fun _ => 0) 0 40000)
      ((List.replicate n (AsciiItem.plain 65)).map AsciiItem.value)).front = 0 := by
    rw [hf.2.1, hf0]
  have hq0 : q_length (ss_local (fun _ => 0) 0 40000) = 0 := by
    unfold q_length; rw [hp0, hf0]; decide
  have hq1 : q_length (q_puts (ss_local (fun _ => 0) 0 40000)
      ((List.replicate n (AsciiItem.plain 65)).map AsciiItem.value)) = -32768 := by
    unfold q_length; rw [hput, hfr]; decide
  have hiter : sub_parsestream 0 (n + 1)
      (34 :: (ascii_text (List.replicate n (AsciiItem.plain 65)) ++ 34 :: []))
      (ss_local (fun _ => 0) 0 40000)
      = some { ret := -32768, stream := [],
               msg := q_puts (ss_local (fun _ => 0) 0 40000)
                 ((List.replicate n (AsciiItem.plain 65)).map AsciiItem.value) } := by
    simp only [sub_parsestream, parse_header_ascii, sub_getascii, hloop, hq0, hq1]
    rfl
  refine ⟨by rw [hiter]; simp only [Option.map_some', hput], ?_⟩
  unfold bintex_ss
  simp only []
  change Option.map (fun p => p.1) (match bintex_ss_loop 0 (n + 1)
      (34 :: (ascii_text (List.replicate n (AsciiItem.plain 65)) ++ 34 :: []))
      (ss_local (fun _ => 0) 0 40000) 40000 with
    | none => (none : Option (Int × bintex_q))
    | some q => some (toInt32 ((q.putcursor : Int) - (q.front : Int)), q))
      = some 32768
  rw [bintex_ss_loop]
  simp only [bintex_iter_sq, hiter, show ((-32768 : Int) < 0) from by decide, if_true,
    Option.map_some', hput, hfr]
  decide

/-- Claim C12 (counterexample): on the input made of a string of 32768
characters `A`, with an output buffer of 40000 bytes, the first iteration
appends 32768 bytes and returns -32768; `bintex_ss` stops on this negative
status and returns 32768, although no iteration came before the one that
stopped it. -/
theorem C12_counterexample_long_string :
    (sub_parsestream 0 (32768 + 1)
        (34 :: (ascii_text (List.replicate 32768 (AsciiItem.plain 65)) ++ 34 :: []))
        (ss_local (fun _ => 0) 0 40000)).map (fun r => (r.ret, r.msg.putcursor))
      = some (-32768, 32768) ∧
    (bintex_ss 0 (32768 + 1)
        (34 :: (ascii_text (List.replicate 32768 (AsciiItem.plain 65)) ++ 34 :: []))
        (fun _ => 0) 0 40000).map (fun p => p.1) = some 32768 :=
  long_string_iteration 32768 rfl

theorem toInt32_dec_step (x d : Int) :
    toInt32 (toInt32 (toInt32 x * 10) + d) = toInt32 (10 * x + d) := by
  unfold toInt32; omega

theorem toInt32_range (v : Int) : -2147483648 ≤ toInt32 v ∧ toInt32 v < 2147483648 := by
  unfold toInt32; omega

theorem toInt32_idem (v : Int) : toInt32 (toInt32 v) = toInt32 v := by
  unfold toInt32; omega

theorem getdecnum_scan_wrapped (ds suf : List Int) (hds : ∀ c ∈ ds, IS_DECVAL c = true) :
    ∀ (fuel i : Nat), i ≤ ds.length → ds.length - i ≤ fuel →
      sub_getdecnum_scan (ds ++ suf) ds.length fuel i (toInt32 (dec_value (ds.take i)))
        = { i := ds.length, number := toInt32 (dec_value ds), force_u := 0, size := 0 } := by
  intro fuel
  induction fuel with
  | zero =>
    intro i hi hf
    have : i = ds.length := by omega
    subst this
    simp [sub_getdecnum_scan]
  | succ fuel ih =>
    intro i hi hf
    rw [sub_getdecnum_scan]
    by_cases hlt : i < ds.length
    · have hc : 48 ≤ ds.getD i 0 ∧ ds.getD i 0 ≤ 57 := by
        rw [List.getD_eq_getElem _ _ hlt]
        exact (IS_DECVAL_iff _).1 (hds _ (List.getElem_mem _))
      have e : ds.take (i + 1) = ds.take i ++ [ds.getD i 0] := by
        rw [List.getD_eq_getElem _ _ hlt, List.take_succ, List.getElem?_eq_getElem hlt]
        simp
      have hstep : toInt32 (toInt32 (toInt32 (dec_value (ds.take i)) * 10) + (ds.getD i 0 - 48))
          = toInt32 (dec_value (ds.take (i + 1))) := by
        rw [e, dec_value_snoc, toInt32_dec_step]
      simp only [if_pos hlt, getD_append_left ds suf i hlt, if_pos hc, hstep]
      exact ih (i + 1) (by omega) (by omega)
    · have : i = ds.length := by omega
      subst this
      simp

/-- Away from the two boundary values 128 and 32768, below 2^31, what
`sub_getdecnum` writes for a footer-less literal is its decimal-number
encoding, and it returns the number of bytes of that encoding. -/
theorem getdecnum_encoding_of_digits (stream : Stream) (msg : bintex_q) (ds suf : List Int)
    (st : Int) (rest : Stream) (hds : ∀ c ∈ ds, IS_DECVAL c = true)
    (hv : dec_value ds < 2147483648) (h128 : dec_value ds ≠ 128)
    (h32768 : dec_value ds ≠ 32768) (hfirst : (ds ++ suf).getD 0 0 ≠ 45)
    (hd : sub_decdigits stream 15
      = { status := st, digits := ds.length, buf := ds ++ suf, stream := rest }) :
    sub_getdecnum stream msg =
      { status := st, ret := ((dec_encoding ds).length : Int), stream := rest,
        msg := q_puts msg (dec_encoding ds) } := by
  rw [getdecnum_of_digits stream msg ds suf st rest hds hv hfirst hd]
  unfold dec_encoding
  by_cases h1 : dec_value ds ≤ 127
  · rw [if_pos (by omega : dec_value ds ≤ 128), if_pos h1]
    simp
  · by_cases h2 : dec_value ds ≤ 32767
    · rw [if_neg (by omega : ¬ dec_value ds ≤ 128), if_pos (by omega : dec_value ds ≤ 32768),
        if_neg h1, if_pos h2]
      simp
    · rw [if_neg (by omega : ¬ dec_value ds ≤ 128), if_neg (by omega : ¬ dec_value ds ≤ 32768),
        if_neg h1, if_neg h2]
      simp

/-- A value of 1 to 14 digits followed by one whitespace character. -/
theorem getdecnum_value_ws (ds : List Int) (ws : Int) (rest : Stream) (msg : bintex_q)
    (hds : ∀ c ∈ ds, IS_DECVAL c = true) (hpos : 1 ≤ ds.length) (hlen : ds.length ≤ 14)
    (hv : dec_value ds < 2147483648) (h128 : dec_value ds ≠ 128)
    (h32768 : dec_value ds ≠ 32768) (hws : IS_WHITESPACE ws = true) :
    sub_getdecnum (ds ++ ws :: rest) msg =
      { status := 0, ret := ((dec_encoding ds).length : Int), stream := rest,
        msg := q_puts msg (dec_encoding ds) } := by
  have hd := decdigits_ws ds hds ws hws rest (14 - ds.length)
  rw [show ds.length + (14 - ds.length + 1) = 15 by omega] at hd
  have hfirst : (ds ++ [ws]).getD 0 0 ≠ 45 := by
    cases ds with
    | nil => simp at hpos
    | cons c t =>
      have := (IS_DECVAL_iff c).1 (hds c (by simp))
      simp; omega
  exact getdecnum_encoding_of_digits (ds ++ ws :: rest) msg ds [ws] 0 rest hds hv h128 h32768
    hfirst hd

/-- A value of 1 to 14 digits followed by `)`. -/
theorem getdecnum_value_close (ds : List Int) (rest : Stream) (msg : bintex_q)
    (hds : ∀ c ∈ ds, IS_DECVAL c = true) (hpos : 1 ≤ ds.length) (hlen : ds.length ≤ 14)
    (hv : dec_value ds < 2147483648) (h128 : dec_value ds ≠ 128)
    (h32768 : dec_value ds ≠ 32768) :
    sub_getdecnum (ds ++ 41 :: rest) msg =
      { status := 1, ret := ((dec_encoding ds).length : Int), stream := rest,
        msg := q_puts msg (dec_encoding ds) } := by
  have hd := decdigits_close ds hds rest (14 - ds.length)
  rw [show ds.length + (14 - ds.length + 1) = 15 by omega] at hd
  have hfirst : (ds ++ [41]).getD 0 0 ≠ 45 := by
    cases ds with
    | nil => simp at hpos
    | cons c t =>
      have := (IS_DECVAL_iff c).1 (hds c (by simp))
      simp; omega
  exact getdecnum_encoding_of_digits (ds ++ 41 :: rest) msg ds [41] 1 rest hds hv h128 h32768
    hfirst hd

theorem getdecblock_loop_run (last : List Int) (rest : Stream)
    (hlast : ∀ c ∈ last, IS_DECVAL c = true) (hlpos : 1 ≤ last.length)
    (hllen : last.length ≤ 14) (hlv : dec_value last < 2147483648)
    (hl128 : dec_value last ≠ 128) (hl32768 : dec_value last ≠ 32768) :
    ∀ (gs : List (List Int × Int)) (fuel : Nat) (msg : bintex_q),
      (∀ p ∈ gs, (∀ c ∈ p.1, IS_DECVAL c = true) ∧ 1 ≤ p.1.length ∧ p.1.length ≤ 14 ∧
        dec_value p.1 < 2147483648 ∧ dec_value p.1 ≠ 128 ∧ dec_value p.1 ≠ 32768 ∧
        IS_WHITESPACE p.2 = true) →
      gs.length + 1 ≤ fuel →
      sub_getdecblock_loop fuel 0 (decblock_text gs last ++ 41 :: rest) msg
        = some (rest, q_puts msg (decblock_bytes gs last)) := by
  intro gs
  induction gs with
  | nil =>
    intro fuel msg _ hf
    obtain ⟨f, rfl⟩ : ∃ f, fuel = f + 1 := ⟨fuel - 1, by simp at hf; omega⟩
    simp only [decblock_text, decblock_bytes]
    rw [sub_getdecblock_loop, if_pos rfl]
    simp only [getdecnum_value_close last rest msg hlast hlpos hllen hlv hl128 hl32768]
    cases f <;> simp [sub_getdecblock_loop]
  | cons p gs ih =>
    intro fuel msg hv hf
    obtain ⟨g, w⟩ := p
    obtain ⟨f, rfl⟩ : ∃ f, fuel = f + 1 := ⟨fuel - 1, by simp at hf; omega⟩
    have hf2 : gs.length + 1 ≤ f := by simp at hf; omega
    obtain ⟨hg, hgpos, hglen, hgv, hg128, hg32768, hw⟩ := hv (g, w) (by simp)
    have hv2 : ∀ p ∈ gs, (∀ c ∈ p.1, IS_DECVAL c = true) ∧ 1 ≤ p.1.length ∧ p.1.length ≤ 14 ∧
        dec_value p.1 < 2147483648 ∧ dec_value p.1 ≠ 128 ∧ dec_value p.1 ≠ 32768 ∧
        IS_WHITESPACE p.2 = true := fun p hp => hv p (by simp [hp])
    simp only [decblock_text, decblock_bytes, List.append_assoc, List.cons_append]
      at hg hw hgv hg128 hg32768 ⊢
    rw [sub_getdecblock_loop, if_pos rfl]
    simp only [getdecnum_value_ws g w _ msg hg hgpos hglen hgv hg128 hg32768 hw]
    rw [ih f _ hv2 hf2, q_puts_append]

/-- Decimal-block decoding away from the boundary values: for a block of k ≥ 1
footer-less values of 1 to 14 digits, each below 2^31 and none equal to 128 or
32768, separated by exactly one whitespace character and closed by `)`,
`sub_getdecblock` appends the decimal-number encodings of the values in input
order with nothing between them, consumes the input through the `)` and, when
the queue length after the call is at most 32767, returns the total number of
bytes appended. -/
theorem decblock_decoding_off_boundary (gs : List (List Int × Int)) (last : List Int)
    (rest : Stream) (msg : bintex_q) (fuel : Nat)
    (hvalues : ∀ p ∈ gs, (∀ c ∈ p.1, IS_DECVAL c = true) ∧ 1 ≤ p.1.length ∧
      p.1.length ≤ 14 ∧ dec_value p.1 < 2147483648 ∧ dec_value p.1 ≠ 128 ∧
      dec_value p.1 ≠ 32768 ∧ IS_WHITESPACE p.2 = true)
    (hlast : ∀ c ∈ last, IS_DECVAL c = true) (hlastpos : 1 ≤ last.length)
    (hlastlen : last.length ≤ 14) (hlv : dec_value last < 2147483648)
    (hl128 : dec_value last ≠ 128) (hl32768 : dec_value last ≠ 32768)
    (hfuel : gs.length + 1 ≤ fuel) (hfront : msg.front ≤ msg.putcursor)
    (hlen : (msg.putcursor : Int) - msg.front + (decblock_bytes gs last).length ≤ 32767) :
    ∃ r, sub_getdecblock fuel (decblock_text gs last ++ 41 :: rest) msg = some r ∧
      q_appended msg r.msg (decblock_bytes gs last) ∧
      r.stream = rest ∧ r.ret = ((decblock_bytes gs last).length : Int) := by
  refine ⟨{ ret := q_length (q_puts msg (decblock_bytes gs last)) - q_length msg,
            stream := rest, msg := q_puts msg (decblock_bytes gs last) }, ?_, ?_, rfl, ?_⟩
  · unfold sub_getdecblock
    simp only [getdecblock_loop_run last rest hlast hlastpos hlastlen hlv hl128 hl32768 gs fuel
      msg hvalues hfuel]
  · exact q_puts_appended msg _
  · exact q_length_after msg _ _ (q_puts_appended msg _) hfront hlen

set_option maxRecDepth 100000 in
/-- The block content `32 64 300 70000)` on an empty queue: the values are
encoded in 1, 1, 2 and 4 bytes, 8 bytes in all. -/
theorem decblock_decoding_example :
    (∃ r, sub_getdecblock 4
        (decblock_text [([51, 50], 32), ([54, 52], 32), ([51, 48, 48], 32)]
          [55, 48, 48, 48, 48] ++ 41 :: []) q_zero = some r ∧
      q_appended q_zero r.msg
        (decblock_bytes [([51, 50], 32), ([54, 52], 32), ([51, 48, 48], 32)]
          [55, 48, 48, 48, 48]) ∧
      r.stream = [] ∧
      r.ret = ((decblock_bytes [([51, 50], 32), ([54, 52], 32), ([51, 48, 48], 32)]
          [55, 48, 48, 48, 48]).length : Int)) ∧
    decblock_bytes [([51, 50], 32), ([54, 52], 32), ([51, 48, 48], 32)] [55, 48, 48, 48, 48]
      = [32, 64, 1, 44, 0, 1, 17, 112] :=
  ⟨decblock_decoding_off_boundary [([51, 50], 32), ([54, 52], 32), ([51, 48, 48], 32)]
      [55, 48, 48, 48, 48] [] q_zero 4 (by decide) (by decide) (by decide) (by decide)
      (by decide) (by decide) (by decide) (by decide) (by decide) (by decide),
    by decide⟩

set_option maxRecDepth 100000 in
/-- The return value of `sub_getdecblock` is a difference of two `int16_t`
queue lengths: on a queue that holds 32767 bytes, the block content `5)`
appends the one byte 5 and returns -65535. -/
theorem decblock_return_value_wraps :
    (sub_getdecblock 1 (decblock_text [] [53] ++ 41 :: []) q_long).map
        (fun r => (r.ret, r.stream, r.msg.putcursor, r.msg.mem 32767))
      = some (-65535, [], 32768, 5) := by
  decide

set_option maxRecDepth 100000 in
/-- Claim C18: on the block `(32 64 96 128)`, on an empty queue,
`sub_getdecblock` appends the four bytes 0x20 0x40 0x60 0x80 and returns 4,
whereas the decimal-number encodings of the four values are 0x20, 0x40, 0x60
and the two bytes 0x00 0x80, five bytes in all: the value 128 goes into one
byte. The block `(128)` alone gives the byte 0x80, and `(32768)` gives the two
bytes 0x80 0x00 where the encoding has four. -/
theorem C18_decblock_value_128_in_one_byte :
    (sub_getdecblock 4
        (decblock_text [([51, 50], 32), ([54, 52], 32), ([57, 54], 32)] [49, 50, 56]
          ++ 41 :: []) q_zero).map
        (fun r => (r.ret, r.stream, r.msg.putcursor, q_bytes r.msg 0 4))
      = some (4, [], 4, [32, 64, 96, 128]) ∧
    decblock_bytes [([51, 50], 32), ([54, 52], 32), ([57, 54], 32)] [49, 50, 56]
      = [32, 64, 96, 0, 128] ∧
    (sub_getdecblock 1 (decblock_text [] [49, 50, 56] ++ 41 :: []) q_zero).map
        (fun r => (r.ret, r.stream, r.msg.putcursor, q_bytes r.msg 0 1))
      = some (1, [], 1, [128]) ∧
    decblock_bytes [] [49, 50, 56] = [0, 128] ∧
    (sub_getdecblock 1 (decblock_text [] [51, 50, 55, 54, 56] ++ 41 :: []) q_zero).map
        (fun r => (r.ret, r.stream, r.msg.putcursor, q_bytes r.msg 0 2))
      = some (2, [], 2, [128, 0]) ∧
    decblock_bytes [] [51, 50, 55, 54, 56] = [0, 0, 128, 0] :=
  ⟨by decide, by decide, by decide, by decide, by decide, by decide⟩

theorem getc_cell (c : Int) (rest : Stream) :
    sub_buffergetc (c :: rest) = ((sub_buffergetc [c]).1, rest) := by
  simp [sub_buffergetc]

/-- A digit run of `sub_hexdigits` shorter than the limit, ended by any cell
that does not read as a hex digit. -/
theorem hexdigits_term (h : List Int) (hh : ∀ x ∈ h, IS_HEXVAL x = true) (c : Int)
    (hc : IS_HEXVAL (cell_char c) = false) (rest : Stream) (k : Nat) :
    sub_hexdigits (h ++ c :: rest) (h.length + (k + 1))
      = { status := if cell_char c = 93 then 1
                    else if IS_WHITESPACE (cell_char c) = true then 0 else 2,
          digits := h.length, buf := h ++ [cell_char c], stream := rest } := by
  unfold sub_hexdigits
  rw [hexdigits_loop_run h hh, sub_hexdigits_loop]
  have e : toChar (sub_buffergetc [c]).1 = cell_char c := rfl
  simp only [getc_cell c rest, e, hc]
  by_cases h93 : cell_char c = 93
  · simp [h93]
  · by_cases hw : IS_WHITESPACE (cell_char c) = true
    · simp [h93, hw]
    · simp [h93, hw]

/-- A digit run of `sub_decdigits` shorter than the limit, ended by any cell
that does not read as a decimal digit. -/
theorem decdigits_term (h : List Int) (hh : ∀ x ∈ h, IS_DECVAL x = true) (c : Int)
    (hc : IS_DECVAL (cell_char c) = false) (rest : Stream) (k : Nat) :
    sub_decdigits (h ++ c :: rest) (h.length + (k + 1))
      = { status := if cell_char c = 41 then 1
                    else if IS_WHITESPACE (cell_char c) = true then 0 else 2,
          digits := h.length, buf := h ++ [cell_char c], stream := rest } := by
  unfold sub_decdigits
  rw [decdigits_loop_run h hh, sub_decdigits_loop]
  have e : toChar (sub_buffergetc [c]).1 = cell_char c := rfl
  simp only [getc_cell c rest, e, hc]
  by_cases h41 : cell_char c = 41
  · simp [h41]
  · by_cases hw : IS_WHITESPACE (cell_char c) = true
    · simp [h41, hw]
    · simp [h41, hw]

/-- A digit run of `sub_bindigits` shorter than the limit, ended by any cell
that does not read as a binary digit. -/
theorem bindigits_term (h : List Int) (hh : ∀ x ∈ h, IS_BINVAL x = true) (c : Int)
    (hc : IS_BINVAL (cell_char c) = false) (rest : Stream) (k : Nat) :
    sub_bindigits (h ++ c :: rest) (h.length + (k + 1))
      = { status := if IS_WHITESPACE (cell_char c) = true then 0 else 2,
          digits := h.length, buf := h ++ [cell_char c], stream := rest } := by
  unfold sub_bindigits
  rw [bindigits_loop_run h hh, sub_bindigits_loop]
  have e : toChar (sub_buffergetc [c]).1 = cell_char c := rfl
  simp only [getc_cell c rest, e, hc]
  by_cases hw : IS_WHITESPACE (cell_char c) = true
  · simp [hw]
  · simp [hw]

/-- Claim C21: for each of `sub_bindigits` (limit 32), `sub_hexdigits`
(limit 64) and `sub_decdigits` (limit 15), when the run of valid digits at the
cursor has length `n` below the limit and is ended by a memory cell `c` that
does not read as a digit (any cell, the NUL included), the reader returns `n`
and leaves the cursor after `c`, that is `n + 1` cells were consumed; when the
run reaches the limit, the reader returns the limit with status 0 and leaves
the cursor after the limit-th digit, whatever follows. -/
theorem C21_digit_run_terminator_is_consumed (h : List Int) (c : Int) (rest : Stream) :
    ((∀ x ∈ h, IS_BINVAL x = true) →
      (h.length < 32 → IS_BINVAL (cell_char c) = false →
        (sub_bindigits (h ++ c :: rest) 32).digits = h.length ∧
        (sub_bindigits (h ++ c :: rest) 32).stream = rest) ∧
      (h.length = 32 →
        sub_bindigits (h ++ rest) 32
          = { status := 0, digits := 32, buf := h, stream := rest })) ∧
    ((∀ x ∈ h, IS_HEXVAL x = true) →
      (h.length < 64 → IS_HEXVAL (cell_char c) = false →
        (sub_hexdigits (h ++ c :: rest) 64).digits = h.length ∧
        (sub_hexdigits (h ++ c :: rest) 64).stream = rest) ∧
      (h.length = 64 →
        sub_hexdigits (h ++ rest) 64
          = { status := 0, digits := 64, buf := h, stream := rest })) ∧
    ((∀ x ∈ h, IS_DECVAL x = true) →
      (h.length < 15 → IS_DECVAL (cell_char c) = false →
        (sub_decdigits (h ++ c :: rest) 15).digits = h.length ∧
        (sub_decdigits (h ++ c :: rest) 15).stream = rest) ∧
      (h.length = 15 →
        sub_decdigits (h ++ rest) 15
          = { status := 0, digits := 15, buf := h, stream := rest })) := by
  refine ⟨fun hh => ⟨fun hlt hc => ?_, fun hfull => ?_⟩,
    fun hh => ⟨fun hlt hc => ?_, fun hfull => ?_⟩,
    fun hh => ⟨fun hlt hc => ?_, fun hfull => ?_⟩⟩
  · have := bindigits_term h hh c hc rest (31 - h.length)
    rw [show h.length + (31 - h.length + 1) = 32 by omega] at this
    rw [this]; exact ⟨rfl, rfl⟩
  · have := bindigits_full h hh rest
    rw [hfull] at this; exact this
  · have := hexdigits_term h hh c hc rest (63 - h.length)
    rw [show h.length + (63 - h.length + 1) = 64 by omega] at this
    rw [this]; exact ⟨rfl, rfl⟩
  · have := hexdigits_full h hh rest
    rw [hfull] at this; exact this
  · have := decdigits_term h hh c hc rest (14 - h.length)
    rw [show h.length + (14 - h.length + 1) = 15 by omega] at this
    rw [this]; exact ⟨rfl, rfl⟩
  · have := decdigits_full h hh rest
    rw [hfull] at this; exact this

/-- Instance at the hex digits `4` `1` followed by the NUL cell and two more
cells: the reader returns 2 and the cursor is after the NUL. -/
theorem C21_digit_run_terminator_is_consumed_witness :
    (sub_hexdigits ([52, 49] ++ 0 :: [120, 52]) 64).digits = ([52, 49] : List Int).length ∧
    (sub_hexdigits ([52, 49] ++ 0 :: [120, 52]) 64).stream = [120, 52] :=
  ((C21_digit_run_terminator_is_consumed [52, 49] 0 [120, 52]).2.1 (by decide)).1
    (by decide) (by decide)

/-- What `sub_getdecnum` does when the first cell does not read as a decimal
digit: the cell is consumed, the byte 0 is written and 1 is returned. -/
theorem getdecnum_empty_run (c : Int) (rest : Stream) (msg : bintex_q)
    (hc : IS_DECVAL (cell_char c) = false) :
    sub_getdecnum (c :: rest) msg
      = { status := if cell_char c = 41 then 1
                    else if IS_WHITESPACE (cell_char c) = true then 0 else 2,
          ret := 1, stream := rest, msg := q_puts msg [0] } := by
  have hd := decdigits_term [] (by simp) c hc rest 14
  simp only [List.nil_append, List.length_nil, Nat.zero_add] at hd
  have hs : sub_getdecnum_autosize 0 3 0 1 = 1 := by
    simp [sub_getdecnum_autosize, bound]
  have hs2 : sub_getdecnum_autosize (-1) 3 0 1 = 1 := by
    simp [sub_getdecnum_autosize, bound]
  have hsel : c_and 1 3 = 1 := by decide
  unfold sub_getdecnum
  by_cases hneg : cell_char c = 45
  · have hb : (([cell_char c] : List Int).getD 0 0 == 45) = true := by simp [hneg]
    simp only [hd, hb, if_true, sub_getdecnum_scan]
    have h1 : ((0 : Int) - if (-1 : Int) < 0 then 1 else 0) = -1 := by decide
    have h2 : toInt32 (0 * -1) = 0 := by decide
    simp only [h1, h2, hs2, Nat.cast_one, hsel, or_true, if_true, q_writebyte, toUInt8,
      q_puts_cons, q_puts_nil]
    rfl
  · have hb : (([cell_char c] : List Int).getD 0 0 == 45) = false := by simp [hneg]
    simp only [hd, hb, Bool.false_eq_true, if_false, sub_getdecnum_scan]
    have h1 : ((0 : Int) - if (1 : Int) < 0 then 1 else 0) = 0 := by decide
    have h2 : toInt32 (0 * 1) = 0 := by decide
    simp only [h1, h2, hs, Nat.cast_one, hsel, or_true, if_true, q_writebyte, toUInt8,
      q_puts_cons, q_puts_nil]
    rfl

set_option maxRecDepth 100000 in
/-- Claim C23: whenever `sub_getdecnum` is called with the cursor at a cell
that does not read as a decimal digit (whitespace, `)`, the NUL or anything
else), it consumes that one cell, appends exactly one byte 0x00 and returns 1;
hence the block `()` yields the byte 0x00 and `(32  64)` with two spaces yields
0x20 0x00 0x40, whereas the hex block `[]` yields no byte. -/
theorem C23_empty_decimal_run_emits_a_byte (c : Int) (rest : Stream) (msg : bintex_q)
    (hc : IS_DECVAL (cell_char c) = false) :
    (sub_getdecnum (c :: rest) msg).ret = 1 ∧
    (sub_getdecnum (c :: rest) msg).stream = rest ∧
    q_appended msg (sub_getdecnum (c :: rest) msg).msg [0] ∧
    (sub_parsestream 0 1 [40, 41] q_zero).map
        (fun r => (r.ret, r.stream, r.msg.putcursor, q_bytes r.msg 0 1))
      = some (1, [], 1, [0]) ∧
    (sub_parsestream 0 3 [40, 51, 50, 32, 32, 54, 52, 41] q_zero).map
        (fun r => (r.ret, r.stream, r.msg.putcursor, q_bytes r.msg 0 3))
      = some (3, [], 3, [32, 0, 64]) ∧
    (sub_parsestream 0 1 [91, 93] q_zero).map
        (fun r => (r.ret, r.stream, r.msg.putcursor)) = some (0, [], 0) := by
  rw [getdecnum_empty_run c rest msg hc]
  exact ⟨rfl, rfl, q_puts_appended msg [0], by decide, by decide, by decide⟩

/-- Instance at the cell `)` of the empty block `()` on an empty queue. -/
theorem C23_empty_decimal_run_emits_a_byte_witness :
    (sub_getdecnum (41 :: []) q_zero).ret = 1 ∧ (sub_getdecnum (41 :: []) q_zero).stream = [] :=
  ⟨(C23_empty_decimal_run_emits_a_byte 41 [] q_zero (by decide)).1,
   (C23_empty_decimal_run_emits_a_byte 41 [] q_zero (by decide)).2.1⟩

/-- The lookahead of `sub_buffer_validatehex` over cells that read as hex
digits or whitespace, followed by a tail on which it stops at once with the
incremented counter: the counter is the number of cells read, as long as it
stays in the range of `int`. -/
theorem validatehex_loop_count (tail : Stream)
    (htail : ∀ br : Int, sub_buffer_validatehex_loop tail br = toInt32 (br + 1)) :
    ∀ (good : List Int),
      (∀ c ∈ good, IS_HEXVAL (toChar (c % 256)) = true ∨
        IS_WHITESPACE (toChar (c % 256)) = true) →
      ∀ br : Int, 0 ≤ br → br + good.length + 1 < 2147483648 →
        sub_buffer_validatehex_loop (good ++ tail) br = br + good.length + 1 := by
  intro good
  induction good with
  | nil =>
    intro _ br h0 h1
    simp only [List.nil_append, htail, List.length_nil, Nat.cast_zero, add_zero] at h1 ⊢
    exact toInt32_small _ (by omega) (by omega)
  | cons c good ih =>
    intro hg br h0 h1
    simp only [List.length_cons, Nat.cast_add, Nat.cast_one] at h1
    have hc := hg c (by simp)
    have hbr : toInt32 (br + 1) = br + 1 := toInt32_small _ (by omega) (by omega)
    have ha0 : toChar (c % 256) ≠ 0 := by
      intro h0'; rw [h0'] at hc; revert hc; decide
    have ha93 : toChar (c % 256) ≠ 93 := by
      intro h0'; rw [h0'] at hc; revert hc; decide
    have hcond : (!IS_HEXVAL (toChar (c % 256)) && !IS_WHITESPACE (toChar (c % 256))) = false := by
      rcases hc with hc | hc <;> simp [hc]
    simp only [List.cons_append, sub_buffer_validatehex_loop, hbr, if_neg ha0, if_neg ha93, hcond,
      Bool.false_eq_true, if_false]
    have hrec := ih (fun x hx => hg x (by simp [hx])) (br + 1) (by omega) (by omega)
    show sub_buffer_validatehex_loop (good ++ tail) (br + 1) = br + ((c :: good).length : Int) + 1
    rw [hrec]
    simp only [List.length_cons, Nat.cast_add, Nat.cast_one]
    omega

theorem validatehex_loop_stop (bad : Int) (rest : Stream)
    (hbad : toChar (bad % 256) ≠ 93 ∧ IS_HEXVAL (toChar (bad % 256)) = false ∧
      IS_WHITESPACE (toChar (bad % 256)) = false) (br : Int) :
    sub_buffer_validatehex_loop (bad :: rest) br = toInt32 (br + 1) := by
  obtain ⟨h93, hh, hw⟩ := hbad
  simp only [sub_buffer_validatehex_loop, if_neg h93, hh, hw]
  by_cases h0 : toChar (bad % 256) = 0 <;> simp [h0]

theorem gethexblock_loop_stopped (fuel : Nat) (status : Int) (stream : Stream) (msg : bintex_q)
    (hne : status ≠ 0) : sub_gethexblock_loop fuel status stream msg = some (stream, msg) := by
  cases fuel <;> simp [sub_gethexblock_loop, hne]

theorem gethexblock_skipped (fuel : Nat) (stream : Stream) (msg : bintex_q) (n : Nat)
    (hv : sub_buffer_validatehex 0 stream = (n : Int) + 1) :
    sub_gethexblock 0 fuel stream msg = some { ret := 0, stream := stream, msg := msg } := by
  unfold sub_gethexblock
  simp only [hv, gethexblock_loop_stopped fuel _ stream msg (by omega : (n : Int) + 1 ≠ 0),
    sub_self]

/-- Claim C22: when, scanning forward from just after `[`, a cell that reads
as neither a hex digit nor whitespace (the NUL included), or the end of the
memory, comes before any `]`, with the lookahead counter starting at zero and
within the range of `int`, `sub_gethexblock` leaves the queue as it is, leaves
the cursor just after `[` and returns 0. -/
theorem C22_malformed_hexblock_is_skipped (good : List Int) (bad : Int) (rest : Stream)
    (msg : bintex_q) (fuel : Nat)
    (hgood : ∀ c ∈ good, IS_HEXVAL (toChar (c % 256)) = true ∨
      IS_WHITESPACE (toChar (c % 256)) = true)
    (hbad : toChar (bad % 256) ≠ 93 ∧ IS_HEXVAL (toChar (bad % 256)) = false ∧
      IS_WHITESPACE (toChar (bad % 256)) = false)
    (hlen : good.length + 1 < 2147483648) :
    sub_gethexblock 0 fuel (good ++ bad :: rest) msg
      = some { ret := 0, stream := good ++ bad :: rest, msg := msg } ∧
    sub_gethexblock 0 fuel good msg = some { ret := 0, stream := good, msg := msg } := by
  constructor
  · refine gethexblock_skipped fuel _ msg good.length ?_
    unfold sub_buffer_validatehex
    rw [validatehex_loop_count (bad :: rest) (validatehex_loop_stop bad rest hbad) good hgood 0
      (le_refl 0) (by omega)]
    omega
  · refine gethexblock_skipped fuel _ msg good.length ?_
    unfold sub_buffer_validatehex
    have := validatehex_loop_count [] (fun br => by simp [sub_buffer_validatehex_loop]) good
      hgood 0 (le_refl 0) (by omega)
    rw [List.append_nil] at this
    rw [this]
    omega

set_option maxRecDepth 100000 in
/-- Instance at the block content `41 4g]` on an empty queue: the `g` comes
before the `]`, nothing is appended, the cursor does not move and 0 is
returned. -/
theorem C22_malformed_hexblock_is_skipped_witness :
    sub_gethexblock 0 0 ([52, 49, 32, 52] ++ 103 :: [93]) q_zero
      = some { ret := 0, stream := [52, 49, 32, 52] ++ 103 :: [93], msg := q_zero } :=
  (C22_malformed_hexblock_is_skipped [52, 49, 32, 52] 103 [93] q_zero 0
    (by decide) (by decide) (by decide)).1

theorem getc_len (s : Stream) : (sub_buffergetc s).2.length ≤ s.length := by
  cases s <;> simp [sub_buffergetc]

theorem parse_header_len : ∀ s : Stream, (sub_parse_header s).2.length ≤ s.length := by
  intro s
  induction s with
  | nil => simp [sub_parse_header]
  | cons c rest ih =>
    rw [sub_parse_header]
    split
    · exact Nat.le_succ_of_le ih
    · simp

theorem hexdigits_loop_len : ∀ (k : Nat) (D : Digits),
    (sub_hexdigits_loop k D).stream.length ≤ D.stream.length := by
  intro k
  induction k with
  | zero => intro D; simp [sub_hexdigits_loop]
  | succ k ih =>
    intro D
    rw [sub_hexdigits_loop]
    have hr := getc_len D.stream
    dsimp only
    split_ifs
    · exact hr
    · exact hr
    · exact hr
    · exact le_trans (ih _) hr

theorem decdigits_loop_len : ∀ (k : Nat) (D : Digits),
    (sub_decdigits_loop k D).stream.length ≤ D.stream.length := by
  intro k
  induction k with
  | zero => intro D; simp [sub_decdigits_loop]
  | succ k ih =>
    intro D
    rw [sub_decdigits_loop]
    have hr := getc_len D.stream
    dsimp only
    split_ifs
    · exact hr
    · exact hr
    · exact hr
    · exact le_trans (ih _) hr

/-- A call of `sub_hexdigits` that leaves the status 0 has consumed at least
one cell. -/
theorem hexdigits_status_zero (stream : Stream) (k : Nat)
    (h : (sub_hexdigits stream (k + 1)).status = 0) :
    (sub_hexdigits stream (k + 1)).stream.length < stream.length := by
  unfold sub_hexdigits at h ⊢
  rw [sub_hexdigits_loop] at h ⊢
  cases stream with
  | nil =>
    exfalso
    have e : toChar (-1) = -1 := by decide
    simp [sub_buffergetc, e, IS_HEXVAL, IS_WHITESPACE] at h
  | cons c rest =>
    simp only [getc_cell c rest] at h ⊢
    split_ifs at h ⊢
    · simp at h
    · simp at h
    · simp
    · have := hexdigits_loop_len k
        { status := 0, digits := 0 + 1, buf := [] ++ [toChar (sub_buffergetc [c]).1],
          stream := rest }
      simp only [List.length_cons] at this ⊢
      omega

/-- A call of `sub_decdigits` that leaves the status 0 has consumed at least
one cell. -/
theorem decdigits_status_zero (stream : Stream) (k : Nat)
    (h : (sub_decdigits stream (k + 1)).status = 0) :
    (sub_decdigits stream (k + 1)).stream.length < stream.length := by
  unfold sub_decdigits at h ⊢
  rw [sub_decdigits_loop] at h ⊢
  cases stream with
  | nil =>
    exfalso
    have e : toChar (-1) = -1 := by decide
    simp [sub_buffergetc, e, IS_DECVAL, IS_WHITESPACE] at h
  | cons c rest =>
    simp only [getc_cell c rest] at h ⊢
    split_ifs at h ⊢
    · simp at h
    · simp at h
    · simp
    · have := decdigits_loop_len k
        { status := 0, digits := 0 + 1, buf := [] ++ [toChar (sub_buffergetc [c]).1],
          stream := rest }
      simp only [List.length_cons] at this ⊢
      omega

theorem gethexnum_status (stream : Stream) (msg : bintex_q) :
    (sub_gethexnum stream msg).status = (sub_hexdigits stream 64).status ∧
    (sub_gethexnum stream msg).stream = (sub_hexdigits stream 64).stream :=
  ⟨rfl, rfl⟩

/-- The loop of `sub_gethexblock` is left within as many iterations as there
are cells ahead, plus one: each call of `sub_gethexnum` consumes at least one
cell or sets a non-zero status. -/
theorem gethexblock_loop_total : ∀ (fuel : Nat) (status : Int) (stream : Stream)
    (msg : bintex_q), stream.length + 1 ≤ fuel →
    ∃ r, sub_gethexblock_loop fuel status stream msg = some r := by
  intro fuel
  induction fuel with
  | zero => intro status stream msg hf; omega
  | succ f ih =>
    intro status stream msg hf
    by_cases hs : status = 0
    · rw [sub_gethexblock_loop, if_pos hs]
      dsimp only
      by_cases hd : (sub_gethexnum stream msg).status = 0
      · have hlt := hexdigits_status_zero stream 63
          (by rw [← (gethexnum_status stream msg).1]; exact hd)
        rw [← (gethexnum_status stream msg).2] at hlt
        exact ih _ _ _ (by omega)
      · exact ⟨_, gethexblock_loop_stopped f _ _ _ hd⟩
    · exact ⟨_, gethexblock_loop_stopped (f + 1) _ _ _ hs⟩

theorem getdecblock_loop_stopped (fuel : Nat) (status : Int) (stream : Stream) (msg : bintex_q)
    (hne : status ≠ 0) : sub_getdecblock_loop fuel status stream msg = some (stream, msg) := by
  cases fuel <;> simp [sub_getdecblock_loop, hne]

/-- The loop of `sub_getdecblock` is left within as many iterations as there
are cells ahead, plus one. -/
theorem getdecblock_loop_total : ∀ (fuel : Nat) (status : Int) (stream : Stream)
    (msg : bintex_q), stream.length + 1 ≤ fuel →
    ∃ r, sub_getdecblock_loop fuel status stream msg = some r := by
  intro fuel
  induction fuel with
  | zero => intro status stream msg hf; omega
  | succ f ih =>
    intro status stream msg hf
    by_cases hs : status = 0
    · rw [sub_getdecblock_loop, if_pos hs]
      obtain ⟨bs, hbs⟩ := getdecnum_any stream msg
      simp only [hbs]
      by_cases hd : (sub_decdigits stream 15).status = 0
      · have hlt : (sub_decdigits stream 15).stream.length < stream.length :=
          decdigits_status_zero stream 14 hd
        exact ih _ _ _ (by omega)
      · exact ⟨_, getdecblock_loop_stopped f _ _ _ hd⟩
    · exact ⟨_, getdecblock_loop_stopped (f + 1) _ _ _ hs⟩

/-- One iteration returns on every input whose token is not an ASCII string,
as soon as the bound on the loop iterations exceeds the number of cells. -/
theorem parsestream_total (garbage : Int) (stream : Stream) (msg : bintex_q)
    (hk : (sub_parse_header stream).1 ≠ Data_type.DATA_ascii) (fuel : Nat)
    (hf : stream.length + 1 ≤ fuel) :
    ∃ r, sub_parsestream garbage fuel stream msg = some r := by
  have hl := parse_header_len stream
  cases hk2 : (sub_parse_header stream).1 <;> simp only [sub_parsestream, hk2]
  case DATA_ascii => exact absurd hk2 hk
  case DATA_hexblock =>
    unfold sub_gethexblock
    obtain ⟨r, hr⟩ := gethexblock_loop_total fuel
      (sub_buffer_validatehex garbage (sub_parse_header stream).2) (sub_parse_header stream).2 msg
      (by omega)
    simp only [hr]
    exact ⟨_, rfl⟩
  case DATA_decblock =>
    unfold sub_getdecblock
    obtain ⟨r, hr⟩ := getdecblock_loop_total fuel 0 (sub_parse_header stream).2 msg (by omega)
    simp only [hr]
    exact ⟨_, rfl⟩
  all_goals exact ⟨_, rfl⟩

/-- The loop of `sub_getascii` on a body of items closed by a `"`: it is left at
that quote, within one iteration per item plus one. -/
theorem getascii_loop_scan (rest : Stream) :
    ∀ (items : List AsciiItem) (fuel : Nat) (msg : bintex_q),
      (∀ it ∈ items, it.scans = true) → items.length < fuel →
      ∃ q, sub_getascii_loop fuel (ascii_text items ++ 34 :: rest) msg = some (rest, q) := by
  intro items
  induction items with
  | nil =>
    intro fuel msg _ hf
    obtain ⟨f, rfl⟩ : ∃ f, fuel = f + 1 := ⟨fuel - 1, by simp at hf; omega⟩
    have g : sub_buffergetc ((34 : Int) :: rest) = (34, rest) := getc_ascii 34 _ (by omega) (by omega)
    have tc : toChar 34 = 34 := by decide
    simp only [ascii_text, List.nil_append, sub_getascii_loop, g, tc, if_true]
    exact ⟨_, rfl⟩
  | cons it items ih =>
    intro fuel msg hv hf
    obtain ⟨f, rfl⟩ : ∃ f, fuel = f + 1 := ⟨fuel - 1, by simp at hf; omega⟩
    have hf2 : items.length < f := by simp at hf; omega
    have hv2 : ∀ x ∈ items, x.scans = true := fun x hx => hv x (by simp [hx])
    have hit := hv it (by simp)
    cases it with
    | plain c =>
      have e : toChar (sub_buffergetc [c]).1 = cell_char c := rfl
      simp only [AsciiItem.scans, Bool.and_eq_true, bne_iff_ne, ne_eq] at hit
      simp only [ascii_text, AsciiItem.text, List.cons_append, List.nil_append, sub_getascii_loop,
        getc_cell c (ascii_text items ++ 34 :: rest), e, if_neg hit.1, if_neg hit.2]
      exact ih f _ hv2 hf2
    | esc c =>
      have g : sub_buffergetc ((92 : Int) :: (c :: (ascii_text items ++ 34 :: rest)))
          = (92, c :: (ascii_text items ++ 34 :: rest)) := getc_ascii 92 _ (by omega) (by omega)
      have tc : toChar 92 = 92 := by decide
      simp only [ascii_text, AsciiItem.text, List.cons_append, List.nil_append, sub_getascii_loop,
        g, tc, getc_cell c (ascii_text items ++ 34 :: rest), if_true]
      rw [if_neg (by decide)]
      exact ih f _ hv2 hf2

theorem gethexnum_loop_fuel (buf : List Int) (digits : Nat) :
    ∀ (fuel i : Nat) (msg : bintex_q) (k : Nat), digits ≤ i + fuel →
      sub_gethexnum_loop buf digits (fuel + k) i msg
        = sub_gethexnum_loop buf digits fuel i msg := by
  intro fuel
  induction fuel with
  | zero =>
    intro i msg k h
    cases k with
    | zero => rfl
    | succ k =>
      rw [show 0 + (k + 1) = k + 1 by omega]
      simp only [sub_gethexnum_loop]
      rw [if_neg (by omega)]
  | succ fuel ih =>
    intro i msg k h
    rw [Nat.add_right_comm]
    simp only [sub_gethexnum_loop]
    by_cases hlt : i < digits
    · simp only [if_pos hlt]
      exact ih _ _ _ (by omega)
    · simp only [if_neg hlt]

theorem getdecnum_scan_fuel (buf : List Int) (digits : Nat) :
    ∀ (fuel i : Nat) (number : Int) (k : Nat), digits ≤ i + fuel →
      sub_getdecnum_scan buf digits (fuel + k) i number
        = sub_getdecnum_scan buf digits fuel i number := by
  intro fuel
  induction fuel with
  | zero =>
    intro i number k h
    cases k with
    | zero => rfl
    | succ k =>
      rw [show 0 + (k + 1) = k + 1 by omega]
      simp only [sub_getdecnum_scan]
      rw [if_neg (by omega)]
  | succ fuel ih =>
    intro i number k h
    rw [Nat.add_right_comm]
    simp only [sub_getdecnum_scan]
    by_cases hlt : i < digits
    · simp only [if_pos hlt]
      by_cases hd : 48 ≤ buf.getD i 0 ∧ buf.getD i 0 ≤ 57
      · simp only [if_pos hd]
        exact ih _ _ _ (by omega)
      · simp only [if_neg hd]
    · simp only [if_neg hlt]

theorem getbinnum_inner_fst (buf : List Int) : ∀ (shift i : Nat) (byte : Int),
    (sub_getbinnum_inner buf shift i byte).1 = i + shift := by
  intro shift
  induction shift with
  | zero => intro i byte; simp [sub_getbinnum_inner]
  | succ shift ih =>
    intro i byte
    rw [sub_getbinnum_inner, if_pos (by omega)]
    dsimp only
    rw [ih]
    omega

theorem getbinnum_loop_fuel (buf : List Int) (digits : Nat) :
    ∀ (fuel shift i : Nat) (byte : Int) (msg : bintex_q) (k : Nat),
      digits ≤ i + shift + fuel →
      sub_getbinnum_loop buf digits (fuel + k) shift i byte msg
        = sub_getbinnum_loop buf digits fuel shift i byte msg := by
  intro fuel
  induction fuel with
  | zero =>
    intro shift i byte msg k h
    have hi := getbinnum_inner_fst buf shift i byte
    rw [sub_getbinnum_loop.eq_def]
    conv_rhs => rw [sub_getbinnum_loop.eq_def]
    dsimp only
    have hnot : ¬ (sub_getbinnum_inner buf shift i byte).1 < digits := by omega
    simp only [if_neg hnot]
  | succ fuel ih =>
    intro shift i byte msg k h
    have hi := getbinnum_inner_fst buf shift i byte
    rw [Nat.add_right_comm, sub_getbinnum_loop.eq_def]
    conv_rhs => rw [sub_getbinnum_loop.eq_def]
    dsimp only
    by_cases hlt : (sub_getbinnum_inner buf shift i byte).1 < digits
    · rw [if_pos hlt, if_pos hlt]
      exact ih _ _ _ _ _ (by omega)
    · rw [if_neg hlt, if_neg hlt]

theorem getdecnum_autosize_fuel (max : Int) (j size k : Nat) :
    sub_getdecnum_autosize max (3 + k) j size = sub_getdecnum_autosize max 3 j size := by
  have hz : bound.getD (j + 2 + 2) 0 = 0 := by
    rcases j with _ | _ | j <;> simp [bound]
  rw [show 3 + k = k + 1 + 1 + 1 by omega]
  simp only [sub_getdecnum_autosize, hz, true_or, if_true]

/-- The loops over the buffered digits in `sub_gethexnum`, `sub_getbinnum` and
`sub_getdecnum` are left by their own test within the number of iterations
given to them here (`digits`, and 3 for the sizing loop): more iterations do
not change their result. -/
theorem inner_loops_leave_by_their_test (buf : List Int) (digits i k shift j size : Nat)
    (byte number max : Int) (msg : bintex_q) :
    sub_gethexnum_loop buf digits (digits + k) i msg
      = sub_gethexnum_loop buf digits digits i msg ∧
    sub_getbinnum_loop buf digits (digits + k) shift i byte msg
      = sub_getbinnum_loop buf digits digits shift i byte msg ∧
    sub_getdecnum_scan buf digits (digits + k) i number
      = sub_getdecnum_scan buf digits digits i number ∧
    sub_getdecnum_autosize max (3 + k) j size = sub_getdecnum_autosize max 3 j size :=
  ⟨gethexnum_loop_fuel buf digits digits i msg k (by omega),
   getbinnum_loop_fuel buf digits digits shift i byte msg k (by omega),
   getdecnum_scan_fuel buf digits digits i number k (by omega),
   getdecnum_autosize_fuel max j size k⟩

/-- Claim C24: on every finite input (reads at and after its end yield the
end-of-input value), one iteration returns for every token kind other than
the ASCII string, as soon as the bound on the loop iterations exceeds the
number of cells of the input; for the ASCII string it returns when the body is
closed by an unescaped `"`, within one loop iteration per item of the body plus
one, and the cursor is then just after that quote. -/
theorem C24_one_iteration_terminates (garbage : Int) (stream : Stream) (msg : bintex_q) :
    ((sub_parse_header stream).1 ≠ Data_type.DATA_ascii →
      ∀ fuel, stream.length + 1 ≤ fuel →
        ∃ r, sub_parsestream garbage fuel stream msg = some r) ∧
    (∀ (items : List AsciiItem) (rest : Stream),
      sub_parse_header stream = (Data_type.DATA_ascii, ascii_text items ++ 34 :: rest) →
      (∀ it ∈ items, it.scans = true) →
      ∀ fuel, items.length < fuel →
        ∃ r, sub_parsestream garbage fuel stream msg = some r ∧ r.stream = rest) := by
  refine ⟨fun hk fuel hf => parsestream_total garbage stream msg hk fuel hf, ?_⟩
  intro items rest hh hv fuel hf
  obtain ⟨q, hq⟩ := getascii_loop_scan rest items fuel msg hv hf
  refine ⟨{ ret := q_length q - q_length msg, stream := rest, msg := q }, ?_, rfl⟩
  simp only [sub_parsestream, hh, sub_getascii, hq]

set_option maxRecDepth 100000 in
/-- Instance at the unclosed decimal block `(5 6` and at the string
`"A\"B"` followed by a space. -/
theorem C24_one_iteration_terminates_witness :
    (∃ r, sub_parsestream 0 5 [40, 53, 32, 54] q_zero = some r) ∧
    (∃ r, sub_parsestream 0 4 [34, 65, 92, 34, 66, 34, 32] q_zero = some r ∧ r.stream = [32]) :=
  ⟨(C24_one_iteration_terminates 0 [40, 53, 32, 54] q_zero).1 (by decide) 5 (by decide),
   (C24_one_iteration_terminates 0 [34, 65, 92, 34, 66, 34, 32] q_zero).2
      [AsciiItem.plain 65, AsciiItem.esc 34, AsciiItem.plain 66] [32] (by decide) (by decide)
      4 (by decide)⟩

/-- One turn of the loop of `bintex_ss` on an iteration that returns a
non-negative value: the loop goes on from the cursor and the queue it left. -/
theorem bintex_ss_loop_step (garbage : Int) (fuel : Nat) (s : Stream) (q : bintex_q)
    (size : Int) (it : Iter) (h : sub_parsestream garbage (fuel + 1) s q = some it)
    (hr : 0 ≤ it.ret) :
    bintex_ss_loop garbage (fuel + 1) s q size
      = bintex_ss_loop garbage fuel it.stream it.msg (toInt32 (size - it.ret)) := by
  rw [bintex_ss_loop]
  simp only [bintex_iter_sq, h]
  rw [if_neg (by omega)]

set_option maxRecDepth 100000 in
/-- Claim C17: when the digit run of a hex-number, binary-number or
decimal-number token, shorter than the digit limit, is ended by a cell that
reads as neither a digit of its base, nor whitespace, nor the close delimiter,
the digit reader sets the status 2, but one iteration does not report it: it
returns the number of bytes decoded from the digits read so far, which it has
appended, it leaves the cursor after the offending cell, and the loop of
`bintex_ss` goes on from there. On the input `x4g x41` the first iteration
returns 1, and `bintex_ss` decodes the second token as well and returns 2 with
the output 0x04 0x41. -/
theorem C17_malformed_digits_are_not_reported (d : List Int) (c : Int) (rest : Stream)
    (msg : bintex_q) (garbage : Int) (fuel : Nat) (size : Int)
    (hnw : IS_WHITESPACE (cell_char c) = false) :
    ((∀ x ∈ d, IS_HEXVAL x = true) → d.length < 64 → IS_HEXVAL (cell_char c) = false →
      cell_char c ≠ 93 →
      (sub_hexdigits (d ++ c :: rest) 64).status = 2 ∧
      sub_parsestream garbage fuel (120 :: (d ++ c :: rest)) msg
        = some { ret := ((pack_hex d).length : Int), stream := rest,
                 msg := q_puts msg (pack_hex d) } ∧
      bintex_ss_loop garbage (fuel + 1) (120 :: (d ++ c :: rest)) msg size
        = bintex_ss_loop garbage fuel rest (q_puts msg (pack_hex d))
            (toInt32 (size - ((pack_hex d).length : Int)))) ∧
    ((∀ x ∈ d, IS_BINVAL x = true) → d.length < 32 → IS_BINVAL (cell_char c) = false →
      (sub_bindigits (d ++ c :: rest) 32).status = 2 ∧
      sub_parsestream garbage fuel (98 :: (d ++ c :: rest)) msg
        = some { ret := ((pack_bits d).length : Int), stream := rest,
                 msg := q_puts msg (pack_bits d) } ∧
      bintex_ss_loop garbage (fuel + 1) (98 :: (d ++ c :: rest)) msg size
        = bintex_ss_loop garbage fuel rest (q_puts msg (pack_bits d))
            (toInt32 (size - ((pack_bits d).length : Int)))) ∧
    ((∀ x ∈ d, IS_DECVAL x = true) → d.length < 15 → IS_DECVAL (cell_char c) = false →
      cell_char c ≠ 41 →
      (sub_decdigits (d ++ c :: rest) 15).status = 2 ∧
      ∃ bs : List Int,
        sub_parsestream garbage fuel (100 :: (d ++ c :: rest)) msg
          = some { ret := (bs.length : Int), stream := rest, msg := q_puts msg bs } ∧
        bintex_ss_loop garbage (fuel + 1) (100 :: (d ++ c :: rest)) msg size
          = bintex_ss_loop garbage fuel rest (q_puts msg bs)
              (toInt32 (size - (bs.length : Int)))) ∧
    ((sub_hexdigits [52, 103, 32, 120, 52, 49] 64).status = 2 ∧
      (sub_parsestream 0 1 [120, 52, 103, 32, 120, 52, 49] q_zero).map
          (fun r => (r.ret, r.stream)) = some (1, [32, 120, 52, 49]) ∧
      (bintex_ss 0 3 [120, 52, 103, 32, 120, 52, 49] (fun _ => 0) 0 512).map
          (fun p => (p.1, q_bytes p.2 0 2)) = some (2, [4, 65])) := by
  refine ⟨?_, ?_, ?_, by decide, by decide, by decide⟩
  · intro hd hlen hnh hnc
    have hdig := hexdigits_term d hd c hnh rest (63 - d.length)
    rw [show d.length + (63 - d.length + 1) = 64 by omega, if_neg hnc, hnw] at hdig
    simp only [Bool.false_eq_true, if_false] at hdig
    have hnum := gethexnum_of_digits (d ++ c :: rest) msg d [cell_char c] 2 rest hd
      (by omega) hdig
    have hps : ∀ f, sub_parsestream garbage f (120 :: (d ++ c :: rest)) msg
        = some { ret := ((pack_hex d).length : Int), stream := rest,
                 msg := q_puts msg (pack_hex d) } := by
      intro f
      simp only [sub_parsestream, parse_header_hexnum, hnum, pack_hex_length]
    refine ⟨by rw [hdig], hps fuel, ?_⟩
    exact bintex_ss_loop_step garbage fuel _ msg size _ (hps (fuel + 1))
      (by show (0 : Int) ≤ ((pack_hex d).length : Int); omega)
  · intro hd hlen hnb
    have hdig := bindigits_term d hd c hnb rest (31 - d.length)
    rw [show d.length + (31 - d.length + 1) = 32 by omega, hnw] at hdig
    simp only [Bool.false_eq_true, if_false] at hdig
    have hnum := getbinnum_of_digits (d ++ c :: rest) msg d [cell_char c] 2 rest hd
      (by omega) hdig
    have hps : ∀ f, sub_parsestream garbage f (98 :: (d ++ c :: rest)) msg
        = some { ret := ((pack_bits d).length : Int), stream := rest,
                 msg := q_puts msg (pack_bits d) } := by
      intro f
      simp only [sub_parsestream, parse_header_binnum, hnum, pack_bits_length]
    refine ⟨by rw [hdig], hps fuel, ?_⟩
    exact bintex_ss_loop_step garbage fuel _ msg size _ (hps (fuel + 1))
      (by show (0 : Int) ≤ ((pack_bits d).length : Int); omega)
  · intro hd hlen hnd hnc
    have hdig := decdigits_term d hd c hnd rest (14 - d.length)
    rw [show d.length + (14 - d.length + 1) = 15 by omega, if_neg hnc, hnw] at hdig
    simp only [Bool.false_eq_true, if_false] at hdig
    obtain ⟨bs, hnum⟩ := getdecnum_any (d ++ c :: rest) msg
    rw [hdig] at hnum
    have hps : ∀ f, sub_parsestream garbage f (100 :: (d ++ c :: rest)) msg
        = some { ret := (bs.length : Int), stream := rest, msg := q_puts msg bs } := by
      intro f
      simp only [sub_parsestream, parse_header_decnum, hnum]
    refine ⟨by rw [hdig], bs, hps fuel, ?_⟩
    exact bintex_ss_loop_step garbage fuel _ msg size _ (hps (fuel + 1))
      (by show (0 : Int) ≤ (bs.length : Int); omega)

set_option maxRecDepth 100000 in
/-- Instance at the token `x4g` followed by ` x41`: the digit `4` is ended by
the character `g`; the iteration appends the byte 0x04 and returns 1, and the
loop of `bintex_ss` goes on at ` x41`. -/
theorem C17_malformed_digits_are_not_reported_witness :
    (sub_hexdigits ([52] ++ 103 :: [32, 120, 52, 49]) 64).status = 2 ∧
    sub_parsestream 0 1 (120 :: ([52] ++ 103 :: [32, 120, 52, 49])) q_zero
      = some { ret := ((pack_hex [52]).length : Int), stream := [32, 120, 52, 49],
               msg := q_puts q_zero (pack_hex [52]) } ∧
    bintex_ss_loop 0 (1 + 1) (120 :: ([52] ++ 103 :: [32, 120, 52, 49])) q_zero 512
      = bintex_ss_loop 0 1 [32, 120, 52, 49] (q_puts q_zero (pack_hex [52]))
          (toInt32 (512 - ((pack_hex [52]).length : Int))) :=
  (C17_malformed_digits_are_not_reported [52] 103 [32, 120, 52, 49] q_zero 0 1 512
    (by decide)).1 (by decide) (by decide) (by decide) (by decide)


end BinTex
